import Mathlib

/-!
# Fibril synchronization primitives (`uspace/lib/c/generic/fibril_synch.c`)

A shallow embedding of the mutex, reader-writer lock, condition variable,
counting semaphore, deferred timer and ownership-chain deadlock detector of
`fibril_synch.c`.

Conventions of the embedding

* Pointers become indices: a fibril is a `fid_t` (a natural number), a mutex,
  rwlock, condition variable, semaphore or timer is the index of its slot in
  the `World`.  A NULL pointer (and the fibril id 0 of `handler_fid`) is
  `none`.
* `fibril_get_id()` / `fibril_self()` is the explicit argument `self` of every
  operation.
* All operations run under `async_futex`, so each one is an atomic function on
  the `World`.
* `fibril_notify(&wdp->event)` appends the fibril of the wait record to the
  log `World.notified`; `fibril_wait_for(&wdata.event)` ends an operation with
  the outcome `suspended`.
* `abort()` and a failing `assert` end an operation with the outcome
  `aborted`.  `print_deadlock` only prints before the process is aborted (both
  of its paths end in `abort()`), so it has no counterpart here.
* The intrusive lists of `adt/list.h` are Lean lists: `list_append` appends at
  the tail, `list_pop` and `list_first` take the head, `list_remove` of the
  first record leaves the tail.
* The `while` loop of `check_fibril_for_deadlock` need not terminate, so it
  takes fuel; `none` means that the fuel ran out.
* `counter` is a C `int` and the semaphore `count` a C `long` (signed overflow
  is undefined behaviour and is not modelled: `Int`); `readers` and `writers`
  are C `unsigned` and wrap modulo `UINT_MOD`.
* A call that blocks in the middle (`fibril_condvar_wait_timeout`, the timer
  fibril) is cut at its suspension points: one function per straight-line
  segment, named after the source function.
* Time is an integer number of microseconds.
-/

namespace FibrilSynch

/-! ## Data model -/

/-- Fibril identifier (`fid_t`, also used for `fibril_t *`). -/
abbrev fid_t := Nat

/-- Modelled from the spec: `fibril_owner_info_t` is declared in the header
`fibril_synch.h`, which is not among the sources.  It holds `owned_by` and is
embedded as `oi` in a mutex or in a rwlock, so a pointer to it names the
primitive that embeds it. -/
inductive oi_ref where
  | mutex (fm : Nat)
  | rwlock (frw : Nat)
  deriving DecidableEq

/-- Wait record `awaiter_t`.  The `link` is the position in a waiter list and
the `event` is identified with the record itself. -/
structure awaiter_t where
  fid : fid_t
  mutex : Option Nat
  deriving DecidableEq

/-- Initializer `AWAITER_INIT`: `{ .fid = fibril_get_id() }`. -/
def AWAITER_INIT (self : fid_t) : awaiter_t :=
  { fid := self, mutex := none }

/-- Modelled from the spec: `fibril_t` is declared in `private/fibril.h`, which
is not among the sources.  These are the two fields that `fibril_synch.c`
reads and writes. -/
structure fibril_t where
  waits_for : Option oi_ref
  is_writer : Bool
  deriving DecidableEq

/-- Modelled from the spec: `fibril_mutex_t` is declared in `fibril_synch.h`,
which is not among the sources.  The fields are those that `fibril_synch.c`
uses; `owned_by` is `oi.owned_by` and `counter` is a signed integer. -/
structure fibril_mutex_t where
  owned_by : Option fid_t
  counter : Int
  waiters : List awaiter_t
  deriving DecidableEq

/-- Modelled from the spec: the rwlock counters are unsigned integers; their
declaration is not among the sources, and the width taken here is that of the
C type `unsigned`, 32 bits. -/
def UINT_MOD : Nat := 4294967296

/-- Modelled from the spec: `fibril_rwlock_t` is declared in `fibril_synch.h`,
which is not among the sources.  The fields are those that `fibril_synch.c`
uses; `owned_by` is `oi.owned_by`, `writers` and `readers` are unsigned. -/
structure fibril_rwlock_t where
  owned_by : Option fid_t
  writers : Nat
  readers : Nat
  waiters : List awaiter_t
  deriving DecidableEq

/-- Modelled from the spec: `fibril_condvar_t` is declared in `fibril_synch.h`,
which is not among the sources; its only field is the waiter list. -/
structure fibril_condvar_t where
  waiters : List awaiter_t
  deriving DecidableEq

/-- Modelled from the spec: `fibril_semaphore_t` is declared in
`fibril_synch.h`, which is not among the sources.  The fields are those that
`fibril_synch.c` uses; `count` is a signed integer. -/
structure fibril_semaphore_t where
  count : Int
  waiters : List awaiter_t
  deriving DecidableEq

/-- Modelled from the spec: the enumeration `fibril_timer_state_t` is declared
in `fibril_synch.h`, which is not among the sources; these are the five states
that `fibril_synch.c` names. -/
inductive fibril_timer_state_t where
  | fts_not_set
  | fts_active
  | fts_fired
  | fts_cleanup
  | fts_clean
  deriving DecidableEq

/-- Modelled from the spec: `fibril_timer_t` is declared in `fibril_synch.h`,
which is not among the sources.  The fields are those that `fibril_synch.c`
uses: `lock` and `cv` are the indices of the embedded mutex and condition
variable, `lockp` is the index of the mutex in use, `func` is the callback
`fun` and `arg` its argument (`none` is NULL), `handler_fid` is `none` for 0. -/
structure fibril_timer_t where
  lock : Nat
  lockp : Nat
  cv : Nat
  fibril : fid_t
  state : fibril_timer_state_t
  handler_fid : Option fid_t
  delay : Int
  func : Option Nat
  arg : Option Nat
  deriving DecidableEq

/-- The memory the library works on, and the log of `fibril_notify` calls. -/
structure World where
  fibrils : fid_t → fibril_t
  mutexes : Nat → fibril_mutex_t
  rwlocks : Nat → fibril_rwlock_t
  condvars : Nat → fibril_condvar_t
  semaphores : Nat → fibril_semaphore_t
  timers : Nat → fibril_timer_t
  notified : List fid_t

/-- Store to one fibril. -/
def World.setFibril (w : World) (f : fid_t) (v : fibril_t) : World :=
  { w with fibrils := fun g => if g = f then v else w.fibrils g }

/-- Store to one mutex. -/
def World.setMutex (w : World) (fm : Nat) (v : fibril_mutex_t) : World :=
  { w with mutexes := fun i => if i = fm then v else w.mutexes i }

/-- Store to one rwlock. -/
def World.setRwlock (w : World) (frw : Nat) (v : fibril_rwlock_t) : World :=
  { w with rwlocks := fun i => if i = frw then v else w.rwlocks i }

/-- Store to one condition variable. -/
def World.setCondvar (w : World) (fcv : Nat) (v : fibril_condvar_t) : World :=
  { w with condvars := fun i => if i = fcv then v else w.condvars i }

/-- Store to one semaphore. -/
def World.setSemaphore (w : World) (sem : Nat) (v : fibril_semaphore_t) : World :=
  { w with semaphores := fun i => if i = sem then v else w.semaphores i }

/-- Store to one timer. -/
def World.setTimer (w : World) (t : Nat) (v : fibril_timer_t) : World :=
  { w with timers := fun i => if i = t then v else w.timers i }

/-- Log of one `fibril_notify(&wdp->event)`. -/
def World.notify (w : World) (wdp : awaiter_t) : World :=
  { w with notified := w.notified ++ [wdp.fid] }

/-- Load of `oi->owned_by`. -/
def World.owned_by (w : World) : oi_ref → Option fid_t
  | .mutex fm => (w.mutexes fm).owned_by
  | .rwlock frw => (w.rwlocks frw).owned_by

/-- How a call of an operation ends. -/
inductive Outcome (α : Type) where
  | returned (v : α) (w : World)
  | suspended (w : World)
  | aborted

/-- The call returned. -/
def Outcome.isReturned {α : Type} : Outcome α → Bool
  | .returned _ _ => true
  | _ => false

/-- The caller was parked in `fibril_wait_for`. -/
def Outcome.isSuspended {α : Type} : Outcome α → Bool
  | .suspended _ => true
  | _ => false

/-- The process was aborted. -/
def Outcome.isAborted {α : Type} : Outcome α → Bool
  | .aborted => true
  | _ => false

/-- The memory the call left behind, when the process survived it. -/
def Outcome.world {α : Type} : Outcome α → Option World
  | .returned _ w => some w
  | .suspended w => some w
  | .aborted => none

/-! ## Deadlock detector -/

/-- Loop of `check_fibril_for_deadlock`: `some true` when the walk meets `fib`
(the branch that prints the chain and calls `abort()`), `some false` when the
loop condition `oi && oi->owned_by` fails, `none` when the fuel runs out. -/
def check_fibril_for_deadlock (w : World) :
    Nat → Option oi_ref → fid_t → Option Bool
  | 0, _, _ => none
  | fuel + 1, oi, fib =>
    match oi with
    | none => some false
    | some r =>
      match w.owned_by r with
      | none => some false
      | some o =>
        if o = fib then some true
        else check_fibril_for_deadlock w fuel (w.fibrils o).waits_for fib

/-- Wrapper `check_for_deadlock`: the check for the calling fibril. -/
def check_for_deadlock (w : World) (fuel : Nat) (oi : oi_ref) (self : fid_t) :
    Option Bool :=
  check_fibril_for_deadlock w fuel (some oi) self

/-! ## Mutex -/

/-- Function `fibril_mutex_initialize`. -/
def fibril_mutex_initialize (w : World) (fm : Nat) : World :=
  w.setMutex fm { owned_by := none, counter := 1, waiters := [] }

/-- Function `fibril_mutex_lock`.  The test `fm->counter-- > 0` reads the old
value and decrements in both branches. -/
def fibril_mutex_lock (fuel : Nat) (w : World) (fm : Nat) (self : fid_t) :
    Option (Outcome Unit) :=
  let m := w.mutexes fm
  if m.counter > 0 then
    some (.returned ()
      (w.setMutex fm { m with counter := m.counter - 1, owned_by := some self }))
  else
    let w1 := w.setMutex fm
      { m with counter := m.counter - 1,
               waiters := m.waiters ++ [AWAITER_INIT self] }
    match check_for_deadlock w1 fuel (.mutex fm) self with
    | none => none
    | some true => some .aborted
    | some false =>
      some (.suspended
        (w1.setFibril self
          { (w1.fibrils self) with waits_for := some (.mutex fm) }))

/-- Function `fibril_mutex_trylock`. -/
def fibril_mutex_trylock (w : World) (fm : Nat) (self : fid_t) : Outcome Bool :=
  let m := w.mutexes fm
  if m.counter > 0 then
    .returned true
      (w.setMutex fm { m with counter := m.counter - 1, owned_by := some self })
  else
    .returned false w

/-- Function `_fibril_mutex_unlock_unsafe`; `none` is a failed `assert`. -/
def _fibril_mutex_unlock_unsafe (w : World) (fm : Nat) (self : fid_t) :
    Option World :=
  let m := w.mutexes fm
  if m.owned_by = some self then
    if m.counter < 0 then
      match m.waiters with
      | [] => none
      | wdp :: rest =>
        let w1 := w.setMutex fm
          { owned_by := some wdp.fid, counter := m.counter + 1, waiters := rest }
        let w2 := w1.setFibril wdp.fid
          { (w1.fibrils wdp.fid) with waits_for := none }
        some (w2.notify wdp)
    else
      some (w.setMutex fm { m with counter := m.counter + 1, owned_by := none })
  else
    none

/-- Function `fibril_mutex_unlock`. -/
def fibril_mutex_unlock (w : World) (fm : Nat) (self : fid_t) : Outcome Unit :=
  match _fibril_mutex_unlock_unsafe w fm self with
  | none => .aborted
  | some w1 => .returned () w1

/-- Function `fibril_mutex_is_locked`. -/
def fibril_mutex_is_locked (w : World) (fm : Nat) (self : fid_t) : Bool :=
  decide ((w.mutexes fm).owned_by = some self)

/-! ## Reader-writer lock -/

/-- Function `fibril_rwlock_initialize`. -/
def fibril_rwlock_initialize (w : World) (frw : Nat) : World :=
  w.setRwlock frw { owned_by := none, writers := 0, readers := 0, waiters := [] }

/-- Function `fibril_rwlock_read_lock`.  The test `frw->readers++ == 0` reads
the old value. -/
def fibril_rwlock_read_lock (fuel : Nat) (w : World) (frw : Nat) (self : fid_t) :
    Option (Outcome Unit) :=
  let rw := w.rwlocks frw
  if rw.writers = 0 then
    some (.returned ()
      (w.setRwlock frw
        { rw with readers := (rw.readers + 1) % UINT_MOD,
                  owned_by := if rw.readers = 0 then some self else rw.owned_by }))
  else
    let w1 := w.setFibril self { (w.fibrils self) with is_writer := false }
    let w2 := w1.setRwlock frw { rw with waiters := rw.waiters ++ [AWAITER_INIT self] }
    match check_for_deadlock w2 fuel (.rwlock frw) self with
    | none => none
    | some true => some .aborted
    | some false =>
      some (.suspended
        (w2.setFibril self
          { (w2.fibrils self) with waits_for := some (.rwlock frw) }))

/-- Function `fibril_rwlock_write_lock`. -/
def fibril_rwlock_write_lock (fuel : Nat) (w : World) (frw : Nat) (self : fid_t) :
    Option (Outcome Unit) :=
  let rw := w.rwlocks frw
  if rw.writers = 0 ∧ rw.readers = 0 then
    some (.returned ()
      (w.setRwlock frw
        { rw with owned_by := some self, writers := (rw.writers + 1) % UINT_MOD }))
  else
    let w1 := w.setFibril self { (w.fibrils self) with is_writer := true }
    let w2 := w1.setRwlock frw { rw with waiters := rw.waiters ++ [AWAITER_INIT self] }
    match check_for_deadlock w2 fuel (.rwlock frw) self with
    | none => none
    | some true => some .aborted
    | some false =>
      some (.suspended
        (w2.setFibril self
          { (w2.fibrils self) with waits_for := some (.rwlock frw) }))

/-- The `while (!list_empty(&frw->waiters))` loop of
`_fibril_rwlock_common_unlock`.  The list argument is the waiter queue of the
rwlock at the head of the loop; `list_remove` of its first record leaves the
tail. -/
def rwlock_grant_loop (frw : Nat) : List awaiter_t → World → World
  | [], w => w
  | wdp :: rest, w =>
    let rw := w.rwlocks frw
    let f := wdp.fid
    if (w.fibrils f).is_writer = true ∧ rw.readers ≠ 0 then
      w
    else
      let rw1 : fibril_rwlock_t :=
        if (w.fibrils f).is_writer = true then
          { rw with writers := (rw.writers + 1) % UINT_MOD }
        else
          { rw with readers := (rw.readers + 1) % UINT_MOD }
      let w1 := w.setFibril f { (w.fibrils f) with waits_for := none }
      let w2 := w1.setRwlock frw { rw1 with waiters := rest, owned_by := some f }
      let w3 := w2.notify wdp
      if rw1.writers ≠ 0 then w3 else rwlock_grant_loop frw rest w3

/-- Second half of `_fibril_rwlock_common_unlock`, from the assertion
`assert(!frw->readers && !frw->writers)` on; `none` is the failed assertion. -/
def rwlock_unlock_free (w : World) (frw : Nat) : Option World :=
  let rw := w.rwlocks frw
  if rw.readers = 0 ∧ rw.writers = 0 then
    some (rwlock_grant_loop frw rw.waiters (w.setRwlock frw { rw with owned_by := none }))
  else
    none

/-- Function `_fibril_rwlock_common_unlock`; `none` is a failed `assert`. -/
def _fibril_rwlock_common_unlock (w : World) (frw : Nat) (self : fid_t) :
    Option World :=
  let rw := w.rwlocks frw
  if rw.readers ≠ 0 then
    let rw1 : fibril_rwlock_t := { rw with readers := rw.readers - 1 }
    if rw1.readers ≠ 0 then
      if rw1.owned_by = some self then
        some (w.setRwlock frw { rw1 with owned_by := none })
      else
        some (w.setRwlock frw rw1)
    else
      rwlock_unlock_free (w.setRwlock frw rw1) frw
  else
    rwlock_unlock_free
      (w.setRwlock frw { rw with writers := (rw.writers + UINT_MOD - 1) % UINT_MOD }) frw

/-- Function `fibril_rwlock_read_unlock`. -/
def fibril_rwlock_read_unlock (w : World) (frw : Nat) (self : fid_t) : Outcome Unit :=
  if (w.rwlocks frw).readers > 0 then
    match _fibril_rwlock_common_unlock w frw self with
    | none => .aborted
    | some w1 => .returned () w1
  else
    .aborted

/-- Function `fibril_rwlock_write_unlock`. -/
def fibril_rwlock_write_unlock (w : World) (frw : Nat) (self : fid_t) : Outcome Unit :=
  if (w.rwlocks frw).writers = 1 then
    if (w.rwlocks frw).owned_by = some self then
      match _fibril_rwlock_common_unlock w frw self with
      | none => .aborted
      | some w1 => .returned () w1
    else
      .aborted
  else
    .aborted

/-! ## Condition variable: entering a wait -/

/-- Modelled from the spec: the two status codes of `errno.h` that the library
returns. -/
inductive errno_t where
  | EOK
  | ETIMEOUT
  deriving DecidableEq

/-- Function `fibril_condvar_wait_timeout` up to its suspension point
`fibril_wait_timeout(&wdata.event, expires)`: the assertion, the early return
for a negative timeout, and the critical section that releases the mutex and
appends the wait record to the condition variable. -/
def fibril_condvar_wait_timeout (w : World) (fcv fm : Nat) (timeout : Int)
    (self : fid_t) : Outcome errno_t :=
  if fibril_mutex_is_locked w fm self = true then
    if timeout < 0 then
      .returned .ETIMEOUT w
    else
      let wdata : awaiter_t := { AWAITER_INIT self with mutex := some fm }
      match _fibril_mutex_unlock_unsafe w fm self with
      | none => .aborted
      | some w1 =>
        .suspended
          (w1.setCondvar fcv { waiters := (w1.condvars fcv).waiters ++ [wdata] })
  else
    .aborted

/-! ## Condition variable: resuming, signalling -/

/-- Function `fibril_condvar_initialize`. -/
def fibril_condvar_initialize (w : World) (fcv : Nat) : World :=
  w.setCondvar fcv { waiters := [] }

/-- The deadline that `fibril_condvar_wait_timeout` computes before it suspends:
`expires` stays NULL when `timeout` is 0, else it is the uptime `now` read by
`getuptime` plus `timeout` (`tv_add_diff`). -/
def condvar_expires (now timeout : Int) : Option Int :=
  if timeout ≠ 0 then some (now + timeout) else none

/-- Modelled from the spec: `fibril_wait_timeout(&wdata.event, expires)` belongs
to the scheduler, whose code is not among the sources.  It parks the caller
until the event is notified or until the deadline, if there is one, has
passed.  The value tells whether a parked call may return at time `now`,
given whether its event has been notified. -/
def fibril_wait_timeout_ends (event_notified : Bool) (expires : Option Int) (now : Int) :
    Bool :=
  event_notified ||
    (match expires with
     | some deadline => decide (deadline ≤ now)
     | none => false)

/-- What `fibril_condvar_wait_timeout` does after its suspension point: `rc` is
the value that the call returns once the nested `fibril_mutex_lock(fm)` has
completed, `relock` is how that nested call ended. -/
structure condvar_resumed where
  rc : errno_t
  relock : Outcome Unit

/-- Function `fibril_condvar_wait_timeout` from its suspension point on: the test
`link_in_use(&wdata.link)`, the removal of the wait record, and
`fibril_mutex_lock(fm)`. -/
def fibril_condvar_wait_timeout_resume (fuel : Nat) (w : World) (fcv fm : Nat)
    (self : fid_t) : Option condvar_resumed :=
  let wdata : awaiter_t := { AWAITER_INIT self with mutex := some fm }
  let timed_out : Bool := decide (wdata ∈ (w.condvars fcv).waiters)
  let w1 := w.setCondvar fcv { waiters := (w.condvars fcv).waiters.erase wdata }
  match fibril_mutex_lock fuel w1 fm self with
  | none => none
  | some r => some { rc := if timed_out = true then .ETIMEOUT else .EOK, relock := r }

/-- Function `fibril_condvar_signal`. -/
def fibril_condvar_signal (w : World) (fcv : Nat) : World :=
  match (w.condvars fcv).waiters with
  | [] => w
  | wdp :: rest => (w.setCondvar fcv { waiters := rest }).notify wdp

/-- The `while ((w = list_pop(...)))` loop of `fibril_condvar_broadcast`.  The
list argument is the waiter queue at the head of the loop. -/
def condvar_broadcast_loop (fcv : Nat) : List awaiter_t → World → World
  | [], w => w
  | wdp :: rest, w =>
    condvar_broadcast_loop fcv rest ((w.setCondvar fcv { waiters := rest }).notify wdp)

/-- Function `fibril_condvar_broadcast`. -/
def fibril_condvar_broadcast (w : World) (fcv : Nat) : World :=
  condvar_broadcast_loop fcv (w.condvars fcv).waiters w

/-! ## Counting semaphore -/

/-- Function `fibril_semaphore_initialize`; `none` is the failed
`assert(count >= 0)`. -/
def fibril_semaphore_initialize (w : World) (sem : Nat) (count : Int) : Option World :=
  if count ≥ 0 then
    some (w.setSemaphore sem { count := count, waiters := [] })
  else
    none

/-- Function `fibril_semaphore_up`. -/
def fibril_semaphore_up (w : World) (sem : Nat) : Outcome Unit :=
  let s := w.semaphores sem
  if s.count + 1 ≤ 0 then
    match s.waiters with
    | [] => .aborted
    | wdp :: rest =>
      .returned ()
        ((w.setSemaphore sem { count := s.count + 1, waiters := rest }).notify wdp)
  else
    .returned () (w.setSemaphore sem { s with count := s.count + 1 })

/-- Function `fibril_semaphore_down`. -/
def fibril_semaphore_down (w : World) (sem : Nat) (self : fid_t) : Outcome Unit :=
  let s := w.semaphores sem
  if s.count - 1 ≥ 0 then
    .returned () (w.setSemaphore sem { s with count := s.count - 1 })
  else
    .suspended
      (w.setSemaphore sem
        { count := s.count - 1, waiters := s.waiters ++ [AWAITER_INIT self] })

/-! ## Deferred timer -/

/-- Function `fibril_timer_create`.  `t`, `lock_slot` and `cv_slot` are the
places of the zeroed timer that `calloc` returned and of its embedded mutex and
condition variable; `fid` is the result of `fibril_create` (`none` for 0);
the result `none` is the return of NULL. -/
def fibril_timer_create (w : World) (t lock_slot cv_slot : Nat) (fid : Option fid_t)
    (lock : Option Nat) : Option World :=
  match fid with
  | none => none
  | some f =>
    let w1 := fibril_mutex_initialize w lock_slot
    let w2 := fibril_condvar_initialize w1 cv_slot
    some (w2.setTimer t
      { lock := lock_slot, lockp := lock.getD lock_slot, cv := cv_slot, fibril := f,
        state := .fts_not_set, handler_fid := none, delay := 0, func := none,
        arg := none })

/-- Function `fibril_timer_set_locked`. -/
def fibril_timer_set_locked (w : World) (t : Nat) (delay : Int) (func arg : Option Nat)
    (self : fid_t) : Outcome Unit :=
  let tm := w.timers t
  if fibril_mutex_is_locked w tm.lockp self = true then
    if tm.state = .fts_not_set ∨ tm.state = .fts_fired then
      let w1 := w.setTimer t
        { tm with state := .fts_active, delay := delay, func := func, arg := arg }
      .returned () (fibril_condvar_broadcast w1 tm.cv)
    else
      .aborted
  else
    .aborted

/-- How one pass through `fibril_timer_clear_locked` ends. -/
inductive timer_clear where
  /-- The call returns `old_state`. -/
  | done (old_state : fibril_timer_state_t) (w : World)
  /-- The loop body called `fibril_condvar_wait(&timer->cv, timer->lockp)`, which
  ended as `o`; when that wait returns, the loop condition is tested again. -/
  | wait (o : Outcome errno_t)
  /-- The caller is the fibril that runs the handler: `abort()`. -/
  | aborted

/-- Function `fibril_timer_clear_locked` from the head of its `while` loop, with
the lock held. -/
def fibril_timer_clear_locked_loop (w : World) (t : Nat) (self : fid_t) : timer_clear :=
  let tm := w.timers t
  match tm.handler_fid with
  | some h =>
    if h = self then
      .aborted
    else
      .wait (fibril_condvar_wait_timeout w tm.cv tm.lockp 0 self)
  | none =>
    let w1 := w.setTimer t
      { tm with state := .fts_not_set, delay := 0, func := none, arg := none }
    .done tm.state (fibril_condvar_broadcast w1 tm.cv)

/-- Function `fibril_timer_clear_locked`: the assertion, then the loop. -/
def fibril_timer_clear_locked (w : World) (t : Nat) (self : fid_t) : timer_clear :=
  if fibril_mutex_is_locked w (w.timers t).lockp self = true then
    fibril_timer_clear_locked_loop w t self
  else
    .aborted

/-- The assertion of `fibril_timer_destroy`:
`timer->state == fts_not_set || timer->state == fts_fired`. -/
def fibril_timer_destroy_assert (tm : fibril_timer_t) : Bool :=
  decide (tm.state = .fts_not_set ∨ tm.state = .fts_fired)

/-- Function `fibril_timer_destroy` between its `fibril_mutex_lock` and its wait
loop: the assertion, the request to terminate, the broadcast; `none` is the
failed assertion. -/
def fibril_timer_destroy_request (w : World) (t : Nat) : Option World :=
  let tm := w.timers t
  if fibril_timer_destroy_assert tm = true then
    some (fibril_condvar_broadcast (w.setTimer t { tm with state := .fts_cleanup }) tm.cv)
  else
    none

/-- How one pass of the timer fibril from the head of its loop ends. -/
inductive timer_loop where
  /-- The switch called `fibril_condvar_wait_timeout(&timer->cv, timer->lockp,
  timeout)`, which ended as `o`; `armed` tells that this was the
  `case fts_active` arm, whose code goes on when the wait returns. -/
  | wait (armed : Bool) (timeout : Int) (o : Outcome errno_t)
  /-- The loop condition failed: `fts_clean` was set, the broadcast done, and
  `fibril_mutex_unlock` ended as `o`. -/
  | finished (o : Outcome Unit)
  /-- The arm `case fts_clean`: `assert(false)`. -/
  | assert_failed

/-- Function `fibril_timer_func` from the head of its `while` loop, with the lock
held, to the next wait or to the end of the function. -/
def fibril_timer_func_loop (w : World) (t : Nat) (self : fid_t) : timer_loop :=
  let tm := w.timers t
  match tm.state with
  | .fts_cleanup =>
    let w1 := fibril_condvar_broadcast (w.setTimer t { tm with state := .fts_clean }) tm.cv
    .finished (fibril_mutex_unlock w1 tm.lockp self)
  | .fts_not_set => .wait false 0 (fibril_condvar_wait_timeout w tm.cv tm.lockp 0 self)
  | .fts_fired => .wait false 0 (fibril_condvar_wait_timeout w tm.cv tm.lockp 0 self)
  | .fts_active =>
    .wait true tm.delay (fibril_condvar_wait_timeout w tm.cv tm.lockp tm.delay self)
  | .fts_clean => .assert_failed

/-- How the `case fts_active` arm goes on after its wait has returned. -/
inductive timer_fire where
  /-- The test `rc == ETIMEOUT && timer->state == fts_active` failed. -/
  | skipped (w : World)
  /-- The timer fired: in `w` the state is `fts_fired`, `handler_fid` is set and
  the lock is released; `timer->fun(timer->arg)` is called now. -/
  | handler (func arg : Option Nat) (w : World)
  /-- The call `fibril_mutex_unlock(timer->lockp)` failed its assertion. -/
  | aborted

/-- The `case fts_active` arm of `fibril_timer_func` after
`fibril_condvar_wait_timeout` has returned `rc`, up to the call of the
handler. -/
def fibril_timer_func_after_wait (w : World) (t : Nat) (rc : errno_t) (self : fid_t) :
    timer_fire :=
  let tm := w.timers t
  if rc = .ETIMEOUT ∧ tm.state = .fts_active then
    let w1 := w.setTimer t { tm with state := .fts_fired, handler_fid := some self }
    match fibril_mutex_unlock w1 tm.lockp self with
    | .returned _ w2 => .handler (w2.timers t).func (w2.timers t).arg w2
    | _ => .aborted
  else
    .skipped w

/-- The `case fts_active` arm of `fibril_timer_func` after the handler has
returned: `fibril_mutex_lock(timer->lockp)`. -/
def fibril_timer_func_after_handler (fuel : Nat) (w : World) (t : Nat) (self : fid_t) :
    Option (Outcome Unit) :=
  fibril_mutex_lock fuel w (w.timers t).lockp self

/-- The `case fts_active` arm of `fibril_timer_func` once the lock is held again:
`timer->handler_fid = 0`. -/
def fibril_timer_func_handler_done (w : World) (t : Nat) : World :=
  w.setTimer t { (w.timers t) with handler_fid := none }

/-! ## Properties of the mutex: vocabulary -/

/-- Mutex invariant: `counter ≤ 1`; a positive counter means no owner and no
waiter; a counter `≤ 0` means an owner and `-counter` wait records. -/
def mutex_inv (m : fibril_mutex_t) : Prop :=
  m.counter ≤ 1 ∧
  (m.counter > 0 → m.owned_by = none ∧ m.waiters = []) ∧
  (m.counter ≤ 0 → m.owned_by.isSome = true ∧ (m.waiters.length : Int) = - m.counter)

instance (m : fibril_mutex_t) : Decidable (mutex_inv m) := by
  unfold mutex_inv; infer_instance

/-- One call on a mutex (of any index, by any fibril). -/
inductive mutex_op where
  | lock (fuel : Nat) (fm : Nat) (self : fid_t)
  | trylock (fm : Nat) (self : fid_t)
  | unlock (fm : Nat) (self : fid_t)
  | condvar_wait (fcv fm : Nat) (timeout : Int) (self : fid_t)

/-- Memory after one call; `none` when the call aborts the process (this
covers `fibril_mutex_unlock` by a fibril that is not the owner) or when the
deadlock walk does not finish within the fuel. -/
def mutex_op.apply (w : World) : mutex_op → Option World
  | .lock fuel fm self => (fibril_mutex_lock fuel w fm self).bind Outcome.world
  | .trylock fm self => (fibril_mutex_trylock w fm self).world
  | .unlock fm self => (fibril_mutex_unlock w fm self).world
  | .condvar_wait fcv fm timeout self =>
    (fibril_condvar_wait_timeout w fcv fm timeout self).world

/-- Memory after a sequence of calls, each of which the process survives. -/
def mutex_run (w : World) : List mutex_op → Option World
  | [] => some w
  | op :: ops => (mutex_op.apply w op).bind (fun w1 => mutex_run w1 ops)

/-- A memory in which no fibril waits and every primitive is initialized. -/
def World.boot : World :=
  { fibrils := fun _ => { waits_for := none, is_writer := false }
    mutexes := fun _ => { owned_by := none, counter := 1, waiters := [] }
    rwlocks := fun _ => { owned_by := none, writers := 0, readers := 0, waiters := [] }
    condvars := fun _ => { waiters := [] }
    semaphores := fun _ => { count := 0, waiters := [] }
    timers := fun i =>
      { lock := i, lockp := i, cv := i, fibril := 0, state := .fts_not_set,
        handler_fid := none, delay := 0, func := none, arg := none }
    notified := [] }

/-- Owners of the mutex after each of `n` successive `fibril_mutex_unlock`
calls, every call made by the fibril that owns the mutex at that time. -/
def unlock_owners (w : World) (fm : Nat) : Nat → List (Option fid_t)
  | 0 => []
  | n + 1 =>
    match (w.mutexes fm).owned_by with
    | none => []
    | some o =>
      match fibril_mutex_unlock w fm o with
      | .returned _ w1 => (w1.mutexes fm).owned_by :: unlock_owners w1 fm n
      | _ => []

/-- The fibrils `fs` call `fibril_mutex_lock` one after the other and every
call blocks; `none` if one of the calls does not block. -/
def lock_all (fuel : Nat) (w : World) (fm : Nat) : List fid_t → Option World
  | [] => some w
  | f :: fs =>
    match fibril_mutex_lock fuel w fm f with
    | some (.suspended w1) => lock_all fuel w1 fm fs
    | _ => none

/-- Ownership chain: the owner met after `n` links of
`oi->owned_by->waits_for`, starting at `oi`; `none` once the chain has ended. -/
def chain_owner (w : World) : Nat → Option oi_ref → Option fid_t
  | 0, oi => oi.bind w.owned_by
  | n + 1, oi =>
    (oi.bind w.owned_by).bind (fun o => chain_owner w n (w.fibrils o).waits_for)

/-- Scenario: fibril `a` locks mutex 1, fibril `b` locks mutex 2, `a` calls
lock on mutex 2, `b` calls lock on mutex 1.  The value is the list of the
outcomes of the four calls, as (returned, suspended, aborted). -/
def cross_lock_scenario (fuel : Nat) (a b : fid_t) : List (Bool × Bool × Bool) :=
  let obs := fun (o : Option (Outcome Unit)) =>
    match o with
    | none => (false, false, false)
    | some r => (r.isReturned, r.isSuspended, r.isAborted)
  let w0 := fibril_mutex_initialize ( fibril_mutex_initialize World.boot 1) 2
  let r1 := fibril_mutex_lock fuel w0 1 a
  match r1.bind Outcome.world with
  | none => [obs r1]
  | some w1 =>
    let r2 := fibril_mutex_lock fuel w1 2 b
    match r2.bind Outcome.world with
    | none => [obs r1, obs r2]
    | some w2 =>
      let r3 := fibril_mutex_lock fuel w2 2 a
      match r3.bind Outcome.world with
      | none => [obs r1, obs r2, obs r3]
      | some w3 =>
        let r4 := fibril_mutex_lock fuel w3 1 b
        [obs r1, obs r2, obs r3, obs r4]

/-- A memory in which fibril 1 owns mutex 0 and fibrils 2 and 3 are queued
on it, in this order. -/
def World.queued : World :=
  { fibrils := fun g =>
      { waits_for := if g = 2 ∨ g = 3 then some (.mutex 0) else none, is_writer := false }
    mutexes := fun i =>
      if i = 0 then
        { owned_by := some 1, counter := -2, waiters := [AWAITER_INIT 2, AWAITER_INIT 3] }
      else { owned_by := none, counter := 1, waiters := [] }
    rwlocks := fun _ => { owned_by := none, writers := 0, readers := 0, waiters := [] }
    condvars := fun _ => { waiters := [] }
    semaphores := fun _ => { count := 0, waiters := [] }
    timers := fun i =>
      { lock := i, lockp := i, cv := i, fibril := 0, state := .fts_not_set,
        handler_fid := none, delay := 0, func := none, arg := none }
    notified := [] }

/-! ## Properties of the reader-writer lock: vocabulary -/

/-- Invariant of the rwlock counters: at most one writer, and never readers
and a writer at the same time. -/
def rwlock_inv (rw : fibril_rwlock_t) : Prop :=
  rw.writers ≤ 1 ∧ ¬ (rw.readers > 0 ∧ rw.writers > 0)

instance (rw : fibril_rwlock_t) : Decidable (rwlock_inv rw) := by
  unfold rwlock_inv; infer_instance

/-- One call on a rwlock (of any index, by any fibril). -/
inductive rwlock_op where
  | read_lock (fuel : Nat) (frw : Nat) (self : fid_t)
  | write_lock (fuel : Nat) (frw : Nat) (self : fid_t)
  | read_unlock (frw : Nat) (self : fid_t)
  | write_unlock (frw : Nat) (self : fid_t)

/-- Memory after one call; `none` when the call aborts the process (a failed
assertion or a detected deadlock) or when the deadlock walk does not finish
within the fuel. -/
def rwlock_op.apply (w : World) : rwlock_op → Option World
  | .read_lock fuel frw self => (fibril_rwlock_read_lock fuel w frw self).bind Outcome.world
  | .write_lock fuel frw self => (fibril_rwlock_write_lock fuel w frw self).bind Outcome.world
  | .read_unlock frw self => (fibril_rwlock_read_unlock w frw self).world
  | .write_unlock frw self => (fibril_rwlock_write_unlock w frw self).world

/-- Memory after a sequence of calls, each of which the process survives. -/
def rwlock_run (w : World) : List rwlock_op → Option World
  | [] => some w
  | op :: ops => (rwlock_op.apply w op).bind (fun w1 => rwlock_run w1 ops)

/-- The wait record is a reader request: `f->is_writer` of its fibril is
false. -/
def reader_req (w : World) (a : awaiter_t) : Bool :=
  !(w.fibrils a.fid).is_writer

/-- The rwlock is one unlock away from being fully free: its last reader or
its writer is about to leave. -/
def last_holder (rw : fibril_rwlock_t) : Prop :=
  (rw.readers = 1 ∧ rw.writers = 0) ∨ (rw.readers = 0 ∧ rw.writers = 1)

instance (rw : fibril_rwlock_t) : Decidable (last_holder rw) := by
  unfold last_holder; infer_instance

/-- A memory in which fibril 9 holds rwlock 0 as its writer and the requests of
the readers 5 and 6, the writer 7 and the reader 8 are queued, in this order. -/
def World.rw_queued : World :=
  { fibrils := fun g =>
      { waits_for := if g = 5 ∨ g = 6 ∨ g = 7 ∨ g = 8 then some (.rwlock 0) else none,
        is_writer := decide (g = 7) }
    mutexes := fun _ => { owned_by := none, counter := 1, waiters := [] }
    rwlocks := fun i =>
      if i = 0 then
        { owned_by := some 9, writers := 1, readers := 0,
          waiters := [AWAITER_INIT 5, AWAITER_INIT 6, AWAITER_INIT 7, AWAITER_INIT 8] }
      else { owned_by := none, writers := 0, readers := 0, waiters := [] }
    condvars := fun _ => { waiters := [] }
    semaphores := fun _ => { count := 0, waiters := [] }
    timers := fun i =>
      { lock := i, lockp := i, cv := i, fibril := 0, state := .fts_not_set,
        handler_fid := none, delay := 0, func := none, arg := none }
    notified := [] }

/-- What the scenarios observe of a rwlock: `readers`, `writers`, `owned_by`
and the fibrils of the queued wait records. -/
def rw_obs (w : World) (frw : Nat) : Nat × Nat × Option fid_t × List fid_t :=
  ((w.rwlocks frw).readers, (w.rwlocks frw).writers, (w.rwlocks frw).owned_by,
    (w.rwlocks frw).waiters.map (fun a => a.fid))

/-- The wait record that `fibril_condvar_wait_timeout` builds for its caller. -/
def condvar_wdata (self : fid_t) (fm : Nat) : awaiter_t :=
  { fid := self, mutex := some fm }

/-- The release of a mutex in the words of the specification: the counter is
incremented by one; when a waiter is queued, ownership is handed to the oldest
waiter, which leaves the queue, has `waits_for` cleared and is woken; otherwise
ownership is cleared. -/
def spec_mutex_release (w : World) (fm : Nat) : World :=
  let m := w.mutexes fm
  match m.waiters with
  | oldest :: others =>
    ((w.setMutex fm
        { owned_by := some oldest.fid, counter := m.counter + 1, waiters := others }).setFibril
      oldest.fid { (w.fibrils oldest.fid) with waits_for := none }).notify oldest
  | [] =>
    w.setMutex fm { owned_by := none, counter := m.counter + 1, waiters := [] }

/-- Semaphore invariant: a count `≥ 0` means no waiter, a negative count means
`-count` wait records. -/
def semaphore_inv (s : fibril_semaphore_t) : Prop :=
  (s.count ≥ 0 → s.waiters = []) ∧ (s.count < 0 → (s.waiters.length : Int) = - s.count)

instance (s : fibril_semaphore_t) : Decidable (semaphore_inv s) := by
  unfold semaphore_inv; infer_instance

/-- One call on a semaphore (of any index, by any fibril). -/
inductive semaphore_op where
  | up (sem : Nat)
  | down (sem : Nat) (self : fid_t)

/-- Memory after one call; `none` when the call aborts the process. -/
def semaphore_op.apply (w : World) : semaphore_op → Option World
  | .up sem => (fibril_semaphore_up w sem).world
  | .down sem self => (fibril_semaphore_down w sem self).world

/-- Memory after a sequence of calls, each of which the process survives. -/
def semaphore_run (w : World) : List semaphore_op → Option World
  | [] => some w
  | op :: ops => (semaphore_op.apply w op).bind (fun w1 => semaphore_run w1 ops)

/-- What the scenarios observe of a semaphore: `count` and the fibrils of the
queued wait records. -/
def sem_obs (w : World) (sem : Nat) : Int × List fid_t :=
  ((w.semaphores sem).count, (w.semaphores sem).waiters.map (fun a => a.fid))

/-! ## Properties of the timer: vocabulary -/

/-- The pass through `fibril_timer_clear_locked` aborted the process: by its own
`abort()`, by its assertion, or inside the wait that it called. -/
def timer_clear.isAborted : timer_clear → Bool
  | .done _ _ => false
  | .wait o => o.isAborted
  | .aborted => true

/-- The memory that a pass through `fibril_timer_clear_locked` left behind. -/
def timer_clear.world : timer_clear → Option World
  | .done _ w => some w
  | .wait o => o.world
  | .aborted => none

/-- The memory that a pass of the timer fibril left behind. -/
def timer_loop.world : timer_loop → Option World
  | .wait _ _ o => o.world
  | .finished o => o.world
  | .assert_failed => none

/-- The memory in which the `case fts_active` arm goes on. -/
def timer_fire.world : timer_fire → Option World
  | .skipped w => some w
  | .handler _ _ w => some w
  | .aborted => none

/-- The handler is called. -/
def timer_fire.isHandler : timer_fire → Bool
  | .handler _ _ _ => true
  | _ => false

/-- One segment of the timer code: every function of `fibril_synch.c` that
writes a field of a timer. -/
inductive timer_op where
  | create (t lock_slot cv_slot : Nat) (fid : Option fid_t) (lock : Option Nat)
  | set_locked (t : Nat) (delay : Int) (func arg : Option Nat) (self : fid_t)
  | clear_locked (t : Nat) (self : fid_t)
  | clear_locked_loop (t : Nat) (self : fid_t)
  | destroy_request (t : Nat)
  | func_loop (t : Nat) (self : fid_t)
  | func_after_wait (t : Nat) (rc : errno_t) (self : fid_t)
  | func_handler_done (t : Nat)

/-- Memory after one segment of the timer code; `none` when the process is
aborted (or `fibril_timer_create` returns NULL). -/
def timer_op.apply (w : World) : timer_op → Option World
  | .create t lock_slot cv_slot fid lock => fibril_timer_create w t lock_slot cv_slot fid lock
  | .set_locked t delay func arg self => (fibril_timer_set_locked w t delay func arg self).world
  | .clear_locked t self => (fibril_timer_clear_locked w t self).world
  | .clear_locked_loop t self => (fibril_timer_clear_locked_loop w t self).world
  | .destroy_request t => fibril_timer_destroy_request w t
  | .func_loop t self => (fibril_timer_func_loop w t self).world
  | .func_after_wait t rc self => (fibril_timer_func_after_wait w t rc self).world
  | .func_handler_done t => some (fibril_timer_func_handler_done w t)

/-- A memory in which timer 0 (lock 0, condition variable 0) is armed with
delay 0 and callback 7, and its companion fibril 9 holds the lock at the head
of its loop. -/
def World.armed_zero : World :=
  (World.boot.setMutex 0 { owned_by := some 9, counter := 0, waiters := [] }).setTimer 0
    { lock := 0, lockp := 0, cv := 0, fibril := 9, state := .fts_active,
      handler_fid := none, delay := 0, func := some 7, arg := none }

/-! ## Runs of the other fibrils while one fibril is suspended: vocabulary -/

/-- A waiter queue of the memory. -/
inductive queue_ref where
  | mutex (fm : Nat)
  | rwlock (frw : Nat)
  | condvar (fcv : Nat)
  | semaphore (sem : Nat)
  deriving DecidableEq

/-- The records of a waiter queue. -/
def World.queue (w : World) : queue_ref → List awaiter_t
  | .mutex fm => (w.mutexes fm).waiters
  | .rwlock frw => (w.rwlocks frw).waiters
  | .condvar fcv => (w.condvars fcv).waiters
  | .semaphore sem => (w.semaphores sem).waiters

/-- Number of wait records of fibril `self` in a list. -/
def records_of (self : fid_t) (l : List awaiter_t) : Nat :=
  l.countP (fun r => decide (r.fid = self))

/-- Number of `fibril_notify` calls logged for fibril `self`. -/
def notifications_of (self : fid_t) (w : World) : Nat :=
  w.notified.count self

/-- Fibril `self` has no wait record in any queue: it is running. -/
def running (w : World) (self : fid_t) : Prop :=
  ∀ q, records_of self (w.queue q) = 0

/-- One call of the library. -/
inductive sync_op where
  | mutex_lock (fuel fm : Nat)
  | mutex_trylock (fm : Nat)
  | mutex_unlock (fm : Nat)
  | rwlock_read_lock (fuel frw : Nat)
  | rwlock_write_lock (fuel frw : Nat)
  | rwlock_read_unlock (frw : Nat)
  | rwlock_write_unlock (frw : Nat)
  | condvar_wait (fcv fm : Nat) (timeout : Int)
  | condvar_resume (fuel fcv fm : Nat)
  | condvar_signal (fcv : Nat)
  | condvar_broadcast (fcv : Nat)
  | semaphore_up (sem : Nat)
  | semaphore_down (sem : Nat)
  deriving DecidableEq

/-- Memory after one call by fibril `caller`; `none` when the call aborts the
process or when a deadlock walk does not finish within its fuel. -/
def sync_op.apply (w : World) (caller : fid_t) : sync_op → Option World
  | .mutex_lock fuel fm => (fibril_mutex_lock fuel w fm caller).bind Outcome.world
  | .mutex_trylock fm => (fibril_mutex_trylock w fm caller).world
  | .mutex_unlock fm => (fibril_mutex_unlock w fm caller).world
  | .rwlock_read_lock fuel frw =>
    (fibril_rwlock_read_lock fuel w frw caller).bind Outcome.world
  | .rwlock_write_lock fuel frw =>
    (fibril_rwlock_write_lock fuel w frw caller).bind Outcome.world
  | .rwlock_read_unlock frw => (fibril_rwlock_read_unlock w frw caller).world
  | .rwlock_write_unlock frw => (fibril_rwlock_write_unlock w frw caller).world
  | .condvar_wait fcv fm timeout => (fibril_condvar_wait_timeout w fcv fm timeout caller).world
  | .condvar_resume fuel fcv fm =>
    (fibril_condvar_wait_timeout_resume fuel w fcv fm caller).bind (fun r => r.relock.world)
  | .condvar_signal fcv => some (fibril_condvar_signal w fcv)
  | .condvar_broadcast fcv => some (fibril_condvar_broadcast w fcv)
  | .semaphore_up sem => (fibril_semaphore_up w sem).world
  | .semaphore_down sem => (fibril_semaphore_down w sem caller).world

/-- Memory after a sequence of calls, each with its caller, each of which the
process survives. -/
def sync_run (w : World) : List (fid_t × sync_op) → Option World
  | [] => some w
  | (caller, op) :: ops => (sync_op.apply w caller op).bind (fun w1 => sync_run w1 ops)

/-- No call of the sequence is made by fibril `self`. -/
def by_others (self : fid_t) (ops : List (fid_t × sync_op)) : Prop :=
  ∀ p, p ∈ ops → p.1 ≠ self

/-- The wait records of fibril `self` in a list, in order. -/
def mine (self : fid_t) (l : List awaiter_t) : List awaiter_t :=
  l.filter (fun r => decide (r.fid = self))

/-- A step that notifies fibril `self` of nothing and leaves its wait records
where they are. -/
def quiet (self : fid_t) (w w1 : World) : Prop :=
  notifications_of self w1 = notifications_of self w ∧
  ∀ q, mine self (w1.queue q) = mine self (w.queue q)

/-- A step that pops records from the head of queue `Q` and notifies them: the
records of fibril `self` stay where they are, except for those popped from
`Q`, each of which comes with one notification of `self`. -/
def accounted (self : fid_t) (Q : queue_ref) (w w1 : World) : Prop :=
  (∀ q, q ≠ Q → mine self (w1.queue q) = mine self (w.queue q)) ∧
  ∃ pre, mine self (w.queue Q) = pre ++ mine self (w1.queue Q) ∧
    notifications_of self w1 = notifications_of self w + pre.length

/-- Fibril `self`, which had `n0` notifications when it was suspended with the
single wait record `R` in queue `Q`, is still queued there and not notified,
or has been notified once and has no wait record left. -/
def waits_on (self : fid_t) (Q : queue_ref) (R : awaiter_t) (n0 : Nat) (w : World) : Prop :=
  (∀ q, q ≠ Q → mine self (w.queue q) = []) ∧
  ((mine self (w.queue Q) = [R] ∧ notifications_of self w = n0) ∨
    (mine self (w.queue Q) = [] ∧ notifications_of self w = n0 + 1))

/-- The queue from whose head a call pops the records that it notifies; `none`
for a call that notifies nobody. -/
def sync_op.pops : sync_op → Option queue_ref
  | .mutex_unlock fm => some (.mutex fm)
  | .condvar_wait _ fm _ => some (.mutex fm)
  | .rwlock_read_unlock frw => some (.rwlock frw)
  | .rwlock_write_unlock frw => some (.rwlock frw)
  | .condvar_signal fcv => some (.condvar fcv)
  | .condvar_broadcast fcv => some (.condvar fcv)
  | .semaphore_up sem => some (.semaphore sem)
  | _ => none

/-- The memory after one pass through the body of the grant loop of
`_fibril_rwlock_common_unlock` in which the request `wdp` is granted. -/
def rwlock_grant_one (frw : Nat) (wdp : awaiter_t) (rest : List awaiter_t) (w : World) :
    World :=
  let rw := w.rwlocks frw
  let rw1 : fibril_rwlock_t :=
    if (w.fibrils wdp.fid).is_writer = true then
      { rw with writers := (rw.writers + 1) % UINT_MOD }
    else
      { rw with readers := (rw.readers + 1) % UINT_MOD }
  ((w.setFibril wdp.fid { (w.fibrils wdp.fid) with waits_for := none }).setRwlock frw
    { rw1 with waiters := rest, owned_by := some wdp.fid }).notify wdp

/-- A memory in which timer 0 (lock 0, condition variable 0, companion
fibril 9) is not set and fibril 1 holds its lock. -/
def World.idle_zero : World :=
  (World.boot.setMutex 0 { owned_by := some 1, counter := 0, waiters := [] }).setTimer 0
    { lock := 0, lockp := 0, cv := 0, fibril := 9, state := .fts_not_set,
      handler_fid := none, delay := 0, func := none, arg := none }

/-! ## Ownership chains and the wait graph: vocabulary -/

/-- The calls `fibril_mutex_lock`, `fibril_mutex_trylock` and
`fibril_mutex_unlock` among the calls of the library. -/
def sync_op.is_mutex_call : sync_op → Bool
  | .mutex_lock _ _ => true
  | .mutex_trylock _ => true
  | .mutex_unlock _ => true
  | _ => false

/-- Every call of the run is made by a fibril that is running (not suspended)
at the time of the call. -/
def issued_by_running (w : World) : List (fid_t × sync_op) → Prop
  | [] => True
  | p :: ops =>
    running w p.1 ∧
      match sync_op.apply w p.1 p.2 with
      | none => True
      | some w1 => issued_by_running w1 ops

/-- The ownership chain that starts at `oi` ends: after some number of links
there is no further owner. -/
def chain_ends (w : World) (oi : Option oi_ref) : Prop :=
  ∃ n, chain_owner w n oi = none

/-- Number of times the body of the `while` loop of
`check_fibril_for_deadlock` is entered, for the same arguments and fuel as
the walk itself; `none` when the fuel runs out. -/
def deadlock_walk_steps (w : World) : Nat → Option oi_ref → fid_t → Option Nat
  | 0, _, _ => none
  | fuel + 1, oi, fib =>
    match oi with
    | none => some 0
    | some r =>
      match w.owned_by r with
      | none => some 0
      | some o =>
        if o = fib then some 1
        else (deadlock_walk_steps w fuel (w.fibrils o).waits_for fib).map (fun k => k + 1)

/-- Invariant of the wait graph over the fibrils `fibs`: every mutex satisfies
the mutex invariant; a fibril that waits for something waits for a mutex and
its wait record is in the queue of that mutex; every record in the queue of a
mutex is the record of a fibril of `fibs` that waits for that mutex; no queue
holds a record twice; every ownership chain ends; every owner of a mutex is a
fibril of `fibs`. -/
def wait_graph_inv (w : World) (fibs : Finset fid_t) : Prop :=
  (∀ fm, mutex_inv (w.mutexes fm)) ∧
  (∀ f r, (w.fibrils f).waits_for = some r →
    ∃ fm, r = .mutex fm ∧ AWAITER_INIT f ∈ (w.mutexes fm).waiters) ∧
  (∀ fm a, a ∈ (w.mutexes fm).waiters →
    a = AWAITER_INIT a.fid ∧ (w.fibrils a.fid).waits_for = some (.mutex fm) ∧
      a.fid ∈ fibs) ∧
  (∀ fm, (w.mutexes fm).waiters.Nodup) ∧
  (∀ oi, chain_ends w oi) ∧
  (∀ fm o, (w.mutexes fm).owned_by = some o → o ∈ fibs)

/-- The segments of the timer code that a user of the timer calls
(`fibril_timer_set_locked`, `fibril_timer_clear_locked` and the request of
`fibril_timer_destroy`), as opposed to the segments of the timer fibril. -/
def timer_op.is_user_call : timer_op → Bool
  | .set_locked _ _ _ _ _ => true
  | .clear_locked _ _ => true
  | .clear_locked_loop _ _ => true
  | .destroy_request _ => true
  | _ => false

/-- A memory in which timer 0 (lock 0, condition variable 0) has fired, its
fibril 9 has just run the handler (`handler_fid` is 9), and fibril 1 holds the
lock. -/
def World.handler_zero : World :=
  (World.boot.setMutex 0 { owned_by := some 1, counter := 0, waiters := [] }).setTimer 0
    { lock := 0, lockp := 0, cv := 0, fibril := 9, state := .fts_fired,
      handler_fid := some 9, delay := 0, func := some 7, arg := none }

/-! ## Theorems -/

@[simp] theorem setMutex_mutexes (w : World) (fm : Nat) (v : fibril_mutex_t) (i : Nat) :
    (w.setMutex fm v).mutexes i = if i = fm then v else w.mutexes i := rfl

@[simp] theorem setMutex_fibrils (w : World) (fm : Nat) (v : fibril_mutex_t) :
    (w.setMutex fm v).fibrils = w.fibrils := rfl

@[simp] theorem setMutex_rwlocks (w : World) (fm : Nat) (v : fibril_mutex_t) :
    (w.setMutex fm v).rwlocks = w.rwlocks := rfl

@[simp] theorem setMutex_condvars (w : World) (fm : Nat) (v : fibril_mutex_t) :
    (w.setMutex fm v).condvars = w.condvars := rfl

@[simp] theorem setMutex_notified (w : World) (fm : Nat) (v : fibril_mutex_t) :
    (w.setMutex fm v).notified = w.notified := rfl

@[simp] theorem setFibril_fibrils (w : World) (f : fid_t) (v : fibril_t) (g : fid_t) :
    (w.setFibril f v).fibrils g = if g = f then v else w.fibrils g := rfl

@[simp] theorem setFibril_mutexes (w : World) (f : fid_t) (v : fibril_t) :
    (w.setFibril f v).mutexes = w.mutexes := rfl

@[simp] theorem setFibril_rwlocks (w : World) (f : fid_t) (v : fibril_t) :
    (w.setFibril f v).rwlocks = w.rwlocks := rfl

@[simp] theorem setFibril_condvars (w : World) (f : fid_t) (v : fibril_t) :
    (w.setFibril f v).condvars = w.condvars := rfl

@[simp] theorem setFibril_notified (w : World) (f : fid_t) (v : fibril_t) :
    (w.setFibril f v).notified = w.notified := rfl

@[simp] theorem setRwlock_rwlocks (w : World) (frw : Nat) (v : fibril_rwlock_t) (i : Nat) :
    (w.setRwlock frw v).rwlocks i = if i = frw then v else w.rwlocks i := rfl

@[simp] theorem setRwlock_fibrils (w : World) (frw : Nat) (v : fibril_rwlock_t) :
    (w.setRwlock frw v).fibrils = w.fibrils := rfl

@[simp] theorem setRwlock_mutexes (w : World) (frw : Nat) (v : fibril_rwlock_t) :
    (w.setRwlock frw v).mutexes = w.mutexes := rfl

@[simp] theorem setRwlock_condvars (w : World) (frw : Nat) (v : fibril_rwlock_t) :
    (w.setRwlock frw v).condvars = w.condvars := rfl

@[simp] theorem setRwlock_notified (w : World) (frw : Nat) (v : fibril_rwlock_t) :
    (w.setRwlock frw v).notified = w.notified := rfl

@[simp] theorem setCondvar_condvars (w : World) (fcv : Nat) (v : fibril_condvar_t) (i : Nat) :
    (w.setCondvar fcv v).condvars i = if i = fcv then v else w.condvars i := rfl

@[simp] theorem setCondvar_fibrils (w : World) (fcv : Nat) (v : fibril_condvar_t) :
    (w.setCondvar fcv v).fibrils = w.fibrils := rfl

@[simp] theorem setCondvar_mutexes (w : World) (fcv : Nat) (v : fibril_condvar_t) :
    (w.setCondvar fcv v).mutexes = w.mutexes := rfl

@[simp] theorem setCondvar_rwlocks (w : World) (fcv : Nat) (v : fibril_condvar_t) :
    (w.setCondvar fcv v).rwlocks = w.rwlocks := rfl

@[simp] theorem setCondvar_notified (w : World) (fcv : Nat) (v : fibril_condvar_t) :
    (w.setCondvar fcv v).notified = w.notified := rfl

@[simp] theorem notify_fibrils (w : World) (wdp : awaiter_t) :
    (w.notify wdp).fibrils = w.fibrils := rfl

@[simp] theorem notify_mutexes (w : World) (wdp : awaiter_t) :
    (w.notify wdp).mutexes = w.mutexes := rfl

@[simp] theorem notify_rwlocks (w : World) (wdp : awaiter_t) :
    (w.notify wdp).rwlocks = w.rwlocks := rfl

@[simp] theorem notify_condvars (w : World) (wdp : awaiter_t) :
    (w.notify wdp).condvars = w.condvars := rfl

@[simp] theorem notify_notified (w : World) (wdp : awaiter_t) :
    (w.notify wdp).notified = w.notified ++ [wdp.fid] := rfl

@[simp] theorem setMutex_semaphores (w : World) (fm : Nat) (v : fibril_mutex_t) :
    (w.setMutex fm v).semaphores = w.semaphores := rfl

@[simp] theorem setMutex_timers (w : World) (fm : Nat) (v : fibril_mutex_t) :
    (w.setMutex fm v).timers = w.timers := rfl

@[simp] theorem setFibril_semaphores (w : World) (f : Nat) (v : fibril_t) :
    (w.setFibril f v).semaphores = w.semaphores := rfl

@[simp] theorem setFibril_timers (w : World) (f : Nat) (v : fibril_t) :
    (w.setFibril f v).timers = w.timers := rfl

@[simp] theorem setRwlock_semaphores (w : World) (frw : Nat) (v : fibril_rwlock_t) :
    (w.setRwlock frw v).semaphores = w.semaphores := rfl

@[simp] theorem setRwlock_timers (w : World) (frw : Nat) (v : fibril_rwlock_t) :
    (w.setRwlock frw v).timers = w.timers := rfl

@[simp] theorem setCondvar_semaphores (w : World) (fcv : Nat) (v : fibril_condvar_t) :
    (w.setCondvar fcv v).semaphores = w.semaphores := rfl

@[simp] theorem setCondvar_timers (w : World) (fcv : Nat) (v : fibril_condvar_t) :
    (w.setCondvar fcv v).timers = w.timers := rfl

@[simp] theorem setSemaphore_fibrils (w : World) (sem : Nat) (v : fibril_semaphore_t) :
    (w.setSemaphore sem v).fibrils = w.fibrils := rfl

@[simp] theorem setSemaphore_mutexes (w : World) (sem : Nat) (v : fibril_semaphore_t) :
    (w.setSemaphore sem v).mutexes = w.mutexes := rfl

@[simp] theorem setSemaphore_rwlocks (w : World) (sem : Nat) (v : fibril_semaphore_t) :
    (w.setSemaphore sem v).rwlocks = w.rwlocks := rfl

@[simp] theorem setSemaphore_condvars (w : World) (sem : Nat) (v : fibril_semaphore_t) :
    (w.setSemaphore sem v).condvars = w.condvars := rfl

@[simp] theorem setSemaphore_semaphores (w : World) (sem : Nat) (v : fibril_semaphore_t) (i : Nat) :
    (w.setSemaphore sem v).semaphores i = if i = sem then v else w.semaphores i := rfl

@[simp] theorem setSemaphore_timers (w : World) (sem : Nat) (v : fibril_semaphore_t) :
    (w.setSemaphore sem v).timers = w.timers := rfl

@[simp] theorem setSemaphore_notified (w : World) (sem : Nat) (v : fibril_semaphore_t) :
    (w.setSemaphore sem v).notified = w.notified := rfl

@[simp] theorem setTimer_fibrils (w : World) (t : Nat) (v : fibril_timer_t) :
    (w.setTimer t v).fibrils = w.fibrils := rfl

@[simp] theorem setTimer_mutexes (w : World) (t : Nat) (v : fibril_timer_t) :
    (w.setTimer t v).mutexes = w.mutexes := rfl

@[simp] theorem setTimer_rwlocks (w : World) (t : Nat) (v : fibril_timer_t) :
    (w.setTimer t v).rwlocks = w.rwlocks := rfl

@[simp] theorem setTimer_condvars (w : World) (t : Nat) (v : fibril_timer_t) :
    (w.setTimer t v).condvars = w.condvars := rfl

@[simp] theorem setTimer_semaphores (w : World) (t : Nat) (v : fibril_timer_t) :
    (w.setTimer t v).semaphores = w.semaphores := rfl

@[simp] theorem setTimer_timers (w : World) (t : Nat) (v : fibril_timer_t) (i : Nat) :
    (w.setTimer t v).timers i = if i = t then v else w.timers i := rfl

@[simp] theorem setTimer_notified (w : World) (t : Nat) (v : fibril_timer_t) :
    (w.setTimer t v).notified = w.notified := rfl

@[simp] theorem notify_semaphores (w : World) (wdp : awaiter_t) :
    (w.notify wdp).semaphores = w.semaphores := rfl

@[simp] theorem notify_timers (w : World) (wdp : awaiter_t) :
    (w.notify wdp).timers = w.timers := rfl

/-- The mutex invariant holds right after `fibril_mutex_initialize`. -/
theorem mutex_inv_at_init (w : World) (fm : Nat) :
    mutex_inv (( fibril_mutex_initialize w fm).mutexes fm) := by
  simp [mutex_inv, fibril_mutex_initialize]

/-- The release at the heart of `fibril_mutex_unlock` keeps the invariant of
every mutex. -/
theorem unlock_unsafe_inv (w w1 : World) (fm i : Nat) (self : fid_t)
    (h : _fibril_mutex_unlock_unsafe w fm self = some w1)
    (hi : mutex_inv (w.mutexes i)) : mutex_inv (w1.mutexes i) := by
  unfold _fibril_mutex_unlock_unsafe at h
  simp only at h
  split at h
  · rename_i hown
    split at h
    · rename_i hneg
      split at h
      · cases h
      · rename_i wdp rest hq
        cases h
        by_cases hfi : i = fm
        · subst hfi
          obtain ⟨h1, h2, h3⟩ := hi
          have h3' := h3 (by omega)
          simp only [hq, List.length_cons] at h3'
          push_cast at h3'
          simp only [mutex_inv, notify_mutexes, setFibril_mutexes, setMutex_mutexes,
            if_true, Option.isSome_some]
          refine ⟨by omega, fun hpos => by omega, fun _ => ⟨trivial, by omega⟩⟩
        · simpa [hfi] using hi
    · rename_i hneg
      cases h
      by_cases hfi : i = fm
      · subst hfi
        obtain ⟨h1, h2, h3⟩ := hi
        have h3' := h3 (by
          by_contra hc
          have := (h2 (by omega)).1
          rw [this] at hown
          cases hown)
        have hlen := h3'.2
        have hz : (w.mutexes i).counter = 0 := by
          have : (0 : Int) ≤ ((w.mutexes i).waiters.length : Int) := Int.natCast_nonneg _
          omega
        simp only [mutex_inv, setMutex_mutexes, if_true]
        refine ⟨by omega, fun _ => ⟨trivial, ?_⟩, fun hc => by omega⟩
        have : ((w.mutexes i).waiters.length : Int) = 0 := by omega
        exact List.length_eq_zero.mp (by exact_mod_cast this)
      · simpa [hfi] using hi
  · cases h

/-- Every surviving call keeps the invariant of every mutex. -/
theorem mutex_op_apply_inv (w w1 : World) (op : mutex_op) (i : Nat)
    (h : mutex_op.apply w op = some w1)
    (hi : mutex_inv (w.mutexes i)) : mutex_inv (w1.mutexes i) := by
  cases op with
  | lock fuel fm self =>
    simp only [mutex_op.apply, fibril_mutex_lock, check_for_deadlock] at h
    split at h
    · rename_i hpos
      simp only [Option.bind, Outcome.world] at h
      cases h
      by_cases hfi : i = fm
      · subst hfi
        obtain ⟨h1, h2, h3⟩ := hi
        have := h2 hpos
        simp [mutex_inv, this.2]
        omega
      · simpa [hfi] using hi
    · rename_i hpos
      split at h
      · cases h
      · cases h
      · simp only [Option.bind, Outcome.world] at h
        cases h
        by_cases hfi : i = fm
        · subst hfi
          obtain ⟨h1, h2, h3⟩ := hi
          have := h3 (by omega)
          simp [mutex_inv]
          refine ⟨by omega, by omega, ?_⟩
          intro _
          exact ⟨this.1, by omega⟩
        · simpa [hfi] using hi
  | trylock fm self =>
    simp only [mutex_op.apply, fibril_mutex_trylock] at h
    split at h
    · rename_i hpos
      simp only [Outcome.world] at h
      cases h
      by_cases hfi : i = fm
      · subst hfi
        obtain ⟨h1, h2, h3⟩ := hi
        have := h2 hpos
        simp [mutex_inv, this.2]
        omega
      · simpa [hfi] using hi
    · simp only [Outcome.world] at h
      cases h
      exact hi
  | unlock fm self =>
    simp only [mutex_op.apply, fibril_mutex_unlock] at h
    split at h
    · cases h
    · rename_i w2 hu
      simp only [Outcome.world] at h
      cases h
      exact unlock_unsafe_inv w _ fm i self hu hi
  | condvar_wait fcv fm timeout self =>
    simp only [mutex_op.apply, fibril_condvar_wait_timeout] at h
    split at h
    · split at h
      · simp only [Outcome.world] at h
        cases h
        exact hi
      · split at h
        · cases h
        · rename_i w2 hu
          simp only [Outcome.world] at h
          cases h
          simpa using unlock_unsafe_inv w _ fm i self hu hi
    · cases h

/-- A surviving sequence of calls keeps the invariant of every mutex. -/
theorem mutex_run_inv (ops : List mutex_op) (w w1 : World) (i : Nat)
    (h : mutex_run w ops = some w1)
    (hi : mutex_inv (w.mutexes i)) : mutex_inv (w1.mutexes i) := by
  induction ops generalizing w with
  | nil =>
    simp only [mutex_run] at h
    cases h
    exact hi
  | cons op ops ih =>
    simp only [mutex_run] at h
    cases hop : mutex_op.apply w op with
    | none => simp [hop] at h
    | some w2 =>
      simp only [hop, Option.bind] at h
      exact ih w2 h (mutex_op_apply_inv w w2 op i hop hi)

/-- C1: in every state reached from `fibril_mutex_initialize` by a sequence of
`fibril_mutex_lock`, `fibril_mutex_trylock`, owner-called `fibril_mutex_unlock`
and the release inside `fibril_condvar_wait_timeout`, the mutex has
`counter ≤ 1`; `counter > 0` implies no owner and an empty waiter queue;
`counter ≤ 0` implies an owner and exactly `-counter` wait records. -/
theorem C1_mutex_invariant (w0 : World) (fm : Nat) (ops : List mutex_op) (w : World)
    (h : mutex_run ( fibril_mutex_initialize w0 fm) ops = some w) :
    (w.mutexes fm).counter ≤ 1 ∧
    ((w.mutexes fm).counter > 0 →
      (w.mutexes fm).owned_by = none ∧ (w.mutexes fm).waiters = []) ∧
    ((w.mutexes fm).counter ≤ 0 →
      (∃ f, (w.mutexes fm).owned_by = some f) ∧
      ((w.mutexes fm).waiters.length : Int) = - (w.mutexes fm).counter) := by
  have hinv := mutex_run_inv ops _ w fm h (mutex_inv_at_init w0 fm)
  obtain ⟨h1, h2, h3⟩ := hinv
  refine ⟨h1, h2, fun hc => ?_⟩
  obtain ⟨ho, hl⟩ := h3 hc
  exact ⟨Option.isSome_iff_exists.mp ho, hl⟩

/-- C1 at a concrete run: two locks, a failed trylock, an unlock that hands the
mutex over, and a condition-variable wait by the new owner. -/
theorem C1_mutex_invariant_witness :
    ∃ w, mutex_run ( fibril_mutex_initialize World.boot 0)
        [.lock 4 0 1, .lock 4 0 2, .trylock 0 3, .unlock 0 1,
         .condvar_wait 0 0 5 2] = some w ∧
      ((w.mutexes 0).counter ≤ 1 ∧
      ((w.mutexes 0).counter > 0 →
        (w.mutexes 0).owned_by = none ∧ (w.mutexes 0).waiters = []) ∧
      ((w.mutexes 0).counter ≤ 0 →
        (∃ f, (w.mutexes 0).owned_by = some f) ∧
        ((w.mutexes 0).waiters.length : Int) = - (w.mutexes 0).counter)) :=
  ⟨_, rfl, C1_mutex_invariant World.boot 0
    [.lock 4 0 1, .lock 4 0 2, .trylock 0 3, .unlock 0 1, .condvar_wait 0 0 5 2] _ rfl⟩

/-- Effect of `fibril_mutex_unlock` by the owner when a wait record is queued. -/
theorem unlock_handoff (w : World) (fm : Nat) (self : fid_t) (wdp : awaiter_t)
    (rest : List awaiter_t) (hinv : mutex_inv (w.mutexes fm))
    (hq : (w.mutexes fm).waiters = wdp :: rest)
    (hown : (w.mutexes fm).owned_by = some self) :
    ∃ w1, fibril_mutex_unlock w fm self = .returned () w1 ∧
      w1.mutexes fm =
        { owned_by := some wdp.fid, counter := (w.mutexes fm).counter + 1,
          waiters := rest } ∧
      (∀ i, i ≠ fm → w1.mutexes i = w.mutexes i) ∧
      (w1.fibrils wdp.fid).waits_for = none ∧
      (w1.fibrils wdp.fid).is_writer = (w.fibrils wdp.fid).is_writer ∧
      (∀ g, g ≠ wdp.fid → w1.fibrils g = w.fibrils g) ∧
      w1.notified = w.notified ++ [wdp.fid] ∧
      w1.rwlocks = w.rwlocks ∧ w1.condvars = w.condvars := by
  have hneg : (w.mutexes fm).counter < 0 := by
    obtain ⟨h1, h2, h3⟩ := hinv
    by_contra hc
    have hc' : (w.mutexes fm).counter = 0 ∨ (w.mutexes fm).counter > 0 := by omega
    rcases hc' with hz | hp
    · have := (h3 (by omega)).2
      rw [hq, hz] at this
      simp at this
      omega
    · have := (h2 hp).2
      rw [hq] at this
      cases this
  refine ⟨(((w.setMutex fm
      { owned_by := some wdp.fid, counter := (w.mutexes fm).counter + 1,
        waiters := rest }).setFibril wdp.fid
      { (w.fibrils wdp.fid) with waits_for := none }).notify wdp),
    ?_, ?_, ?_, ?_, ?_, ?_, ?_, ?_, ?_⟩
  · simp only [fibril_mutex_unlock, _fibril_mutex_unlock_unsafe, hown, hneg, hq, if_true,
      setMutex_fibrils]
  · simp
  · intro i hi; simp [hi]
  · simp
  · simp
  · intro g hg; simp [hg]
  · simp
  · rfl
  · rfl

/-- Successive unlocks by the owner hand the mutex to the queued fibrils in
queue order. -/
theorem unlock_owners_queue (fm : Nat) (q : List awaiter_t) (w : World)
    (hinv : mutex_inv (w.mutexes fm)) (hq : (w.mutexes fm).waiters = q)
    (hown : (w.mutexes fm).owned_by.isSome = true) :
    unlock_owners w fm q.length = q.map (fun a => some a.fid) := by
  induction q generalizing w with
  | nil => rfl
  | cons wdp rest ih =>
    obtain ⟨o, ho⟩ := Option.isSome_iff_exists.mp hown
    obtain ⟨w1, hu, hm, -⟩ := unlock_handoff w fm o wdp rest hinv hq ho
    have hinv1 : mutex_inv (w1.mutexes fm) := by
      have hw : _fibril_mutex_unlock_unsafe w fm o = some w1 := by
        simp only [fibril_mutex_unlock] at hu
        split at hu
        · cases hu
        · rename_i w2 hw2
          cases hu
          exact hw2
      exact unlock_unsafe_inv w w1 fm fm o hw hinv
    have hrec := ih w1 hinv1 (by rw [hm]) (by rw [hm]; rfl)
    simp only [List.length_cons, unlock_owners, ho, hu, List.map_cons, hrec, hm]

/-- The deadlock walk reads only `owned_by` and `waits_for`. -/
theorem check_congr (w w1 : World) (hf : ∀ g, (w1.fibrils g).waits_for = (w.fibrils g).waits_for)
    (ho : ∀ r, w1.owned_by r = w.owned_by r) (fuel : Nat) (oi : Option oi_ref) (fib : fid_t) :
    check_fibril_for_deadlock w1 fuel oi fib = check_fibril_for_deadlock w fuel oi fib := by
  induction fuel generalizing oi with
  | zero => rfl
  | succ n ih =>
    cases oi with
    | none => rfl
    | some r =>
      simp only [check_fibril_for_deadlock, ho r]
      cases w.owned_by r with
      | none => rfl
      | some o =>
        simp only [hf o]
        split
        · rfl
        · exact ih _

/-- The walk made by `fibril_mutex_lock` after it has queued the caller is the
walk on the memory before the call. -/
theorem check_after_append (w : World) (fm : Nat) (m : fibril_mutex_t)
    (hm : m.owned_by = (w.mutexes fm).owned_by) (fuel : Nat) (oi : Option oi_ref)
    (fib : fid_t) :
    check_fibril_for_deadlock (w.setMutex fm m) fuel oi fib =
      check_fibril_for_deadlock w fuel oi fib := by
  apply check_congr
  · intro g; rfl
  · intro r
    cases r with
    | mutex i =>
      simp only [World.owned_by, setMutex_mutexes]
      split
      · rename_i h; rw [hm, h]
      · rfl
    | rwlock i => rfl

/-- The same, for the record update that `fibril_mutex_lock` performs. -/
theorem check_setMutex (w : World) (fm : Nat) (c : Int) (q : List awaiter_t) (fuel : Nat)
    (oi : Option oi_ref) (fib : fid_t) :
    check_fibril_for_deadlock
        (w.setMutex fm { owned_by := (w.mutexes fm).owned_by, counter := c, waiters := q })
        fuel oi fib =
      check_fibril_for_deadlock w fuel oi fib :=
  check_after_append w fm
    { owned_by := (w.mutexes fm).owned_by, counter := c, waiters := q } rfl fuel oi fib

/-- Blocking in `fibril_mutex_lock`: the full effect. -/
theorem lock_blocks (fuel : Nat) (w : World) (fm : Nat) (self : fid_t)
    (hc : ¬ (w.mutexes fm).counter > 0)
    (hchk : check_fibril_for_deadlock w fuel (some (.mutex fm)) self = some false) :
    ∃ w1, fibril_mutex_lock fuel w fm self = some (.suspended w1) ∧
      w1.mutexes fm =
        { owned_by := (w.mutexes fm).owned_by, counter := (w.mutexes fm).counter - 1,
          waiters := (w.mutexes fm).waiters ++ [AWAITER_INIT self] } ∧
      (∀ i, i ≠ fm → w1.mutexes i = w.mutexes i) ∧
      (w1.fibrils self).waits_for = some (.mutex fm) ∧
      (w1.fibrils self).is_writer = (w.fibrils self).is_writer ∧
      (∀ g, g ≠ self → w1.fibrils g = w.fibrils g) ∧
      w1.notified = w.notified ∧ w1.rwlocks = w.rwlocks ∧ w1.condvars = w.condvars := by
  refine ⟨((w.setMutex fm
      { (w.mutexes fm) with counter := (w.mutexes fm).counter - 1,
                            waiters := (w.mutexes fm).waiters ++ [AWAITER_INIT self] }).setFibril
      self { (w.fibrils self) with waits_for := some (.mutex fm) }),
    ?_, ?_, ?_, ?_, ?_, ?_, ?_, ?_, ?_⟩
  · simp only [fibril_mutex_lock, hc, if_false, check_for_deadlock]
    rw [check_setMutex, hchk]
    rfl
  · simp
  · intro i hi; simp [hi]
  · simp
  · simp
  · intro g hg; simp [hg]
  · rfl
  · rfl
  · rfl

/-- Fibrils that block one after the other are queued in that order. -/
theorem lock_all_queue (fuel : Nat) (fm : Nat) (fs : List fid_t) (w w1 : World)
    (hinv : mutex_inv (w.mutexes fm)) (hown : (w.mutexes fm).owned_by.isSome = true)
    (h : lock_all fuel w fm fs = some w1) :
    mutex_inv (w1.mutexes fm) ∧ (w1.mutexes fm).owned_by = (w.mutexes fm).owned_by ∧
      (w1.mutexes fm).waiters = (w.mutexes fm).waiters ++ fs.map AWAITER_INIT := by
  induction fs generalizing w with
  | nil =>
    simp only [lock_all] at h
    cases h
    simp [hinv]
  | cons f fs ih =>
    simp only [lock_all] at h
    split at h
    · rename_i w2 hl
      have hap : mutex_op.apply w (.lock fuel fm f) = some w2 := by
        simp [mutex_op.apply, hl, Outcome.world]
      have hinv2 := mutex_op_apply_inv w w2 _ fm hap hinv
      have hc : ¬ (w.mutexes fm).counter > 0 := by
        intro hp
        simp [fibril_mutex_lock, hp] at hl
      have hchk : check_fibril_for_deadlock w fuel (some (.mutex fm)) f = some false := by
        simp only [fibril_mutex_lock, hc, if_false, check_for_deadlock] at hl
        rw [check_setMutex] at hl
        cases hck : check_fibril_for_deadlock w fuel (some (.mutex fm)) f with
        | none => simp [hck] at hl
        | some b =>
          cases b with
          | false => rfl
          | true => simp [hck] at hl
      obtain ⟨w3, hl3, hm3, -⟩ := lock_blocks fuel w fm f hc hchk
      rw [hl] at hl3
      cases hl3
      obtain ⟨i1, i2, i3⟩ := ih w2 hinv2 (by rw [hm3]; exact hown) h
      refine ⟨i1, ?_, ?_⟩
      · rw [i2, hm3]
      · rw [i3, hm3]; simp
    · cases h

/-- C2: on a mutex that satisfies the invariant and has a non-empty waiter
queue, `fibril_mutex_unlock` by the owner makes the fibril of the front wait
record the owner, removes exactly that record and keeps the others in order,
clears that fibril's `waits_for`, and notifies only that fibril; so fibrils
`fs` that blocked in `fibril_mutex_lock` in this order become owner in this
order over successive unlocks, and the mutex has one owner at each point. -/
theorem C2_unlock_fifo (w : World) (fm : Nat) (self : fid_t) (wdp : awaiter_t)
    (rest : List awaiter_t) (hinv : mutex_inv (w.mutexes fm))
    (hq : (w.mutexes fm).waiters = wdp :: rest)
    (hown : (w.mutexes fm).owned_by = some self) :
    (∃ w1, fibril_mutex_unlock w fm self = .returned () w1 ∧
      (w1.mutexes fm).owned_by = some wdp.fid ∧
      (w1.mutexes fm).waiters = rest ∧
      (w1.fibrils wdp.fid).waits_for = none ∧
      (∀ g, g ≠ wdp.fid → w1.fibrils g = w.fibrils g) ∧
      w1.notified = w.notified ++ [wdp.fid]) ∧
    unlock_owners w fm (wdp :: rest).length =
      (wdp :: rest).map (fun a => some a.fid) ∧
    (∀ (fuel : Nat) (fs : List fid_t) (w1 : World),
      lock_all fuel w fm fs = some w1 →
      unlock_owners w1 fm (rest.length + 1 + fs.length) =
        (wdp :: rest).map (fun a => some a.fid) ++ fs.map some) := by
  refine ⟨?_, ?_, ?_⟩
  · obtain ⟨w1, hu, hm, -, hwf, -, hfib, hn, -⟩ :=
      unlock_handoff w fm self wdp rest hinv hq hown
    exact ⟨w1, hu, by rw [hm], by rw [hm], hwf, hfib, hn⟩
  · exact unlock_owners_queue fm _ w hinv hq (by rw [hown]; rfl)
  · intro fuel fs w1 hl
    obtain ⟨i1, i2, i3⟩ := lock_all_queue fuel fm fs w w1 hinv (by rw [hown]; rfl) hl
    have := unlock_owners_queue fm _ w1 i1 i3 (by rw [i2, hown]; rfl)
    have hlen : ((wdp :: rest) ++ fs.map AWAITER_INIT).length =
        rest.length + 1 + fs.length := by simp; omega
    have hmap : ((wdp :: rest) ++ fs.map AWAITER_INIT).map (fun a => some a.fid) =
        (wdp :: rest).map (fun a => some a.fid) ++ fs.map some := by
      simp [AWAITER_INIT, Function.comp_def]
    rw [hq, hlen, hmap] at this
    exact this

/-- C2 at a concrete memory: fibril 1 owns mutex 0, fibrils 2 and 3 wait. -/
theorem C2_unlock_fifo_witness :
    mutex_inv (World.queued.mutexes 0) ∧
    (World.queued.mutexes 0).waiters = [AWAITER_INIT 2, AWAITER_INIT 3] ∧
    (World.queued.mutexes 0).owned_by = some 1 ∧
    unlock_owners World.queued 0 2 = [some 2, some 3] :=
  ⟨by decide, rfl, rfl,
    (C2_unlock_fifo World.queued 0 1 (AWAITER_INIT 2) [AWAITER_INIT 3]
      (by decide) rfl rfl).2.1⟩

/-- C3: `fibril_mutex_lock` decrements the counter by one whenever the process
survives the call; with a positive counter the caller becomes the owner at
once and the waiter queue and all `waits_for` fields stay as they are;
otherwise, when the deadlock walk ends without meeting the caller, the owner
stays, the caller's wait record is appended at the tail of the queue, the
caller's `waits_for` names this mutex, and the caller is suspended. -/
theorem C3_lock_effect (fuel : Nat) (w : World) (fm : Nat) (self : fid_t) :
    (∀ out w1, fibril_mutex_lock fuel w fm self = some out → out.world = some w1 →
      (w1.mutexes fm).counter = (w.mutexes fm).counter - 1) ∧
    ((w.mutexes fm).counter > 0 →
      ∃ w1, fibril_mutex_lock fuel w fm self = some (.returned () w1) ∧
        (w1.mutexes fm).owned_by = some self ∧
        (w1.mutexes fm).waiters = (w.mutexes fm).waiters ∧
        w1.fibrils = w.fibrils) ∧
    (¬ (w.mutexes fm).counter > 0 →
      check_fibril_for_deadlock w fuel (some (.mutex fm)) self = some false →
      ∃ w1, fibril_mutex_lock fuel w fm self = some (.suspended w1) ∧
        (w1.mutexes fm).owned_by = (w.mutexes fm).owned_by ∧
        (w1.mutexes fm).waiters = (w.mutexes fm).waiters ++ [AWAITER_INIT self] ∧
        (w1.fibrils self).waits_for = some (.mutex fm) ∧
        (∀ g, g ≠ self → w1.fibrils g = w.fibrils g)) := by
  refine ⟨?_, ?_, ?_⟩
  · intro out w1 hl hw
    simp only [fibril_mutex_lock, check_for_deadlock] at hl
    split at hl
    · cases hl
      simp only [Outcome.world] at hw
      cases hw
      simp
    · rw [check_setMutex] at hl
      split at hl
      · cases hl
      · cases hl
        cases hw
      · cases hl
        simp only [Outcome.world] at hw
        cases hw
        simp
  · intro hpos
    refine ⟨w.setMutex fm
      { (w.mutexes fm) with counter := (w.mutexes fm).counter - 1, owned_by := some self },
      ?_, ?_, ?_, ?_⟩
    · simp only [fibril_mutex_lock, hpos, if_true]
    · simp
    · simp
    · rfl
  · intro hc hchk
    obtain ⟨w1, hl, hm, -, hwf, -, hfib, -⟩ := lock_blocks fuel w fm self hc hchk
    exact ⟨w1, hl, by rw [hm], by rw [hm], hwf, hfib⟩

/-- C3 at a concrete memory: fibril 4 calls lock on the held mutex 0. -/
theorem C3_lock_effect_witness :
    ∃ w1, fibril_mutex_lock 4 World.queued 0 4 = some (.suspended w1) ∧
      (w1.mutexes 0).owned_by = some 1 ∧
      (w1.mutexes 0).waiters = [AWAITER_INIT 2, AWAITER_INIT 3, AWAITER_INIT 4] ∧
      (w1.fibrils 4).waits_for = some (.mutex 0) ∧
      (∀ g, g ≠ 4 → w1.fibrils g = World.queued.fibrils g) :=
  (C3_lock_effect 4 World.queued 0 4).2.2 (by decide) rfl

/-- More fuel does not change a finished deadlock walk. -/
theorem check_fuel_mono (w : World) (fuel : Nat) (oi : Option oi_ref) (fib : fid_t) (b : Bool)
    (h : check_fibril_for_deadlock w fuel oi fib = some b) (k : Nat) :
    check_fibril_for_deadlock w (fuel + k) oi fib = some b := by
  induction fuel generalizing oi with
  | zero => simp [check_fibril_for_deadlock] at h
  | succ n ih =>
    rw [Nat.add_right_comm]
    cases oi with
    | none => simpa [check_fibril_for_deadlock] using h
    | some r =>
      simp only [check_fibril_for_deadlock] at h ⊢
      cases ho : w.owned_by r with
      | none => simpa [ho] using h
      | some o =>
        simp only [ho] at h ⊢
        split
        · rename_i heq; simpa [heq] using h
        · rename_i hne
          rw [if_neg hne] at h
          exact ih _ h

/-- A walk that aborts has met the fibril on the ownership chain. -/
theorem check_true_chain (w : World) (fuel : Nat) (oi : Option oi_ref) (fib : fid_t)
    (h : check_fibril_for_deadlock w fuel oi fib = some true) :
    ∃ k, chain_owner w k oi = some fib := by
  induction fuel generalizing oi with
  | zero => simp [check_fibril_for_deadlock] at h
  | succ n ih =>
    cases oi with
    | none => simp [check_fibril_for_deadlock] at h
    | some r =>
      simp only [check_fibril_for_deadlock] at h
      cases ho : w.owned_by r with
      | none => simp [ho] at h
      | some o =>
        simp only [ho] at h
        by_cases heq : o = fib
        · exact ⟨0, by simp [chain_owner, ho, heq]⟩
        · rw [if_neg heq] at h
          obtain ⟨k, hk⟩ := ih _ h
          exact ⟨k + 1, by simp [chain_owner, ho, hk]⟩

/-- A fibril on the ownership chain makes every long enough walk abort. -/
theorem chain_check_true (w : World) (k : Nat) (oi : Option oi_ref) (fib : fid_t)
    (h : chain_owner w k oi = some fib) (fuel : Nat) (hf : k < fuel) :
    check_fibril_for_deadlock w fuel oi fib = some true := by
  induction k generalizing oi fuel with
  | zero =>
    obtain ⟨n, rfl⟩ : ∃ n, fuel = n + 1 := ⟨fuel - 1, by omega⟩
    cases oi with
    | none => simp [chain_owner] at h
    | some r =>
      simp only [chain_owner, Option.bind] at h
      simp [check_fibril_for_deadlock, h]
  | succ k ih =>
    obtain ⟨n, rfl⟩ : ∃ n, fuel = n + 1 := ⟨fuel - 1, by omega⟩
    cases oi with
    | none => simp [chain_owner] at h
    | some r =>
      simp only [chain_owner, Option.bind] at h
      cases ho : w.owned_by r with
      | none => simp [ho] at h
      | some o =>
        simp only [ho] at h
        simp only [check_fibril_for_deadlock, ho]
        split
        · rfl
        · exact ih _ h n (by omega)

/-- A chain that ends without the fibril makes every long enough walk return. -/
theorem chain_check_false (w : World) (n : Nat) (oi : Option oi_ref) (fib : fid_t)
    (hend : chain_owner w n oi = none) (hno : ∀ k, chain_owner w k oi ≠ some fib)
    (fuel : Nat) (hf : n < fuel) :
    check_fibril_for_deadlock w fuel oi fib = some false := by
  induction n generalizing oi fuel with
  | zero =>
    obtain ⟨m, rfl⟩ : ∃ m, fuel = m + 1 := ⟨fuel - 1, by omega⟩
    cases oi with
    | none => rfl
    | some r =>
      simp only [chain_owner, Option.bind] at hend
      simp [check_fibril_for_deadlock, hend]
  | succ n ih =>
    obtain ⟨m, rfl⟩ : ∃ m, fuel = m + 1 := ⟨fuel - 1, by omega⟩
    cases oi with
    | none => rfl
    | some r =>
      simp only [chain_owner, Option.bind] at hend
      cases ho : w.owned_by r with
      | none => simp [check_fibril_for_deadlock, ho]
      | some o =>
        simp only [ho] at hend
        simp only [check_fibril_for_deadlock, ho]
        have h0 := hno 0
        simp only [chain_owner, Option.bind, ho] at h0
        have hne : ¬ o = fib := fun he => h0 (by rw [he])
        rw [if_neg hne]
        refine ih _ hend ?_ m (by omega)
        intro k hk
        exact hno (k + 1) (by simp [chain_owner, ho, hk])

/-- On a held mutex, `fibril_mutex_lock` aborts when its walk meets the caller. -/
theorem lock_aborts (fuel : Nat) (w : World) (fm : Nat) (self : fid_t)
    (hc : ¬ (w.mutexes fm).counter > 0)
    (hchk : check_fibril_for_deadlock w fuel (some (.mutex fm)) self = some true) :
    fibril_mutex_lock fuel w fm self = some .aborted := by
  simp only [fibril_mutex_lock, hc, if_false, check_for_deadlock]
  rw [check_setMutex, hchk]

/-- On a held mutex, an aborting `fibril_mutex_lock` has met the caller. -/
theorem lock_aborted_check (fuel : Nat) (w : World) (fm : Nat) (self : fid_t)
    (hc : ¬ (w.mutexes fm).counter > 0)
    (h : fibril_mutex_lock fuel w fm self = some .aborted) :
    check_fibril_for_deadlock w fuel (some (.mutex fm)) self = some true := by
  simp only [fibril_mutex_lock, hc, if_false, check_for_deadlock] at h
  rw [check_setMutex] at h
  cases hck : check_fibril_for_deadlock w fuel (some (.mutex fm)) self with
  | none => simp [hck] at h
  | some b =>
    cases b with
    | true => rfl
    | false => simp [hck] at h

/-- The cross-lock scenario ends with an abort, for any two distinct fibrils. -/
theorem cross_lock_aborts (fuel : Nat) (a b : fid_t) (hf : 2 ≤ fuel) (hab : a ≠ b) :
    cross_lock_scenario fuel a b =
      [(true, false, false), (true, false, false), (false, true, false),
       (false, false, true)] := by
  obtain ⟨n, rfl⟩ : ∃ n, fuel = n + 2 := ⟨fuel - 2, by omega⟩
  have hba : b ≠ a := fun h => hab h.symm
  simp [cross_lock_scenario, fibril_mutex_lock, fibril_mutex_initialize, World.boot,
    check_for_deadlock, check_fibril_for_deadlock, World.owned_by, Outcome.world,
    Outcome.isReturned, Outcome.isSuspended, Outcome.isAborted, World.setMutex,
    World.setFibril, hab, hba]

/-- C4: when fibril `f` calls `fibril_mutex_lock` on a held mutex whose
ownership chain is finite, the call aborts exactly when the chain
`owned_by → waits_for → owned_by → …` reaches `f`, and otherwise `f` is queued
and suspended; a lock by the current owner aborts; and in the scenario
"a locks m1, b locks m2, a blocks locking m2, b locks m1" the last call
aborts. -/
theorem C4_deadlock_abort (w : World) (fm : Nat) (f : fid_t)
    (hheld : (w.mutexes fm).counter ≤ 0)
    (hfin : ∃ n, chain_owner w n (some (.mutex fm)) = none) :
    ((∃ fuel, fibril_mutex_lock fuel w fm f = some .aborted) ↔
      ∃ k, chain_owner w k (some (.mutex fm)) = some f) ∧
    ((∃ k, chain_owner w k (some (.mutex fm)) = some f) →
      ∃ N, ∀ fuel, N ≤ fuel → fibril_mutex_lock fuel w fm f = some .aborted) ∧
    ((¬ ∃ k, chain_owner w k (some (.mutex fm)) = some f) →
      ∃ N, ∀ fuel, N ≤ fuel →
        ∃ w1, fibril_mutex_lock fuel w fm f = some (.suspended w1) ∧
          (w1.mutexes fm).waiters = (w.mutexes fm).waiters ++ [AWAITER_INIT f] ∧
          (w1.fibrils f).waits_for = some (.mutex fm)) ∧
    ((w.mutexes fm).owned_by = some f →
      ∀ fuel, 1 ≤ fuel → fibril_mutex_lock fuel w fm f = some .aborted) ∧
    (∀ fuel a b, 2 ≤ fuel → a ≠ b →
      cross_lock_scenario fuel a b =
        [(true, false, false), (true, false, false), (false, true, false),
         (false, false, true)]) := by
  have hc : ¬ (w.mutexes fm).counter > 0 := by omega
  refine ⟨⟨?_, ?_⟩, ?_, ?_, ?_, ?_⟩
  · rintro ⟨fuel, h⟩
    exact check_true_chain w fuel _ f (lock_aborted_check fuel w fm f hc h)
  · rintro ⟨k, hk⟩
    exact ⟨k + 1, lock_aborts _ w fm f hc (chain_check_true w k _ f hk _ (by omega))⟩
  · rintro ⟨k, hk⟩
    exact ⟨k + 1, fun fuel hfu =>
      lock_aborts _ w fm f hc (chain_check_true w k _ f hk _ (by omega))⟩
  · intro hno
    obtain ⟨n, hn⟩ := hfin
    refine ⟨n + 1, fun fuel hfu => ?_⟩
    have hchk := chain_check_false w n _ f hn (fun k hk => hno ⟨k, hk⟩) fuel (by omega)
    obtain ⟨w1, hl, hm, -, hwf, -⟩ := lock_blocks fuel w fm f hc hchk
    exact ⟨w1, hl, by rw [hm], hwf⟩
  · intro hown fuel hfu
    exact lock_aborts _ w fm f hc
      (chain_check_true w 0 _ f (by simp [chain_owner, World.owned_by, hown]) _ (by omega))
  · exact fun fuel a b hf hab => cross_lock_aborts fuel a b hf hab

/-- C4 at a concrete memory: the owner 1 of mutex 0 calls lock on it again. -/
theorem C4_deadlock_abort_witness :
    (World.queued.mutexes 0).counter ≤ 0 ∧
    chain_owner World.queued 1 (some (.mutex 0)) = none ∧
    (∀ fuel, 1 ≤ fuel → fibril_mutex_lock fuel World.queued 0 1 = some .aborted) :=
  ⟨by decide, rfl,
    (C4_deadlock_abort World.queued 0 1 (by decide) ⟨1, rfl⟩).2.2.2.1 rfl⟩

/-- C5: on a mutex that satisfies the invariant, `fibril_mutex_unlock` aborts
exactly when the caller is not the owner (in particular when there is no
owner); a call by the owner returns, because a negative counter comes with a
queued wait record. -/
theorem C5_unlock_abort (w : World) (fm : Nat) (self : fid_t)
    (hinv : mutex_inv (w.mutexes fm)) :
    ((fibril_mutex_unlock w fm self).isAborted = true ↔
      (w.mutexes fm).owned_by ≠ some self) ∧
    ((w.mutexes fm).owned_by = none →
      (fibril_mutex_unlock w fm self).isAborted = true) ∧
    ((w.mutexes fm).owned_by = some self →
      (fibril_mutex_unlock w fm self).isReturned = true) ∧
    ((w.mutexes fm).counter < 0 → (w.mutexes fm).waiters ≠ []) := by
  obtain ⟨h1, h2, h3⟩ := hinv
  have hq : (w.mutexes fm).counter < 0 → (w.mutexes fm).waiters ≠ [] := by
    intro hneg hnil
    have := (h3 (by omega)).2
    rw [hnil] at this
    simp at this
    omega
  have hret : (w.mutexes fm).owned_by = some self →
      (fibril_mutex_unlock w fm self).isReturned = true := by
    intro hown
    by_cases hneg : (w.mutexes fm).counter < 0
    · cases hw : (w.mutexes fm).waiters with
      | nil => exact absurd hw (hq hneg)
      | cons wdp rest =>
        simp [fibril_mutex_unlock, _fibril_mutex_unlock_unsafe, hown, hneg, hw,
          Outcome.isReturned]
    · simp [fibril_mutex_unlock, _fibril_mutex_unlock_unsafe, hown, hneg,
        Outcome.isReturned]
  have hab : (w.mutexes fm).owned_by ≠ some self →
      (fibril_mutex_unlock w fm self).isAborted = true := by
    intro hne
    simp [fibril_mutex_unlock, _fibril_mutex_unlock_unsafe, hne, Outcome.isAborted]
  refine ⟨⟨?_, hab⟩, ?_, hret, hq⟩
  · intro ha hown
    have hr := hret hown
    cases hu : fibril_mutex_unlock w fm self with
    | returned v w1 => simp [hu, Outcome.isAborted] at ha
    | suspended w1 => simp [hu, Outcome.isReturned] at hr
    | aborted => simp [hu, Outcome.isReturned] at hr
  · intro hnone
    exact hab (by rw [hnone]; exact fun h => by cases h)

/-- C5 at a concrete memory: the queued fibril 2 calls unlock on mutex 0, which
fibril 1 owns. -/
theorem C5_unlock_abort_witness :
    mutex_inv (World.queued.mutexes 0) ∧
    (World.queued.mutexes 0).owned_by ≠ some 2 ∧
    (fibril_mutex_unlock World.queued 0 2).isAborted = true ∧
    (fibril_mutex_unlock World.queued 0 1).isReturned = true :=
  ⟨by decide, by decide,
    (C5_unlock_abort World.queued 0 2 (by decide)).1.mpr (by decide),
    (C5_unlock_abort World.queued 0 1 (by decide)).2.2.1 rfl⟩

/-- C6: `fibril_mutex_trylock` always returns (no suspension, no abort); it
returns true exactly when the counter is positive, and then decrements the
counter and makes the caller the owner; when it returns false the whole
memory is as before, whoever the caller is. -/
theorem C6_trylock (w : World) (fm : Nat) (self : fid_t) :
    ∃ b w1, fibril_mutex_trylock w fm self = .returned b w1 ∧
      (b = true ↔ (w.mutexes fm).counter > 0) ∧
      (b = true →
        w1.mutexes fm =
          { owned_by := some self, counter := (w.mutexes fm).counter - 1,
            waiters := (w.mutexes fm).waiters } ∧
        (∀ i, i ≠ fm → w1.mutexes i = w.mutexes i) ∧
        w1.fibrils = w.fibrils ∧ w1.notified = w.notified) ∧
      (b = false → w1 = w) := by
  by_cases hpos : (w.mutexes fm).counter > 0
  · refine ⟨true, w.setMutex fm
      { (w.mutexes fm) with counter := (w.mutexes fm).counter - 1, owned_by := some self },
      ?_, ?_, ?_, ?_⟩
    · simp only [fibril_mutex_trylock, hpos, if_true]
    · simp [hpos]
    · intro _
      refine ⟨by simp, fun i hi => by simp [hi], rfl, rfl⟩
    · intro h; cases h
  · refine ⟨false, w, ?_, ?_, ?_, ?_⟩
    · simp only [fibril_mutex_trylock, hpos, if_false]
    · simp [hpos]
    · intro h; cases h
    · intro _; rfl

/-- C6 at a concrete memory: the owner 1 of mutex 0 calls trylock on it. -/
theorem C6_trylock_witness :
    ∃ b w1, fibril_mutex_trylock World.queued 0 1 = .returned b w1 ∧
      b = false ∧ w1 = World.queued :=
  match C6_trylock World.queued 0 1 with
  | ⟨true, _, _, hiff, _, _⟩ => absurd (hiff.mp rfl) (by decide)
  | ⟨false, w1, h, _, _, hf⟩ => ⟨false, w1, h, rfl, hf rfl⟩

/-- The grant loop touches no other rwlock. -/
theorem grant_loop_other (frw : Nat) (q : List awaiter_t) (w : World) (i : Nat)
    (hi : i ≠ frw) : (rwlock_grant_loop frw q w).rwlocks i = w.rwlocks i := by
  induction q generalizing w with
  | nil => rfl
  | cons wdp rest ih =>
    simp only [rwlock_grant_loop]
    split_ifs <;> first | rfl | (rw [ih]; simp [hi]) | simp [hi]

/-- The grant loop, entered with no writer, leaves the counters consistent. -/
theorem grant_loop_inv (frw : Nat) (q : List awaiter_t) (w : World)
    (hw : (w.rwlocks frw).writers = 0) :
    rwlock_inv ((rwlock_grant_loop frw q w).rwlocks frw) := by
  induction q generalizing w with
  | nil => simp [rwlock_grant_loop, rwlock_inv, hw]
  | cons wdp rest ih =>
    simp only [rwlock_grant_loop]
    split
    · simp [rwlock_inv, hw]
    · rename_i hbrk
      by_cases hisw : (w.fibrils wdp.fid).is_writer = true
      · have hr : (w.rwlocks frw).readers = 0 := by
          by_contra hne
          exact hbrk ⟨hisw, hne⟩
        simp [hisw, hw, hr, rwlock_inv, UINT_MOD]
      · simp only [hisw, if_false, hw, ne_eq, not_true_eq_false]
        apply ih
        simp [hw]

/-- The tail of the common unlock path keeps the counters of every rwlock
consistent. -/
theorem unlock_free_inv (w w1 : World) (frw i : Nat)
    (h : rwlock_unlock_free w frw = some w1)
    (hi : i ≠ frw → rwlock_inv (w.rwlocks i)) : rwlock_inv (w1.rwlocks i) := by
  simp only [rwlock_unlock_free] at h
  split at h
  · rename_i hz
    cases h
    by_cases hfi : i = frw
    · subst hfi
      apply grant_loop_inv
      simp [hz.2]
    · rw [grant_loop_other _ _ _ _ hfi]
      simpa [hfi] using hi hfi
  · cases h

/-- The common unlock path keeps the counters of every rwlock consistent. -/
theorem common_unlock_inv (w w1 : World) (frw i : Nat) (self : fid_t)
    (h : _fibril_rwlock_common_unlock w frw self = some w1)
    (hi : rwlock_inv (w.rwlocks i)) : rwlock_inv (w1.rwlocks i) := by
  have hset : ∀ (v : fibril_rwlock_t), (i = frw → rwlock_inv v) →
      rwlock_inv ((w.setRwlock frw v).rwlocks i) := by
    intro v hv
    by_cases hfi : i = frw
    · simpa [hfi] using hv hfi
    · simpa [hfi] using hi
  simp only [_fibril_rwlock_common_unlock] at h
  split at h
  · rename_i hr
    split at h
    · rename_i hr1
      have hv : i = frw → rwlock_inv
          { owned_by := (w.rwlocks frw).owned_by, writers := (w.rwlocks frw).writers,
            readers := (w.rwlocks frw).readers - 1, waiters := (w.rwlocks frw).waiters } := by
        intro hfi
        subst hfi
        obtain ⟨h1, h2⟩ := hi
        simp only [rwlock_inv]
        refine ⟨h1, ?_⟩
        intro hc
        exact h2 ⟨by omega, hc.2⟩
      split at h
      · cases h
        exact hset _ (fun hfi => by simpa [rwlock_inv] using hv hfi)
      · cases h
        exact hset _ hv
    · exact unlock_free_inv _ w1 frw i h (fun hfi => by simpa [hfi] using hi)
  · exact unlock_free_inv _ w1 frw i h (fun hfi => by simpa [hfi] using hi)

/-- Every surviving rwlock call keeps the counters of every rwlock consistent. -/
theorem rwlock_op_apply_inv (w w1 : World) (op : rwlock_op) (i : Nat)
    (h : rwlock_op.apply w op = some w1)
    (hi : rwlock_inv (w.rwlocks i)) : rwlock_inv (w1.rwlocks i) := by
  cases op with
  | read_lock fuel frw self =>
    simp only [rwlock_op.apply, fibril_rwlock_read_lock] at h
    split at h
    · rename_i hw
      simp only [Option.bind, Outcome.world] at h
      cases h
      by_cases hfi : i = frw
      · subst hfi
        simp [rwlock_inv, hw]
      · simpa [hfi] using hi
    · split at h
      · cases h
      · cases h
      · simp only [Option.bind, Outcome.world] at h
        cases h
        by_cases hfi : i = frw
        · subst hfi
          simpa [rwlock_inv] using hi
        · simpa [hfi] using hi
  | write_lock fuel frw self =>
    simp only [rwlock_op.apply, fibril_rwlock_write_lock] at h
    split at h
    · rename_i hw
      simp only [Option.bind, Outcome.world] at h
      cases h
      by_cases hfi : i = frw
      · subst hfi
        simp [rwlock_inv, hw.1, hw.2, UINT_MOD]
      · simpa [hfi] using hi
    · split at h
      · cases h
      · cases h
      · simp only [Option.bind, Outcome.world] at h
        cases h
        by_cases hfi : i = frw
        · subst hfi
          simpa [rwlock_inv] using hi
        · simpa [hfi] using hi
  | read_unlock frw self =>
    simp only [rwlock_op.apply, fibril_rwlock_read_unlock] at h
    split at h
    · split at h
      · cases h
      · rename_i w2 hu
        simp only [Outcome.world] at h
        cases h
        exact common_unlock_inv w _ frw i self hu hi
    · cases h
  | write_unlock frw self =>
    simp only [rwlock_op.apply, fibril_rwlock_write_unlock] at h
    split at h
    · split at h
      · split at h
        · cases h
        · rename_i w2 hu
          simp only [Outcome.world] at h
          cases h
          exact common_unlock_inv w _ frw i self hu hi
      · cases h
    · cases h

/-- A surviving sequence of rwlock calls keeps the counters consistent. -/
theorem rwlock_run_inv (ops : List rwlock_op) (w w1 : World) (i : Nat)
    (h : rwlock_run w ops = some w1)
    (hi : rwlock_inv (w.rwlocks i)) : rwlock_inv (w1.rwlocks i) := by
  induction ops generalizing w with
  | nil =>
    simp only [rwlock_run] at h
    cases h
    exact hi
  | cons op ops ih =>
    simp only [rwlock_run] at h
    cases hop : rwlock_op.apply w op with
    | none => simp [hop] at h
    | some w2 =>
      simp only [hop, Option.bind] at h
      exact ih w2 h (rwlock_op_apply_inv w w2 op i hop hi)

/-- With consistent counters, the assertion inside the common unlock path holds
for every caller that passes the assertions of `fibril_rwlock_read_unlock` or
`fibril_rwlock_write_unlock`. -/
theorem common_unlock_assert (w : World) (frw : Nat) (self : fid_t)
    (hi : rwlock_inv (w.rwlocks frw))
    (hpre : (w.rwlocks frw).readers > 0 ∨ (w.rwlocks frw).writers = 1) :
    (_fibril_rwlock_common_unlock w frw self).isSome = true := by
  obtain ⟨h1, h2⟩ := hi
  simp only [_fibril_rwlock_common_unlock]
  by_cases hr : (w.rwlocks frw).readers ≠ 0
  · have hw : (w.rwlocks frw).writers = 0 := by
      by_contra hne
      exact h2 ⟨by omega, by omega⟩
    rw [if_pos hr]
    split
    · split <;> rfl
    · rename_i hr1
      simp only [ne_eq, not_not] at hr1
      simp [rwlock_unlock_free, hr1, hw]
  · simp only [ne_eq, not_not] at hr
    have hw : (w.rwlocks frw).writers = 1 := by
      rcases hpre with hp | hp
      · omega
      · exact hp
    simp [hr, rwlock_unlock_free, hw, UINT_MOD]

/-- C7: in every state reached from `fibril_rwlock_initialize` by a sequence of
read_lock, write_lock, read_unlock and write_unlock calls that the process
survives, `writers ≤ 1` and never `readers > 0` together with `writers > 0`;
and the assertion "no readers and no writers" of the common unlock path holds
for every read_unlock or write_unlock whose own assertions hold. -/
theorem C7_rwlock_invariant (w0 : World) (frw : Nat) (ops : List rwlock_op) (w : World)
    (h : rwlock_run ( fibril_rwlock_initialize w0 frw) ops = some w) :
    (w.rwlocks frw).writers ≤ 1 ∧
    ¬ ((w.rwlocks frw).readers > 0 ∧ (w.rwlocks frw).writers > 0) ∧
    (∀ self, (w.rwlocks frw).readers > 0 →
      (fibril_rwlock_read_unlock w frw self).isReturned = true) ∧
    (∀ self, (w.rwlocks frw).writers = 1 → (w.rwlocks frw).owned_by = some self →
      (fibril_rwlock_write_unlock w frw self).isReturned = true) := by
  have hinv : rwlock_inv (w.rwlocks frw) :=
    rwlock_run_inv ops _ w frw h (by simp [rwlock_inv, fibril_rwlock_initialize])
  refine ⟨hinv.1, hinv.2, ?_, ?_⟩
  · intro self hr
    have := common_unlock_assert w frw self hinv (Or.inl hr)
    obtain ⟨w1, hw1⟩ := Option.isSome_iff_exists.mp this
    simp [fibril_rwlock_read_unlock, hr, hw1, Outcome.isReturned]
  · intro self hw hown
    have := common_unlock_assert w frw self hinv (Or.inr hw)
    obtain ⟨w1, hw1⟩ := Option.isSome_iff_exists.mp this
    simp [fibril_rwlock_write_unlock, hw, hown, hw1, Outcome.isReturned]

/-- C7 at a concrete run: three readers, a queued writer, the readers leave,
the writer is granted and leaves. -/
theorem C7_rwlock_invariant_witness :
    ∃ w, rwlock_run ( fibril_rwlock_initialize World.boot 0)
        [.read_lock 4 0 1, .read_lock 4 0 2, .read_lock 4 0 3, .write_lock 4 0 4,
         .read_unlock 0 1, .read_unlock 0 2, .read_unlock 0 3, .write_unlock 0 4] = some w ∧
      (w.rwlocks 0).writers ≤ 1 ∧
      ¬ ((w.rwlocks 0).readers > 0 ∧ (w.rwlocks 0).writers > 0) :=
  ⟨_, rfl,
    (C7_rwlock_invariant World.boot 0
      [.read_lock 4 0 1, .read_lock 4 0 2, .read_lock 4 0 3, .write_lock 4 0 4,
       .read_unlock 0 1, .read_unlock 0 2, .read_unlock 0 3, .write_unlock 0 4] _ rfl).1,
    (C7_rwlock_invariant World.boot 0
      [.read_lock 4 0 1, .read_lock 4 0 2, .read_lock 4 0 3, .write_lock 4 0 4,
       .read_unlock 0 1, .read_unlock 0 2, .read_unlock 0 3, .write_unlock 0 4] _ rfl).2.1⟩

/-- A second store to the same rwlock overwrites the first. -/
theorem setRwlock_setRwlock (w : World) (frw : Nat) (v1 v2 : fibril_rwlock_t) :
    (w.setRwlock frw v1).setRwlock frw v2 = w.setRwlock frw v2 := by
  simp only [World.setRwlock]
  congr 1
  funext i
  by_cases h : i = frw <;> simp [h]

/-- Stores to a fibril and to a rwlock commute. -/
theorem setRwlock_setFibril (w : World) (frw : Nat) (v : fibril_rwlock_t) (f : fid_t)
    (x : fibril_t) :
    (w.setRwlock frw v).setFibril f x = (w.setFibril f x).setRwlock frw v := rfl

/-- The grant loop once a reader holds the lock: it grants the run of reader
requests at the front of the queue and stops at the first writer request. -/
theorem grant_loop_readers (frw : Nat) (isw : fid_t → Bool) (q : List awaiter_t) (w : World)
    (hisw : ∀ g, (w.fibrils g).is_writer = isw g)
    (hw : (w.rwlocks frw).writers = 0)
    (hq : (w.rwlocks frw).waiters = q)
    (hr : 0 < (w.rwlocks frw).readers)
    (hlen : (w.rwlocks frw).readers + (q.takeWhile (fun a => !isw a.fid)).length < UINT_MOD) :
    ((rwlock_grant_loop frw q w).rwlocks frw).readers =
      (w.rwlocks frw).readers + (q.takeWhile (fun a => !isw a.fid)).length ∧
    ((rwlock_grant_loop frw q w).rwlocks frw).writers = 0 ∧
    ((rwlock_grant_loop frw q w).rwlocks frw).waiters = q.dropWhile (fun a => !isw a.fid) ∧
    (rwlock_grant_loop frw q w).notified =
      w.notified ++ (q.takeWhile (fun a => !isw a.fid)).map (fun a => a.fid) ∧
    (∀ g, (rwlock_grant_loop frw q w).fibrils g =
      if g ∈ (q.takeWhile (fun a => !isw a.fid)).map (fun a => a.fid) then
        { (w.fibrils g) with waits_for := none }
      else w.fibrils g) := by
  induction q generalizing w with
  | nil => simp [rwlock_grant_loop, hw, hq]
  | cons wdp rest ih =>
    cases hwr : isw wdp.fid with
    | true =>
      have h1 : (w.fibrils wdp.fid).is_writer = true := by rw [hisw, hwr]
      have h2 : (w.rwlocks frw).readers ≠ 0 := by omega
      simp [rwlock_grant_loop, h1, h2, hwr, hw, hq]
    | false =>
      have h1 : (w.fibrils wdp.fid).is_writer = false := by rw [hisw, hwr]
      simp only [List.takeWhile_cons, hwr, Bool.not_false, if_true, List.length_cons] at hlen
      have hmod : ((w.rwlocks frw).readers + 1) % UINT_MOD = (w.rwlocks frw).readers + 1 :=
        Nat.mod_eq_of_lt (by omega)
      have hstep : rwlock_grant_loop frw (wdp :: rest) w =
          rwlock_grant_loop frw rest
            (((w.setFibril wdp.fid { (w.fibrils wdp.fid) with waits_for := none }).setRwlock frw
              { owned_by := some wdp.fid, writers := 0,
                readers := (w.rwlocks frw).readers + 1, waiters := rest }).notify wdp) := by
        simp [rwlock_grant_loop, h1, hw, hmod]
      rw [hstep]
      obtain ⟨i1, i2, i3, i4, i5⟩ := ih
        (((w.setFibril wdp.fid { (w.fibrils wdp.fid) with waits_for := none }).setRwlock frw
          { owned_by := some wdp.fid, writers := 0,
            readers := (w.rwlocks frw).readers + 1, waiters := rest }).notify wdp)
        (by
          intro g
          by_cases hg : g = wdp.fid
          · simp [hg, h1, hwr]
          · simp [hg, hisw])
        (by simp) (by simp) (by simp) (by simp; omega)
      refine ⟨?_, i2, ?_, ?_, ?_⟩
      · rw [i1]
        simp [hwr]
        omega
      · rw [i3]
        simp [hwr]
      · rw [i4]
        simp [hwr]
      · intro g
        rw [i5]
        by_cases hg : g = wdp.fid
        · subst hg
          simp [hwr]
        · simp [hwr, hg]

/-- The last unlock reaches the grant loop with a free, unowned lock. -/
theorem common_unlock_last (w : World) (frw : Nat) (self : fid_t)
    (hlast : last_holder (w.rwlocks frw)) :
    _fibril_rwlock_common_unlock w frw self =
      some (rwlock_grant_loop frw (w.rwlocks frw).waiters
        (w.setRwlock frw
          { owned_by := none, writers := 0, readers := 0,
            waiters := (w.rwlocks frw).waiters })) := by
  rcases hlast with ⟨hr, hw⟩ | ⟨hr, hw⟩
  · simp [_fibril_rwlock_common_unlock, rwlock_unlock_free, hr, hw, setRwlock_setRwlock]
  · simp [_fibril_rwlock_common_unlock, rwlock_unlock_free, hr, hw, setRwlock_setRwlock,
      UINT_MOD]

/-- C8: when an unlock leaves the rwlock fully free with waiter queue `q` (of
fewer than `UINT_MOD` records): an empty `q` grants nothing; a writer request
at the front is the only one granted (`writers = 1`, `readers = 0`) and the
rest of `q` stays queued in order; a reader request at the front grants
exactly the maximal run of reader requests at the front of `q`
(`readers` = length of the run, `writers = 0`) and the queue from the first
writer request on stays queued in order.  Every granted fibril has
`waits_for` cleared and is notified; no other fibril is notified or changed. -/
theorem C8_grant_policy (w : World) (frw : Nat) (self : fid_t)
    (hlast : last_holder (w.rwlocks frw))
    (hlen : (w.rwlocks frw).waiters.length < UINT_MOD) :
    ∃ w1, _fibril_rwlock_common_unlock w frw self = some w1 ∧
      ((w.rwlocks frw).waiters = [] →
        w1.rwlocks frw = { owned_by := none, writers := 0, readers := 0, waiters := [] } ∧
        w1.notified = w.notified ∧ w1.fibrils = w.fibrils) ∧
      (∀ wdp rest, (w.rwlocks frw).waiters = wdp :: rest → reader_req w wdp = false →
        (w1.rwlocks frw).writers = 1 ∧ (w1.rwlocks frw).readers = 0 ∧
        (w1.rwlocks frw).waiters = rest ∧
        w1.notified = w.notified ++ [wdp.fid] ∧
        (w1.fibrils wdp.fid).waits_for = none ∧
        (∀ g, g ≠ wdp.fid → w1.fibrils g = w.fibrils g)) ∧
      (∀ wdp rest, (w.rwlocks frw).waiters = wdp :: rest → reader_req w wdp = true →
        (w1.rwlocks frw).readers = ((wdp :: rest).takeWhile (reader_req w)).length ∧
        (w1.rwlocks frw).writers = 0 ∧
        (w1.rwlocks frw).waiters = (wdp :: rest).dropWhile (reader_req w) ∧
        w1.notified =
          w.notified ++ ((wdp :: rest).takeWhile (reader_req w)).map (fun a => a.fid) ∧
        (∀ a, a ∈ (wdp :: rest).takeWhile (reader_req w) →
          (w1.fibrils a.fid).waits_for = none) ∧
        (∀ g, g ∉ ((wdp :: rest).takeWhile (reader_req w)).map (fun a => a.fid) →
          w1.fibrils g = w.fibrils g)) := by
  refine ⟨_, common_unlock_last w frw self hlast, ?_, ?_, ?_⟩
  · intro hq
    rw [hq]
    simp [rwlock_grant_loop]
  · intro wdp rest hq hwr
    have h1 : (w.fibrils wdp.fid).is_writer = true := by
      simpa [reader_req] using hwr
    rw [hq]
    simp [rwlock_grant_loop, h1, UINT_MOD]
    intro g hg
    simp [hg]
  · intro wdp rest hq hrd
    have h1 : (w.fibrils wdp.fid).is_writer = false := by
      simpa [reader_req] using hrd
    rw [hq] at hlen ⊢
    have hfun : (fun a => !(fun g => (w.fibrils g).is_writer) a.fid) = reader_req w := by
      funext a; rfl
    have htl : (List.takeWhile (reader_req w) rest).length ≤ rest.length := by
      exact (List.takeWhile_sublist _).length_le
    simp only [List.length_cons] at hlen
    have hstep : rwlock_grant_loop frw (wdp :: rest)
          (w.setRwlock frw
            { owned_by := none, writers := 0, readers := 0, waiters := wdp :: rest }) =
          rwlock_grant_loop frw rest
            (((w.setFibril wdp.fid { (w.fibrils wdp.fid) with waits_for := none }).setRwlock frw
              { owned_by := some wdp.fid, writers := 0, readers := 1,
                waiters := rest }).notify wdp) := by
      simp [rwlock_grant_loop, h1, UINT_MOD, setRwlock_setFibril, setRwlock_setRwlock]
    rw [hstep]
    obtain ⟨i1, i2, i3, i4, i5⟩ := grant_loop_readers frw (fun g => (w.fibrils g).is_writer) rest
      (((w.setFibril wdp.fid { (w.fibrils wdp.fid) with waits_for := none }).setRwlock frw
        { owned_by := some wdp.fid, writers := 0, readers := 1,
          waiters := rest }).notify wdp)
      (by
        intro g
        by_cases hg : g = wdp.fid
        · simp [hg]
        · simp [hg])
      (by simp) (by simp) (by simp)
      (by
        rw [hfun]
        simp
        omega)
    rw [hfun] at i1 i3 i4 i5
    refine ⟨?_, i2, ?_, ?_, ?_, ?_⟩
    · rw [i1]
      simp [hrd]
      omega
    · rw [i3]
      simp [hrd]
    · rw [i4]
      simp [hrd]
    · intro a ha
      rw [i5]
      simp only [List.takeWhile_cons, hrd, if_true, List.mem_cons] at ha
      by_cases hg : a.fid = wdp.fid
      · rw [hg]; simp
      · rcases ha with ha | ha
        · exact absurd (by rw [ha]) hg
        · have : a.fid ∈ (List.takeWhile (reader_req w) rest).map (fun a => a.fid) :=
            List.mem_map.mpr ⟨a, ha, rfl⟩
          simp [this]
    · intro g hg
      rw [i5]
      simp only [List.takeWhile_cons, hrd, if_true, List.map_cons, List.mem_cons, not_or] at hg
      simp [hg.1, hg.2]

/-- C8 at a concrete memory: the writer 9 leaves; the readers 5 and 6 are
granted, the writer 7 and the reader 8 behind it stay queued. -/
theorem C8_grant_policy_witness :
    last_holder (World.rw_queued.rwlocks 0) ∧
    (World.rw_queued.rwlocks 0).waiters.length < UINT_MOD ∧
    ∃ w1, _fibril_rwlock_common_unlock World.rw_queued 0 9 = some w1 ∧
      (w1.rwlocks 0).readers = 2 ∧ (w1.rwlocks 0).writers = 0 ∧
      (w1.rwlocks 0).waiters = [AWAITER_INIT 7, AWAITER_INIT 8] ∧
      w1.notified = [5, 6] :=
  ⟨by decide, by decide,
    match C8_grant_policy World.rw_queued 0 9 (by decide) (by decide) with
    | ⟨w1, h, _, _, h3⟩ =>
      ⟨w1, h, (h3 (AWAITER_INIT 5) _ rfl rfl).1, (h3 (AWAITER_INIT 5) _ rfl rfl).2.1,
        (h3 (AWAITER_INIT 5) _ rfl rfl).2.2.1, (h3 (AWAITER_INIT 5) _ rfl rfl).2.2.2.1⟩⟩

/-- The walk made by a blocking rwlock request, after the request has set
`is_writer` and queued the caller, is the walk on the memory before the
call. -/
theorem check_rw_queued (w : World) (frw : Nat) (self : fid_t) (b : Bool)
    (q : List awaiter_t) (fuel : Nat) (oi : Option oi_ref) (fib : fid_t) :
    check_fibril_for_deadlock
        ((w.setFibril self { (w.fibrils self) with is_writer := b }).setRwlock frw
          { (w.rwlocks frw) with waiters := q })
        fuel oi fib =
      check_fibril_for_deadlock w fuel oi fib := by
  apply check_congr
  · intro g
    by_cases hg : g = self
    · simp [hg]
    · simp [hg]
  · intro r
    cases r with
    | mutex i => rfl
    | rwlock i =>
      simp only [World.owned_by, setRwlock_rwlocks]
      split
      · rename_i h; rw [h]
      · rfl

/-- C10 fails as stated: the fibril that holds the rwlock as its writer asks
for it again (as a writer or as a reader).  The request is not compatible
with the holder, yet the caller is not queued: the call aborts the process. -/
theorem C10_incompatible_request_aborts :
    ∃ w, rwlock_run ( fibril_rwlock_initialize World.boot 0) [.write_lock 4 0 1] = some w ∧
      rw_obs w 0 = (0, 1, some 1, []) ∧
      fibril_rwlock_write_lock 4 w 0 1 = some .aborted ∧
      fibril_rwlock_read_lock 4 w 0 1 = some .aborted :=
  ⟨_, rfl, rfl, rfl, rfl⟩

/-- C10 as amended: read_lock returns at once exactly when `writers = 0`,
whatever the waiter queue holds, and then increments `readers` (an unsigned
counter) and makes the caller the nominal owner only when `readers` was 0;
write_lock returns at once exactly when `readers = 0` and `writers = 0`, and
then sets `writers = 1` and the owner to the caller.  In every other case in
which the deadlock walk ends without meeting the caller, the counters and the
owner stay, the caller's wait record is appended at the tail of the queue,
`is_writer` is set to the role and `waits_for` to this rwlock, and the caller
is suspended.  When the walk meets the caller (the caller is on the ownership
chain of the rwlock) the process is aborted, and a request aborts the process
in no other case. -/
theorem C10_rwlock_request (fuel : Nat) (w : World) (frw : Nat) (self : fid_t) :
    ((∃ w1, fibril_rwlock_read_lock fuel w frw self = some (.returned () w1)) ↔
      (w.rwlocks frw).writers = 0) ∧
    ((w.rwlocks frw).writers = 0 →
      ∃ w1, fibril_rwlock_read_lock fuel w frw self = some (.returned () w1) ∧
        w1.rwlocks frw =
          { owned_by := if (w.rwlocks frw).readers = 0 then some self
                        else (w.rwlocks frw).owned_by,
            writers := 0,
            readers := ((w.rwlocks frw).readers + 1) % UINT_MOD,
            waiters := (w.rwlocks frw).waiters } ∧
        w1.fibrils = w.fibrils ∧ w1.notified = w.notified) ∧
    ((w.rwlocks frw).writers ≠ 0 →
      check_fibril_for_deadlock w fuel (some (.rwlock frw)) self = some false →
      ∃ w1, fibril_rwlock_read_lock fuel w frw self = some (.suspended w1) ∧
        w1.rwlocks frw =
          { (w.rwlocks frw) with
            waiters := (w.rwlocks frw).waiters ++ [AWAITER_INIT self] } ∧
        w1.fibrils self = { waits_for := some (.rwlock frw), is_writer := false } ∧
        (∀ g, g ≠ self → w1.fibrils g = w.fibrils g) ∧ w1.notified = w.notified) ∧
    ((∃ w1, fibril_rwlock_write_lock fuel w frw self = some (.returned () w1)) ↔
      ((w.rwlocks frw).readers = 0 ∧ (w.rwlocks frw).writers = 0)) ∧
    (((w.rwlocks frw).readers = 0 ∧ (w.rwlocks frw).writers = 0) →
      ∃ w1, fibril_rwlock_write_lock fuel w frw self = some (.returned () w1) ∧
        w1.rwlocks frw =
          { owned_by := some self, writers := 1, readers := 0,
            waiters := (w.rwlocks frw).waiters } ∧
        w1.fibrils = w.fibrils ∧ w1.notified = w.notified) ∧
    (¬ ((w.rwlocks frw).readers = 0 ∧ (w.rwlocks frw).writers = 0) →
      check_fibril_for_deadlock w fuel (some (.rwlock frw)) self = some false →
      ∃ w1, fibril_rwlock_write_lock fuel w frw self = some (.suspended w1) ∧
        w1.rwlocks frw =
          { (w.rwlocks frw) with
            waiters := (w.rwlocks frw).waiters ++ [AWAITER_INIT self] } ∧
        w1.fibrils self = { waits_for := some (.rwlock frw), is_writer := true } ∧
        (∀ g, g ≠ self → w1.fibrils g = w.fibrils g) ∧ w1.notified = w.notified) ∧
    ((w.rwlocks frw).writers ≠ 0 →
      check_fibril_for_deadlock w fuel (some (.rwlock frw)) self = some true →
      fibril_rwlock_read_lock fuel w frw self = some .aborted) ∧
    (¬ ((w.rwlocks frw).readers = 0 ∧ (w.rwlocks frw).writers = 0) →
      check_fibril_for_deadlock w fuel (some (.rwlock frw)) self = some true →
      fibril_rwlock_write_lock fuel w frw self = some .aborted) ∧
    (∀ k, chain_owner w k (some (.rwlock frw)) = some self → k < fuel →
      ((w.rwlocks frw).writers ≠ 0 →
        fibril_rwlock_read_lock fuel w frw self = some .aborted) ∧
      (¬ ((w.rwlocks frw).readers = 0 ∧ (w.rwlocks frw).writers = 0) →
        fibril_rwlock_write_lock fuel w frw self = some .aborted)) ∧
    (fibril_rwlock_read_lock fuel w frw self = some .aborted ↔
      ((w.rwlocks frw).writers ≠ 0 ∧
        check_fibril_for_deadlock w fuel (some (.rwlock frw)) self = some true)) ∧
    (fibril_rwlock_write_lock fuel w frw self = some .aborted ↔
      (¬ ((w.rwlocks frw).readers = 0 ∧ (w.rwlocks frw).writers = 0) ∧
        check_fibril_for_deadlock w fuel (some (.rwlock frw)) self = some true)) := by
  have rabort : (w.rwlocks frw).writers ≠ 0 →
      check_fibril_for_deadlock w fuel (some (.rwlock frw)) self = some true →
      fibril_rwlock_read_lock fuel w frw self = some .aborted := by
    intro hw hchk
    simp only [fibril_rwlock_read_lock, hw, if_false, check_for_deadlock]
    rw [check_rw_queued, hchk]
  have wabort : ¬ ((w.rwlocks frw).readers = 0 ∧ (w.rwlocks frw).writers = 0) →
      check_fibril_for_deadlock w fuel (some (.rwlock frw)) self = some true →
      fibril_rwlock_write_lock fuel w frw self = some .aborted := by
    intro hw hchk
    have hw' : ¬ ((w.rwlocks frw).writers = 0 ∧ (w.rwlocks frw).readers = 0) :=
      fun hc => hw ⟨hc.2, hc.1⟩
    simp only [fibril_rwlock_write_lock, hw', if_false, check_for_deadlock]
    rw [check_rw_queued, hchk]
  refine ⟨⟨?_, ?_⟩, ?_, ?_, ⟨?_, ?_⟩, ?_, ?_, rabort, wabort, ?_, ⟨?_, ?_⟩, ⟨?_, ?_⟩⟩
  · rintro ⟨w1, h⟩
    by_contra hw
    simp only [fibril_rwlock_read_lock, hw, if_false, check_for_deadlock] at h
    split at h <;> cases h
  · intro hw
    exact ⟨w.setRwlock frw
      { owned_by := if (w.rwlocks frw).readers = 0 then some self
                    else (w.rwlocks frw).owned_by,
        writers := 0,
        readers := ((w.rwlocks frw).readers + 1) % UINT_MOD,
        waiters := (w.rwlocks frw).waiters },
      by simp only [fibril_rwlock_read_lock, hw, if_true]⟩
  · intro hw
    refine ⟨w.setRwlock frw
      { owned_by := if (w.rwlocks frw).readers = 0 then some self
                    else (w.rwlocks frw).owned_by,
        writers := 0,
        readers := ((w.rwlocks frw).readers + 1) % UINT_MOD,
        waiters := (w.rwlocks frw).waiters },
      by simp only [fibril_rwlock_read_lock, hw, if_true], ?_, rfl, rfl⟩
    simp
  · intro hw hchk
    refine ⟨((w.setFibril self { (w.fibrils self) with is_writer := false }).setRwlock frw
        { (w.rwlocks frw) with
          waiters := (w.rwlocks frw).waiters ++ [AWAITER_INIT self] }).setFibril self
        { waits_for := some (.rwlock frw), is_writer := false }, ?_, ?_, ?_, ?_, rfl⟩
    · simp only [fibril_rwlock_read_lock, hw, if_false, check_for_deadlock]
      rw [check_rw_queued, hchk]
      simp
    · simp
    · simp
    · intro g hg
      simp [hg]
  · rintro ⟨w1, h⟩
    by_contra hw
    have hw' : ¬ ((w.rwlocks frw).writers = 0 ∧ (w.rwlocks frw).readers = 0) :=
      fun hc => hw ⟨hc.2, hc.1⟩
    simp only [fibril_rwlock_write_lock, hw', if_false, check_for_deadlock] at h
    split at h <;> cases h
  · intro hw
    exact ⟨w.setRwlock frw
      { owned_by := some self, writers := 1, readers := 0,
        waiters := (w.rwlocks frw).waiters },
      by simp [fibril_rwlock_write_lock, hw.1, hw.2, UINT_MOD]⟩
  · intro hw
    refine ⟨w.setRwlock frw
      { owned_by := some self, writers := 1, readers := 0,
        waiters := (w.rwlocks frw).waiters },
      by simp [fibril_rwlock_write_lock, hw.1, hw.2, UINT_MOD], ?_, rfl, rfl⟩
    simp
  · intro hw hchk
    have hw' : ¬ ((w.rwlocks frw).writers = 0 ∧ (w.rwlocks frw).readers = 0) :=
      fun hc => hw ⟨hc.2, hc.1⟩
    refine ⟨((w.setFibril self { (w.fibrils self) with is_writer := true }).setRwlock frw
        { (w.rwlocks frw) with
          waiters := (w.rwlocks frw).waiters ++ [AWAITER_INIT self] }).setFibril self
        { waits_for := some (.rwlock frw), is_writer := true }, ?_, ?_, ?_, ?_, rfl⟩
    · simp only [fibril_rwlock_write_lock, hw', if_false, check_for_deadlock]
      rw [check_rw_queued, hchk]
      simp
    · simp
    · simp
    · intro g hg
      simp [hg]
  · intro k hk hf
    have hchk := chain_check_true w k _ self hk fuel hf
    exact ⟨fun hw => rabort hw hchk, fun hw => wabort hw hchk⟩
  · intro h
    by_cases hw : (w.rwlocks frw).writers = 0
    · simp only [fibril_rwlock_read_lock, hw, if_true] at h
      cases h
    · refine ⟨hw, ?_⟩
      simp only [fibril_rwlock_read_lock, hw, if_false, check_for_deadlock] at h
      rw [check_rw_queued] at h
      cases hck : check_fibril_for_deadlock w fuel (some (.rwlock frw)) self with
      | none => simp [hck] at h
      | some b =>
        cases b with
        | true => rfl
        | false => simp [hck] at h
  · rintro ⟨hw, hchk⟩
    exact rabort hw hchk
  · intro h
    by_cases hw : (w.rwlocks frw).writers = 0 ∧ (w.rwlocks frw).readers = 0
    · simp only [fibril_rwlock_write_lock, hw, and_self, if_true] at h
      cases h
    · refine ⟨fun hc => hw ⟨hc.2, hc.1⟩, ?_⟩
      simp only [fibril_rwlock_write_lock, hw, if_false, check_for_deadlock] at h
      rw [check_rw_queued] at h
      cases hck : check_fibril_for_deadlock w fuel (some (.rwlock frw)) self with
      | none => simp [hck] at h
      | some b =>
        cases b with
        | true => rfl
        | false => simp [hck] at h
  · rintro ⟨hw, hchk⟩
    exact wabort hw hchk

/-- C10 as amended, at a concrete memory: with reader requests and a writer
request queued behind the writer 9, reader 10 is queued at the tail, and a
further request by the writer 9 itself aborts the process. -/
theorem C10_rwlock_request_witness :
    (∃ w1, fibril_rwlock_read_lock 4 World.rw_queued 0 10 = some (.suspended w1) ∧
      rw_obs w1 0 = (0, 1, some 9, [5, 6, 7, 8, 10]) ∧
      w1.fibrils 10 = { waits_for := some (.rwlock 0), is_writer := false }) ∧
    fibril_rwlock_read_lock 4 World.rw_queued 0 9 = some .aborted ∧
    fibril_rwlock_write_lock 4 World.rw_queued 0 9 = some .aborted :=
  ⟨match (C10_rwlock_request 4 World.rw_queued 0 10).2.2.1 (by decide) rfl with
    | ⟨w1, h, hrw, hf, _⟩ => ⟨w1, h, by simp [rw_obs, hrw, World.rw_queued, AWAITER_INIT], hf⟩,
    (C10_rwlock_request 4 World.rw_queued 0 9).2.2.2.2.2.2.1 (by decide) rfl,
    (C10_rwlock_request 4 World.rw_queued 0 9).2.2.2.2.2.2.2.1 (by decide) rfl⟩

/-- The code's release of a mutex by its owner is the release that the
specification words, on every mutex that satisfies the invariant. -/
theorem unlock_unsafe_spec (w : World) (fm : Nat) (self : fid_t)
    (hinv : mutex_inv (w.mutexes fm)) (hown : (w.mutexes fm).owned_by = some self) :
    _fibril_mutex_unlock_unsafe w fm self = some (spec_mutex_release w fm) := by
  obtain ⟨h1, h2, h3⟩ := hinv
  have hc : (w.mutexes fm).counter ≤ 0 := by
    by_contra hpos
    have := (h2 (by omega)).1
    rw [this] at hown
    cases hown
  have hlen := (h3 hc).2
  cases hq : (w.mutexes fm).waiters with
  | nil =>
    rw [hq] at hlen
    have hz : ¬ (w.mutexes fm).counter < 0 := by
      simp at hlen
      omega
    simp only [ _fibril_mutex_unlock_unsafe, hown, if_true, hz, if_false,
      spec_mutex_release, hq]
  | cons wdp rest =>
    rw [hq] at hlen
    have hz : (w.mutexes fm).counter < 0 := by
      simp at hlen
      omega
    simp only [ _fibril_mutex_unlock_unsafe, hown, if_true, hz, spec_mutex_release, hq,
      setMutex_fibrils]

/-- C13: a `fibril_condvar_wait_timeout` call with `timeout ≥ 0` by the owner of
mutex `fm` releases `fm` exactly as `fibril_mutex_unlock` does (counter plus
one; hand-over to the oldest waiter, which is woken, or else no owner) and
appends the caller's wait record at the tail of the condition variable's
queue, then suspends; a caller that does not own `fm` fails the assertion. -/
theorem C13_wait_releases_mutex (w : World) (fcv fm : Nat) (timeout : Int) (self : fid_t)
    (hinv : mutex_inv (w.mutexes fm)) (ht : 0 ≤ timeout) :
    ((w.mutexes fm).owned_by = some self →
      fibril_mutex_unlock w fm self = .returned () (spec_mutex_release w fm) ∧
      fibril_condvar_wait_timeout w fcv fm timeout self =
        .suspended ((spec_mutex_release w fm).setCondvar fcv
          { waiters := (w.condvars fcv).waiters ++ [condvar_wdata self fm] }) ∧
      (spec_mutex_release w fm).mutexes fm =
        { owned_by := ((w.mutexes fm).waiters.head?).map (fun a => a.fid),
          counter := (w.mutexes fm).counter + 1,
          waiters := (w.mutexes fm).waiters.tail }) ∧
    ((w.mutexes fm).owned_by ≠ some self →
      fibril_condvar_wait_timeout w fcv fm timeout self = .aborted ∧
      fibril_mutex_unlock w fm self = .aborted) := by
  refine ⟨fun hown => ?_, fun hne => ?_⟩
  · have hu := unlock_unsafe_spec w fm self hinv hown
    have hnt : ¬ timeout < 0 := by omega
    refine ⟨?_, ?_, ?_⟩
    · simp only [fibril_mutex_unlock, hu]
    · have hcv : (spec_mutex_release w fm).condvars = w.condvars := by
        simp only [spec_mutex_release]
        split <;> rfl
      simp only [fibril_condvar_wait_timeout, fibril_mutex_is_locked, hown, decide_True,
        if_true, hnt, if_false, hu, hcv]
      rfl
    · simp only [spec_mutex_release]
      cases hq : (w.mutexes fm).waiters with
      | nil => simp
      | cons wdp rest => simp
  · constructor
    · simp [fibril_condvar_wait_timeout, fibril_mutex_is_locked, hne]
    · simp [fibril_mutex_unlock, _fibril_mutex_unlock_unsafe, hne]

/-- C13 at a concrete memory: the owner 1 of mutex 0, on which fibrils 2 and 3
wait, enters a wait on condition variable 0. -/
theorem C13_wait_releases_mutex_witness :
    mutex_inv (World.queued.mutexes 0) ∧ (0 : Int) ≤ 5 ∧
    ∃ w1, fibril_condvar_wait_timeout World.queued 0 0 5 1 = .suspended w1 ∧
      w1.mutexes 0 = { owned_by := some 2, counter := -1, waiters := [AWAITER_INIT 3] } ∧
      (w1.condvars 0).waiters = [condvar_wdata 1 0] ∧ w1.notified = [2] :=
  ⟨by decide, by decide, _,
    ((C13_wait_releases_mutex World.queued 0 0 5 1 (by decide) (by decide)).1 rfl).2.1,
    rfl, rfl, rfl⟩

/-- The broadcast loop empties the queue it is given and notifies its records
in order; it touches nothing else. -/
theorem broadcast_loop_spec (fcv : Nat) (q : List awaiter_t) (w : World) :
    (q ≠ [] → ((condvar_broadcast_loop fcv q w).condvars fcv).waiters = []) ∧
    (∀ i, i ≠ fcv → (condvar_broadcast_loop fcv q w).condvars i = w.condvars i) ∧
    (condvar_broadcast_loop fcv q w).notified = w.notified ++ q.map (fun a => a.fid) ∧
    (condvar_broadcast_loop fcv q w).mutexes = w.mutexes ∧
    (condvar_broadcast_loop fcv q w).fibrils = w.fibrils ∧
    (condvar_broadcast_loop fcv q w).rwlocks = w.rwlocks ∧
    (condvar_broadcast_loop fcv q w).semaphores = w.semaphores ∧
    (condvar_broadcast_loop fcv q w).timers = w.timers := by
  induction q generalizing w with
  | nil => simp [condvar_broadcast_loop]
  | cons wdp rest ih =>
    obtain ⟨i1, i2, i3, i4, i5, i6, i7, i8⟩ :=
      ih ((w.setCondvar fcv { waiters := rest }).notify wdp)
    simp only [condvar_broadcast_loop]
    refine ⟨fun _ => ?_, ?_, ?_, ?_, ?_, ?_, ?_, ?_⟩
    · cases rest with
      | nil => simp [condvar_broadcast_loop]
      | cons a l => exact i1 (by simp)
    · intro i hi
      rw [i2 i hi]
      simp [hi]
    · rw [i3]; simp
    · rw [i4]; rfl
    · rw [i5]; rfl
    · rw [i6]; rfl
    · rw [i7]; rfl
    · rw [i8]; rfl

/-- Effect of `fibril_condvar_broadcast`. -/
theorem broadcast_spec (w : World) (fcv : Nat) :
    ((fibril_condvar_broadcast w fcv).condvars fcv).waiters = [] ∧
    (∀ i, i ≠ fcv → (fibril_condvar_broadcast w fcv).condvars i = w.condvars i) ∧
    (fibril_condvar_broadcast w fcv).notified =
      w.notified ++ (w.condvars fcv).waiters.map (fun a => a.fid) ∧
    (fibril_condvar_broadcast w fcv).mutexes = w.mutexes ∧
    (fibril_condvar_broadcast w fcv).fibrils = w.fibrils ∧
    (fibril_condvar_broadcast w fcv).rwlocks = w.rwlocks ∧
    (fibril_condvar_broadcast w fcv).semaphores = w.semaphores ∧
    (fibril_condvar_broadcast w fcv).timers = w.timers := by
  obtain ⟨i1, i2, i3, i4, i5, i6, i7, i8⟩ :=
    broadcast_loop_spec fcv (w.condvars fcv).waiters w
  refine ⟨?_, i2, i3, i4, i5, i6, i7, i8⟩
  cases hq : (w.condvars fcv).waiters with
  | nil => simp [fibril_condvar_broadcast, hq, condvar_broadcast_loop]
  | cons a l =>
    have := i1 (by simp [hq])
    simpa [fibril_condvar_broadcast] using this

/-- Entering a wait as the owner of a mutex that satisfies the invariant
suspends the caller with its record at the tail of the queue. -/
theorem wait_suspends (w : World) (fcv fm : Nat) (timeout : Int) (self : fid_t)
    (hinv : mutex_inv (w.mutexes fm)) (hown : (w.mutexes fm).owned_by = some self)
    (ht : 0 ≤ timeout) :
    ∃ w1, fibril_condvar_wait_timeout w fcv fm timeout self = .suspended w1 ∧
      (w1.condvars fcv).waiters = (w.condvars fcv).waiters ++ [condvar_wdata self fm] ∧
      (∀ i, i ≠ fcv → w1.condvars i = w.condvars i) ∧
      w1.mutexes = (spec_mutex_release w fm).mutexes ∧
      w1.fibrils = (spec_mutex_release w fm).fibrils ∧
      w1.notified = (spec_mutex_release w fm).notified ∧
      w1.rwlocks = w.rwlocks ∧ w1.semaphores = w.semaphores ∧ w1.timers = w.timers := by
  have hu := unlock_unsafe_spec w fm self hinv hown
  have hnt : ¬ timeout < 0 := by omega
  have hcv : (spec_mutex_release w fm).condvars = w.condvars := by
    simp only [spec_mutex_release]
    split <;> rfl
  refine ⟨(spec_mutex_release w fm).setCondvar fcv
    { waiters := (w.condvars fcv).waiters ++ [condvar_wdata self fm] }, ?_, ?_, ?_, rfl, rfl,
    rfl, ?_, ?_, ?_⟩
  · simp only [fibril_condvar_wait_timeout, fibril_mutex_is_locked, hown, decide_True,
      if_true, hnt, if_false, hu, hcv]
    rfl
  · simp
  · intro i hi
    simp [hi, hcv]
  · simp only [spec_mutex_release]; split <;> rfl
  · simp only [spec_mutex_release]; split <;> rfl
  · simp only [spec_mutex_release]; split <;> rfl

/-- C14: on a condition variable with `n` queued records, `fibril_condvar_signal`
removes and notifies exactly the oldest record when `n > 0` and changes
nothing when `n = 0`, so that a wait entered afterwards still blocks;
`fibril_condvar_broadcast` removes and notifies all records in queue order
and leaves the queue empty, so that a wait entered afterwards is queued and
not notified.  Neither call changes a mutex. -/
theorem C14_signal_broadcast (w : World) (fcv : Nat) :
    ((w.condvars fcv).waiters = [] → fibril_condvar_signal w fcv = w) ∧
    (∀ wdp rest, (w.condvars fcv).waiters = wdp :: rest →
      ((fibril_condvar_signal w fcv).condvars fcv).waiters = rest ∧
      (fibril_condvar_signal w fcv).notified = w.notified ++ [wdp.fid]) ∧
    ((∀ i, i ≠ fcv → (fibril_condvar_signal w fcv).condvars i = w.condvars i) ∧
      (fibril_condvar_signal w fcv).mutexes = w.mutexes ∧
      (fibril_condvar_signal w fcv).fibrils = w.fibrils) ∧
    (((fibril_condvar_broadcast w fcv).condvars fcv).waiters = [] ∧
      (fibril_condvar_broadcast w fcv).notified =
        w.notified ++ (w.condvars fcv).waiters.map (fun a => a.fid) ∧
      (∀ i, i ≠ fcv → (fibril_condvar_broadcast w fcv).condvars i = w.condvars i) ∧
      (fibril_condvar_broadcast w fcv).mutexes = w.mutexes ∧
      (fibril_condvar_broadcast w fcv).fibrils = w.fibrils) ∧
    (∀ fm timeout self, mutex_inv (w.mutexes fm) → (w.mutexes fm).owned_by = some self →
      0 ≤ timeout →
      ((w.condvars fcv).waiters = [] →
        ∃ w1, fibril_condvar_wait_timeout (fibril_condvar_signal w fcv) fcv fm timeout self =
            .suspended w1 ∧
          (w1.condvars fcv).waiters = [condvar_wdata self fm]) ∧
      (∃ w1, fibril_condvar_wait_timeout (fibril_condvar_broadcast w fcv) fcv fm timeout
            self = .suspended w1 ∧
          (w1.condvars fcv).waiters = [condvar_wdata self fm] ∧
          w1.notified =
            (spec_mutex_release (fibril_condvar_broadcast w fcv) fm).notified)) := by
  obtain ⟨b1, b2, b3, b4, b5, -⟩ := broadcast_spec w fcv
  refine ⟨?_, ?_, ?_, ⟨b1, b3, b2, b4, b5⟩, ?_⟩
  · intro hq
    simp [fibril_condvar_signal, hq]
  · intro wdp rest hq
    simp [fibril_condvar_signal, hq]
  · cases hq : (w.condvars fcv).waiters with
    | nil => simp [fibril_condvar_signal, hq]
    | cons wdp rest =>
      refine ⟨fun i hi => ?_, ?_, ?_⟩
      · simp [fibril_condvar_signal, hq, hi]
      · simp [fibril_condvar_signal, hq]
      · simp [fibril_condvar_signal, hq]
  · intro fm timeout self hinv hown ht
    constructor
    · intro hq
      have hs : fibril_condvar_signal w fcv = w := by simp [fibril_condvar_signal, hq]
      rw [hs]
      obtain ⟨w1, h1, h2, -⟩ := wait_suspends w fcv fm timeout self hinv hown ht
      exact ⟨w1, h1, by rw [h2, hq]; rfl⟩
    · obtain ⟨w1, h1, h2, -, -, -, h6, -⟩ :=
        wait_suspends (fibril_condvar_broadcast w fcv) fcv fm timeout self
          (by rw [b4]; exact hinv) (by rw [b4]; exact hown) ht
      exact ⟨w1, h1, by rw [h2, b1]; rfl, h6⟩

/-- A memory in which fibril 1 owns mutex 0 and the condition variable 0 holds
the records of fibrils 5 and 6, which waited with mutex 0. -/
theorem C14_signal_broadcast_witness :
    ∃ w, w = World.boot.setCondvar 0 { waiters := [condvar_wdata 5 0, condvar_wdata 6 0] } ∧
      ((fibril_condvar_signal w 0).condvars 0).waiters = [condvar_wdata 6 0] ∧
      (fibril_condvar_signal w 0).notified = [5] ∧
      ((fibril_condvar_broadcast w 0).condvars 0).waiters = [] ∧
      (fibril_condvar_broadcast w 0).notified = [5, 6] ∧
      fibril_condvar_signal World.boot 0 = World.boot :=
  ⟨_, rfl,
    ((C14_signal_broadcast
      (World.boot.setCondvar 0 { waiters := [condvar_wdata 5 0, condvar_wdata 6 0] })
      0).2.1 _ _ rfl).1,
    ((C14_signal_broadcast
      (World.boot.setCondvar 0 { waiters := [condvar_wdata 5 0, condvar_wdata 6 0] })
      0).2.1 _ _ rfl).2,
    (C14_signal_broadcast
      (World.boot.setCondvar 0 { waiters := [condvar_wdata 5 0, condvar_wdata 6 0] })
      0).2.2.2.1.1,
    (C14_signal_broadcast
      (World.boot.setCondvar 0 { waiters := [condvar_wdata 5 0, condvar_wdata 6 0] })
      0).2.2.2.1.2.1,
    (C14_signal_broadcast World.boot 0).1 rfl⟩

/-- Every surviving semaphore call keeps the invariant of every semaphore. -/
theorem semaphore_op_apply_inv (w w1 : World) (op : semaphore_op) (i : Nat)
    (h : semaphore_op.apply w op = some w1)
    (hi : semaphore_inv (w.semaphores i)) : semaphore_inv (w1.semaphores i) := by
  obtain ⟨h1, h2⟩ := hi
  cases op with
  | up sem =>
    simp only [semaphore_op.apply, fibril_semaphore_up] at h
    split at h
    · rename_i hle
      split at h
      · cases h
      · rename_i wdp rest hq
        simp only [Outcome.world] at h
        cases h
        by_cases hfi : i = sem
        · subst hfi
          have hl := h2 (by omega)
          rw [hq] at hl
          simp only [List.length_cons] at hl
          push_cast at hl
          simp only [semaphore_inv, notify_semaphores, setSemaphore_semaphores, if_true]
          refine ⟨fun hge => ?_, fun hlt => by omega⟩
          have : (rest.length : Int) = 0 := by omega
          exact List.length_eq_zero.mp (by exact_mod_cast this)
        · simpa [hfi, semaphore_inv] using And.intro h1 h2
    · rename_i hle
      simp only [Outcome.world] at h
      cases h
      by_cases hfi : i = sem
      · subst hfi
        simp only [semaphore_inv, setSemaphore_semaphores, if_true]
        exact ⟨fun _ => h1 (by omega), fun hlt => by omega⟩
      · simpa [hfi, semaphore_inv] using And.intro h1 h2
  | down sem self =>
    simp only [semaphore_op.apply, fibril_semaphore_down] at h
    split at h
    · rename_i hge
      simp only [Outcome.world] at h
      cases h
      by_cases hfi : i = sem
      · subst hfi
        simp only [semaphore_inv, setSemaphore_semaphores, if_true]
        exact ⟨fun _ => h1 (by omega), fun hlt => by omega⟩
      · simpa [hfi, semaphore_inv] using And.intro h1 h2
    · rename_i hge
      simp only [Outcome.world] at h
      cases h
      by_cases hfi : i = sem
      · subst hfi
        simp only [semaphore_inv, setSemaphore_semaphores, if_true, List.length_append,
          List.length_singleton]
        refine ⟨fun hge2 => by omega, fun _ => ?_⟩
        push_cast
        by_cases hz : (w.semaphores i).count ≥ 0
        · have := h1 hz
          rw [this]
          simp
          omega
        · have := h2 (by omega)
          omega
      · simpa [hfi, semaphore_inv] using And.intro h1 h2

/-- A surviving sequence of semaphore calls keeps the invariant. -/
theorem semaphore_run_inv (ops : List semaphore_op) (w w1 : World) (i : Nat)
    (h : semaphore_run w ops = some w1)
    (hi : semaphore_inv (w.semaphores i)) : semaphore_inv (w1.semaphores i) := by
  induction ops generalizing w with
  | nil =>
    simp only [semaphore_run] at h
    cases h
    exact hi
  | cons op ops ih =>
    simp only [semaphore_run] at h
    cases hop : semaphore_op.apply w op with
    | none => simp [hop] at h
    | some w2 =>
      simp only [hop, Option.bind] at h
      exact ih w2 h (semaphore_op_apply_inv w w2 op i hop hi)

/-- Under the invariant the assertion of `fibril_semaphore_up` holds. -/
theorem semaphore_up_returns (w : World) (sem : Nat)
    (hi : semaphore_inv (w.semaphores sem)) :
    (fibril_semaphore_up w sem).isReturned = true := by
  obtain ⟨h1, h2⟩ := hi
  simp only [fibril_semaphore_up]
  split
  · rename_i hle
    have hl := h2 (by omega)
    cases hq : (w.semaphores sem).waiters with
    | nil =>
      rw [hq] at hl
      simp at hl
      omega
    | cons wdp rest => rfl
  · rfl

/-- C15: in every state reached from `fibril_semaphore_initialize` with a count
`≥ 0` by a sequence of `fibril_semaphore_up` and `fibril_semaphore_down` calls,
`count ≥ 0` implies an empty waiter queue and `count < 0` implies exactly
`-count` wait records, so the assertion of `fibril_semaphore_up` holds;
`fibril_semaphore_initialize` with a negative count fails its assertion. -/
theorem C15_semaphore_invariant (w0 : World) (sem : Nat) (c : Int) (wi : World)
    (ops : List semaphore_op) (w : World)
    (hinit : fibril_semaphore_initialize w0 sem c = some wi)
    (h : semaphore_run wi ops = some w) :
    0 ≤ c ∧
    ((w.semaphores sem).count ≥ 0 → (w.semaphores sem).waiters = []) ∧
    ((w.semaphores sem).count < 0 →
      ((w.semaphores sem).waiters.length : Int) = - (w.semaphores sem).count) ∧
    (fibril_semaphore_up w sem).isReturned = true ∧
    (∀ c1 : Int, c1 < 0 → fibril_semaphore_initialize w0 sem c1 = none) := by
  simp only [ fibril_semaphore_initialize] at hinit
  split at hinit
  · rename_i hc
    cases hinit
    have hinv : semaphore_inv (w.semaphores sem) :=
      semaphore_run_inv ops _ w sem h (by
        refine ⟨fun _ => ?_, fun hlt => ?_⟩
        · simp
        · simp only [setSemaphore_semaphores, if_true] at hlt
          omega)
    refine ⟨hc, hinv.1, hinv.2, semaphore_up_returns w sem hinv, ?_⟩
    intro c1 hc1
    have : ¬ c1 ≥ 0 := by omega
    simp [ fibril_semaphore_initialize, this]
  · cases hinit

/-- C15 at a concrete run: two tokens, three downs (the third blocks), one up. -/
theorem C15_semaphore_invariant_witness :
    ∃ wi w, fibril_semaphore_initialize World.boot 0 2 = some wi ∧
      semaphore_run wi [.down 0 1, .down 0 2, .down 0 3, .up 0] = some w ∧
      sem_obs w 0 = (0, []) ∧ w.notified = [3] ∧
      (fibril_semaphore_up w 0).isReturned = true :=
  ⟨_, _, rfl, rfl, rfl, rfl,
    (C15_semaphore_invariant World.boot 0 2 _
      [.down 0 1, .down 0 2, .down 0 3, .up 0] _ rfl rfl).2.2.2.1⟩

/-- Blocking in `fibril_semaphore_down`: the full effect. -/
theorem semaphore_down_blocks (w : World) (sem : Nat) (self : fid_t)
    (hc : (w.semaphores sem).count ≤ 0) :
    ∃ w1, fibril_semaphore_down w sem self = .suspended w1 ∧
      w1.semaphores sem =
        { count := (w.semaphores sem).count - 1,
          waiters := (w.semaphores sem).waiters ++ [AWAITER_INIT self] } ∧
      w1.fibrils = w.fibrils ∧ w1.notified = w.notified ∧ w1.mutexes = w.mutexes ∧
      w1.rwlocks = w.rwlocks := by
  have hn : ¬ (w.semaphores sem).count - 1 ≥ 0 := by omega
  refine ⟨w.setSemaphore sem
    { count := (w.semaphores sem).count - 1,
      waiters := (w.semaphores sem).waiters ++ [AWAITER_INIT self] },
    by simp only [fibril_semaphore_down, hn, if_false], ?_, rfl, rfl, rfl, rfl⟩
  simp

/-- Waking in `fibril_semaphore_up`: the full effect. -/
theorem semaphore_up_wakes (w : World) (sem : Nat) (wdp : awaiter_t) (rest : List awaiter_t)
    (hinv : semaphore_inv (w.semaphores sem))
    (hq : (w.semaphores sem).waiters = wdp :: rest) :
    ∃ w1, fibril_semaphore_up w sem = .returned () w1 ∧
      w1.semaphores sem = { count := (w.semaphores sem).count + 1, waiters := rest } ∧
      (w1.semaphores sem).count ≤ 0 ∧
      w1.notified = w.notified ++ [wdp.fid] ∧ w1.fibrils = w.fibrils ∧
      (∀ g, (fibril_semaphore_down w1 sem g).isSuspended = true) := by
  obtain ⟨h1, h2⟩ := hinv
  have hneg : (w.semaphores sem).count < 0 := by
    by_contra hge
    have := h1 (by omega)
    rw [hq] at this
    cases this
  have hle : (w.semaphores sem).count + 1 ≤ 0 := by omega
  refine ⟨(w.setSemaphore sem
    { count := (w.semaphores sem).count + 1, waiters := rest }).notify wdp, ?_, ?_, ?_, ?_,
    rfl, ?_⟩
  · simp only [fibril_semaphore_up, hle, if_true, hq]
  · simp
  · simpa using hle
  · simp
  · intro g
    have hn : ¬ 0 ≤ (w.semaphores sem).count := by omega
    simp [fibril_semaphore_down, hn, Outcome.isSuspended]

/-- C16: on a semaphore with `count ≤ 0` every `fibril_semaphore_down` suspends
its caller with its record at the tail of the queue, changes no fibril and
runs no deadlock check; `fibril_semaphore_up` with at least one queued record
notifies exactly the oldest and keeps the others in order, and leaves no free
token (the count stays `≤ 0`), so a further down blocks; after
`initialize(0)`, `down` by fibril `a` and `up`, fibril `a` is notified and a
down by any fibril blocks. -/
theorem C16_semaphore_fifo (w : World) (sem : Nat) :
    (∀ self, (w.semaphores sem).count ≤ 0 →
      ∃ w1, fibril_semaphore_down w sem self = .suspended w1 ∧
        w1.semaphores sem =
          { count := (w.semaphores sem).count - 1,
            waiters := (w.semaphores sem).waiters ++ [AWAITER_INIT self] } ∧
        w1.fibrils = w.fibrils ∧ w1.notified = w.notified ∧ w1.mutexes = w.mutexes ∧
        w1.rwlocks = w.rwlocks) ∧
    (∀ wdp rest, semaphore_inv (w.semaphores sem) →
      (w.semaphores sem).waiters = wdp :: rest →
      ∃ w1, fibril_semaphore_up w sem = .returned () w1 ∧
        w1.semaphores sem =
          { count := (w.semaphores sem).count + 1, waiters := rest } ∧
        (w1.semaphores sem).count ≤ 0 ∧
        w1.notified = w.notified ++ [wdp.fid] ∧ w1.fibrils = w.fibrils ∧
        (∀ g, (fibril_semaphore_down w1 sem g).isSuspended = true)) ∧
    (∀ (wi : World) (a g : fid_t), fibril_semaphore_initialize w sem 0 = some wi →
      ∃ w1 w2, fibril_semaphore_down wi sem a = .suspended w1 ∧
        fibril_semaphore_up w1 sem = .returned () w2 ∧
        w2.notified = w.notified ++ [a] ∧ sem_obs w2 sem = (0, []) ∧
        (fibril_semaphore_down w2 sem g).isSuspended = true) := by
  refine ⟨fun self hc => semaphore_down_blocks w sem self hc,
    fun wdp rest hinv hq => semaphore_up_wakes w sem wdp rest hinv hq, ?_⟩
  intro wi a g hinit
  simp only [ fibril_semaphore_initialize, ge_iff_le, le_refl, if_true,
    Option.some.injEq] at hinit
  subst hinit
  obtain ⟨w1, hd, hs1, -, hn1, -⟩ :=
    semaphore_down_blocks (w.setSemaphore sem { count := 0, waiters := [] }) sem a (by simp)
  simp only [setSemaphore_semaphores, if_true, List.nil_append, zero_sub] at hs1
  obtain ⟨w2, hu, hs2, -, hn2, -, hblk⟩ :=
    semaphore_up_wakes w1 sem (AWAITER_INIT a) [] (by rw [hs1]; simp [semaphore_inv]) (by rw [hs1])
  refine ⟨w1, w2, hd, hu, ?_, ?_, hblk g⟩
  · rw [hn2, hn1]
    rfl
  · simp [sem_obs, hs2, hs1]

/-- C16 at a concrete run: `initialize(0)`, down by 7, up, down by 8. -/
theorem C16_semaphore_fifo_witness :
    ∃ wi w1 w2, fibril_semaphore_initialize World.boot 0 0 = some wi ∧
      fibril_semaphore_down wi 0 7 = .suspended w1 ∧
      fibril_semaphore_up w1 0 = .returned () w2 ∧
      w2.notified = [7] ∧ sem_obs w2 0 = (0, []) ∧
      (fibril_semaphore_down w2 0 8).isSuspended = true :=
  match (C16_semaphore_fifo World.boot 0).2.2 _ 7 8 rfl with
  | ⟨w1, w2, h1, h2, h3, h4, h5⟩ => ⟨_, w1, w2, rfl, h1, h2, h3, h4, h5⟩

/-- The release of a mutex leaves the timers alone. -/
theorem unlock_unsafe_timers (w w1 : World) (fm : Nat) (self : fid_t)
    (h : _fibril_mutex_unlock_unsafe w fm self = some w1) : w1.timers = w.timers := by
  simp only [ _fibril_mutex_unlock_unsafe] at h
  split at h
  · split at h
    · split at h
      · cases h
      · cases h; rfl
    · cases h; rfl
  · cases h

/-- Entering a wait leaves the timers alone. -/
theorem wait_timers (w w1 : World) (fcv fm : Nat) (timeout : Int) (self : fid_t)
    (h : (fibril_condvar_wait_timeout w fcv fm timeout self).world = some w1) :
    w1.timers = w.timers := by
  simp only [fibril_condvar_wait_timeout] at h
  split at h
  · split at h
    · simp only [Outcome.world] at h
      cases h; rfl
    · split at h
      · cases h
      · rename_i w2 hu
        simp only [Outcome.world] at h
        cases h
        exact unlock_unsafe_timers w w2 fm self hu
  · cases h

/-- With no handler running, `fibril_timer_clear_locked` by the holder of the
lock returns the old state and resets the timer. -/
theorem clear_locked_done (w : World) (t : Nat) (self : fid_t)
    (hlock : (w.mutexes (w.timers t).lockp).owned_by = some self)
    (hh : (w.timers t).handler_fid = none) :
    fibril_timer_clear_locked w t self =
      .done (w.timers t).state
        (fibril_condvar_broadcast
          (w.setTimer t
            { (w.timers t) with state := .fts_not_set, delay := 0, func := none, arg := none })
          (w.timers t).cv) := by
  simp only [fibril_timer_clear_locked, fibril_mutex_is_locked, hlock, decide_True, if_true,
    fibril_timer_clear_locked_loop, hh]

/-- C17: `fibril_timer_clear_locked`, called by the holder of the lock while
no handler runs (`handler_fid = 0`), returns the state that the timer had just
before the call (`fts_active` after a `fibril_timer_set_locked` that has not
fired, `fts_fired` after the handler has run with no re-arm, `fts_not_set`
for a timer never set or already cleared) and leaves `state = fts_not_set`,
`delay = 0`, callback and argument NULL, so that the state assertion of
`fibril_timer_destroy` holds. -/
theorem C17_timer_clear (w : World) (t : Nat) (self : fid_t)
    (hlock : (w.mutexes (w.timers t).lockp).owned_by = some self)
    (hh : (w.timers t).handler_fid = none) :
    (∃ w1, fibril_timer_clear_locked w t self = .done (w.timers t).state w1 ∧
      w1.timers t =
        { (w.timers t) with state := .fts_not_set, delay := 0, func := none, arg := none } ∧
      fibril_timer_destroy_assert (w1.timers t) = true ∧
      (fibril_timer_destroy_request w1 t).isSome = true ∧
      (∃ w2, fibril_timer_clear_locked w1 t self = .done .fts_not_set w2)) ∧
    (∀ delay func arg w1, fibril_timer_set_locked w t delay func arg self = .returned () w1 →
      ∃ w2, fibril_timer_clear_locked w1 t self = .done .fts_active w2) ∧
    (∀ (wa : World) (companion : fid_t) (func arg : Option Nat) (wf wh : World),
      fibril_timer_func_after_wait wa t .ETIMEOUT companion = .handler func arg wf →
      wh.timers t = wf.timers t →
      w.timers t = (fibril_timer_func_handler_done wh t).timers t →
      ∃ w1, fibril_timer_clear_locked w t self = .done .fts_fired w1) ∧
    (∀ (w0 wc : World) (lock_slot cv_slot : Nat) (fid : Option fid_t) (lock : Option Nat),
      fibril_timer_create w0 t lock_slot cv_slot fid lock = some wc →
      w.timers t = wc.timers t →
      ∃ w1, fibril_timer_clear_locked w t self = .done .fts_not_set w1) := by
  have hdone := clear_locked_done w t self hlock hh
  obtain ⟨-, -, -, b4, -, -, -, b8⟩ := broadcast_spec
    (w.setTimer t
      { (w.timers t) with state := .fts_not_set, delay := 0, func := none, arg := none })
    (w.timers t).cv
  refine ⟨⟨_, hdone, ?_, ?_, ?_, ?_⟩, ?_, ?_, ?_⟩
  · rw [b8]; simp
  · rw [b8]; simp [fibril_timer_destroy_assert]
  · rw [fibril_timer_destroy_request, b8]
    simp [fibril_timer_destroy_assert]
  · have hd := clear_locked_done _ t self (by rw [b4, b8]; simpa using hlock)
      (by rw [b8]; simpa using hh)
    rw [b8] at hd
    simp only [setTimer_timers, if_true] at hd
    exact ⟨_, hd⟩
  · intro delay func arg w1 hset
    simp only [fibril_timer_set_locked, fibril_mutex_is_locked, hlock, decide_True,
      if_true] at hset
    split at hset
    · simp only [Outcome.returned.injEq, true_and] at hset
      subst hset
      obtain ⟨-, -, -, c4, -, -, -, c8⟩ := broadcast_spec
        (w.setTimer t
          { (w.timers t) with state := .fts_active, delay := delay, func := func, arg := arg })
        (w.timers t).cv
      have hd := clear_locked_done _ t self (by rw [c4, c8]; simpa using hlock)
        (by rw [c8]; simpa using hh)
      rw [c8] at hd
      simp only [setTimer_timers, if_true] at hd
      exact ⟨_, hd⟩
    · cases hset
  · intro wa companion func arg wf wh hfire hwh hw
    have hst : (wf.timers t).state = .fts_fired := by
      simp only [fibril_timer_func_after_wait] at hfire
      split at hfire
      · split at hfire
        · rename_i w2 hu
          simp only [timer_fire.handler.injEq] at hfire
          obtain ⟨-, -, rfl⟩ := hfire
          simp only [fibril_mutex_unlock] at hu
          split at hu
          · cases hu
          · rename_i w3 hu3
            cases hu
            rw [unlock_unsafe_timers _ _ _ _ hu3]
            simp
        · cases hfire
      · cases hfire
    have : (w.timers t).state = .fts_fired := by
      rw [hw]
      simp [fibril_timer_func_handler_done, hwh, hst]
    rw [← this]
    exact ⟨_, hdone⟩
  · intro w0 wc lock_slot cv_slot fid lock hcr hw
    have : (w.timers t).state = .fts_not_set := by
      rw [hw]
      simp only [fibril_timer_create] at hcr
      split at hcr
      · cases hcr
      · cases hcr
        simp
    rw [← this]
    exact ⟨_, hdone⟩

/-- C17 at a concrete memory: the holder 9 of lock 0 clears the armed timer 0. -/
theorem C17_timer_clear_witness :
    (World.armed_zero.mutexes (World.armed_zero.timers 0).lockp).owned_by = some 9 ∧
    (World.armed_zero.timers 0).handler_fid = none ∧
    ∃ w1, fibril_timer_clear_locked World.armed_zero 0 9 = .done .fts_active w1 ∧
      fibril_timer_destroy_assert (w1.timers 0) = true :=
  ⟨rfl, rfl,
    match (C17_timer_clear World.armed_zero 0 9 rfl rfl).1 with
    | ⟨w1, h1, _, h3, _⟩ => ⟨w1, h1, h3⟩⟩

/-- C18: `fibril_timer_clear_locked`, called by the holder of the timer lock,
aborts the process exactly when `handler_fid` is set and names the caller;
when `handler_fid` names another fibril the call waits on the timer's
condition variable (the caller is suspended with its record queued there and
the lock released) and writes no field of the timer, and after each return of
that wait it does the same again as long as `handler_fid` is set. -/
theorem C18_timer_clear_abort (w : World) (t : Nat) (self : fid_t)
    (hlock : (w.mutexes (w.timers t).lockp).owned_by = some self)
    (hinv : mutex_inv (w.mutexes (w.timers t).lockp)) :
    ((fibril_timer_clear_locked w t self).isAborted = true ↔
      (w.timers t).handler_fid = some self) ∧
    ((w.timers t).handler_fid = some self →
      fibril_timer_clear_locked w t self = .aborted) ∧
    (∀ h, (w.timers t).handler_fid = some h → h ≠ self →
      ∃ w1, fibril_timer_clear_locked w t self = .wait (.suspended w1) ∧
        fibril_timer_clear_locked_loop w t self = .wait (.suspended w1) ∧
        w1.timers = w.timers ∧
        (w1.condvars (w.timers t).cv).waiters =
          (w.condvars (w.timers t).cv).waiters ++ [condvar_wdata self (w.timers t).lockp] ∧
        w1.mutexes = (spec_mutex_release w (w.timers t).lockp).mutexes) ∧
    ((w.timers t).handler_fid = none →
      ∃ w1, fibril_timer_clear_locked_loop w t self = .done (w.timers t).state w1) := by
  have hentry : fibril_timer_clear_locked w t self = fibril_timer_clear_locked_loop w t self := by
    simp only [fibril_timer_clear_locked, fibril_mutex_is_locked, hlock, decide_True, if_true]
  have hwait : ∀ h, (w.timers t).handler_fid = some h → h ≠ self →
      ∃ w1, fibril_timer_clear_locked_loop w t self = .wait (.suspended w1) ∧
        w1.timers = w.timers ∧
        (w1.condvars (w.timers t).cv).waiters =
          (w.condvars (w.timers t).cv).waiters ++ [condvar_wdata self (w.timers t).lockp] ∧
        w1.mutexes = (spec_mutex_release w (w.timers t).lockp).mutexes := by
    intro h hh hne
    obtain ⟨w1, h1, h2, -, h4, -, -, -, -, h9⟩ :=
      wait_suspends w (w.timers t).cv (w.timers t).lockp 0 self hinv hlock (le_refl 0)
    refine ⟨w1, ?_, h9, h2, h4⟩
    simp only [fibril_timer_clear_locked_loop, hh, hne, if_false, h1]
  refine ⟨⟨?_, ?_⟩, ?_, ?_, ?_⟩
  · intro hab
    cases hh : (w.timers t).handler_fid with
    | none =>
      rw [hentry] at hab
      simp [fibril_timer_clear_locked_loop, hh, timer_clear.isAborted] at hab
    | some h =>
      by_cases hne : h = self
      · rw [hne]
      · obtain ⟨w1, h1, -⟩ := hwait h hh hne
        rw [hentry, h1] at hab
        simp [timer_clear.isAborted, Outcome.isAborted] at hab
  · intro hh
    rw [hentry]
    simp [fibril_timer_clear_locked_loop, hh, timer_clear.isAborted]
  · intro hh
    rw [hentry]
    simp [fibril_timer_clear_locked_loop, hh]
  · intro h hh hne
    obtain ⟨w1, h1, h2, h3, h4⟩ := hwait h hh hne
    exact ⟨w1, by rw [hentry, h1], h1, h2, h3, h4⟩
  · intro hh
    exact ⟨fibril_condvar_broadcast
      (w.setTimer t
        { (w.timers t) with state := .fts_not_set, delay := 0, func := none, arg := none })
      (w.timers t).cv, by simp only [fibril_timer_clear_locked_loop, hh]⟩

/-- A memory in which the handler of timer 0 runs in fibril 9 while fibril 1
holds the lock of the timer. -/
theorem C18_timer_clear_abort_witness :
    ∃ w, w = (World.armed_zero.setMutex 0
          { owned_by := some 1, counter := 0, waiters := [] }).setTimer 0
        { (World.armed_zero.timers 0) with state := .fts_fired, handler_fid := some 9 } ∧
      mutex_inv (w.mutexes (w.timers 0).lockp) ∧
      (fibril_timer_clear_locked w 0 1).isAborted = false ∧
      (∃ w1, fibril_timer_clear_locked w 0 1 = .wait (.suspended w1) ∧
        w1.timers = w.timers) ∧
      fibril_timer_clear_locked
        ((World.armed_zero.setMutex 0
          { owned_by := some 9, counter := 0, waiters := [] }).setTimer 0
        { (World.armed_zero.timers 0) with state := .fts_fired, handler_fid := some 9 })
        0 9 = .aborted :=
  ⟨_, rfl, by decide, rfl,
    match (C18_timer_clear_abort
      ((World.armed_zero.setMutex 0
          { owned_by := some 1, counter := 0, waiters := [] }).setTimer 0
        { (World.armed_zero.timers 0) with state := .fts_fired, handler_fid := some 9 })
      0 1 rfl (by decide)).2.2.1 9 rfl (by decide) with
    | ⟨w1, h1, _, h3, _⟩ => ⟨w1, h1, h3⟩,
    (C18_timer_clear_abort
      ((World.armed_zero.setMutex 0
          { owned_by := some 9, counter := 0, waiters := [] }).setTimer 0
        { (World.armed_zero.timers 0) with state := .fts_fired, handler_fid := some 9 })
      0 9 rfl (by decide)).2.1 rfl⟩

/-- The public unlock leaves the timers alone. -/
theorem unlock_timers (w w1 : World) (fm : Nat) (self : fid_t)
    (h : (fibril_mutex_unlock w fm self).world = some w1) : w1.timers = w.timers := by
  simp only [fibril_mutex_unlock] at h
  split at h
  · cases h
  · rename_i w2 hu
    simp only [Outcome.world] at h
    cases h
    exact unlock_unsafe_timers w _ fm self hu

/-- No segment of the timer code enters `fts_fired` from a state other than
`fts_active`. -/
theorem timer_op_fired (w w1 : World) (op : timer_op) (t : Nat)
    (h : timer_op.apply w op = some w1) (hf : (w1.timers t).state = .fts_fired) :
    (w.timers t).state = .fts_fired ∨ (w.timers t).state = .fts_active := by
  have key : ∀ (t0 : Nat) (v : fibril_timer_t), w1.timers = (w.setTimer t0 v).timers →
      (v.state = .fts_fired → (w.timers t0).state = .fts_active) →
      (w.timers t).state = .fts_fired ∨ (w.timers t).state = .fts_active := by
    intro t0 v hw hv
    rw [hw] at hf
    by_cases ht : t = t0
    · subst ht
      simp only [setTimer_timers, if_true] at hf
      exact Or.inr (hv hf)
    · simp only [setTimer_timers, ht, if_false] at hf
      exact Or.inl hf
  have same : w1.timers = w.timers → (w.timers t).state = .fts_fired ∨
      (w.timers t).state = .fts_active := by
    intro hw
    rw [hw] at hf
    exact Or.inl hf
  cases op with
  | create t0 lock_slot cv_slot fid lock =>
    simp only [timer_op.apply, fibril_timer_create] at h
    split at h
    · cases h
    · cases h
      exact key t0 _ rfl (fun hv => by simp at hv)
  | set_locked t0 delay func arg self =>
    simp only [timer_op.apply, fibril_timer_set_locked] at h
    split at h
    · split at h
      · simp only [Outcome.world] at h
        cases h
        exact key t0 _ (broadcast_spec _ _).2.2.2.2.2.2.2 (fun hv => by simp at hv)
      · cases h
    · cases h
  | clear_locked t0 self =>
    simp only [timer_op.apply, fibril_timer_clear_locked, fibril_timer_clear_locked_loop] at h
    split at h
    · split at h
      · split at h
        · cases h
        · simp only [timer_clear.world] at h
          exact same (wait_timers _ _ _ _ _ _ h)
      · simp only [timer_clear.world] at h
        cases h
        exact key t0 _ (broadcast_spec _ _).2.2.2.2.2.2.2 (fun hv => by simp at hv)
    · cases h
  | clear_locked_loop t0 self =>
    simp only [timer_op.apply, fibril_timer_clear_locked_loop] at h
    split at h
    · split at h
      · cases h
      · simp only [timer_clear.world] at h
        exact same (wait_timers _ _ _ _ _ _ h)
    · simp only [timer_clear.world] at h
      cases h
      exact key t0 _ (broadcast_spec _ _).2.2.2.2.2.2.2 (fun hv => by simp at hv)
  | destroy_request t0 =>
    simp only [timer_op.apply, fibril_timer_destroy_request] at h
    split at h
    · cases h
      exact key t0 _ (broadcast_spec _ _).2.2.2.2.2.2.2 (fun hv => by simp at hv)
    · cases h
  | func_loop t0 self =>
    simp only [timer_op.apply, fibril_timer_func_loop] at h
    split at h
    · simp only [timer_loop.world] at h
      have h1 := unlock_timers _ _ _ _ h
      exact key t0 _ (h1.trans (broadcast_spec _ _).2.2.2.2.2.2.2) (fun hv => by simp at hv)
    · simp only [timer_loop.world] at h
      exact same (wait_timers _ _ _ _ _ _ h)
    · simp only [timer_loop.world] at h
      exact same (wait_timers _ _ _ _ _ _ h)
    · simp only [timer_loop.world] at h
      exact same (wait_timers _ _ _ _ _ _ h)
    · cases h
  | func_after_wait t0 rc self =>
    simp only [timer_op.apply, fibril_timer_func_after_wait] at h
    split at h
    · rename_i hc
      split at h
      · rename_i w2 hu
        simp only [timer_fire.world] at h
        cases h
        have h1 := unlock_timers _ _ _ _ (by rw [hu]; rfl)
        exact key t0 _ h1 (fun _ => hc.2)
      · cases h
    · simp only [timer_fire.world] at h
      cases h
      exact same rfl
  | func_handler_done t0 =>
    simp only [timer_op.apply, fibril_timer_func_handler_done] at h
    cases h
    by_cases ht : t = t0
    · subst ht
      simp only [setTimer_timers, if_true] at hf
      exact Or.inl hf
    · simp only [setTimer_timers, ht, if_false] at hf
      exact Or.inl hf

@[simp] theorem queue_setFibril (w : World) (f : fid_t) (v : fibril_t) (q : queue_ref) :
    (w.setFibril f v).queue q = w.queue q := by
  cases q <;> rfl

@[simp] theorem queue_setTimer (w : World) (t : Nat) (v : fibril_timer_t) (q : queue_ref) :
    (w.setTimer t v).queue q = w.queue q := by
  cases q <;> rfl

@[simp] theorem queue_notify (w : World) (wdp : awaiter_t) (q : queue_ref) :
    (w.notify wdp).queue q = w.queue q := by
  cases q <;> rfl

theorem queue_setMutex (w : World) (fm : Nat) (v : fibril_mutex_t) (q : queue_ref) :
    (w.setMutex fm v).queue q = if q = .mutex fm then v.waiters else w.queue q := by
  cases q with
  | mutex i =>
    by_cases h : i = fm
    · simp [World.queue, h]
    · simp [World.queue, h]
  | rwlock i => simp [World.queue]
  | condvar i => simp [World.queue]
  | semaphore i => simp [World.queue]

theorem queue_setRwlock (w : World) (frw : Nat) (v : fibril_rwlock_t) (q : queue_ref) :
    (w.setRwlock frw v).queue q = if q = .rwlock frw then v.waiters else w.queue q := by
  cases q with
  | mutex i => simp [World.queue]
  | rwlock i =>
    by_cases h : i = frw
    · simp [World.queue, h]
    · simp [World.queue, h]
  | condvar i => simp [World.queue]
  | semaphore i => simp [World.queue]

theorem queue_setCondvar (w : World) (fcv : Nat) (v : fibril_condvar_t) (q : queue_ref) :
    (w.setCondvar fcv v).queue q = if q = .condvar fcv then v.waiters else w.queue q := by
  cases q with
  | mutex i => simp [World.queue]
  | rwlock i => simp [World.queue]
  | condvar i =>
    by_cases h : i = fcv
    · simp [World.queue, h]
    · simp [World.queue, h]
  | semaphore i => simp [World.queue]

theorem queue_setSemaphore (w : World) (sem : Nat) (v : fibril_semaphore_t) (q : queue_ref) :
    (w.setSemaphore sem v).queue q = if q = .semaphore sem then v.waiters else w.queue q := by
  cases q with
  | mutex i => simp [World.queue]
  | rwlock i => simp [World.queue]
  | condvar i => simp [World.queue]
  | semaphore i =>
    by_cases h : i = sem
    · simp [World.queue, h]
    · simp [World.queue, h]

/-- The records of a fibril in two queues joined. -/
theorem mine_append (self : fid_t) (l l1 : List awaiter_t) :
    mine self (l ++ l1) = mine self l ++ mine self l1 := by
  simp [mine]

/-- A record of another fibril is not mine. -/
theorem mine_other (self : fid_t) (r : awaiter_t) (h : r.fid ≠ self) : mine self [r] = [] := by
  simp [mine, h]

/-- Erasing a record of another fibril leaves mine. -/
theorem mine_erase_other (self : fid_t) (r : awaiter_t) (h : r.fid ≠ self)
    (l : List awaiter_t) : mine self (l.erase r) = mine self l := by
  induction l with
  | nil => rfl
  | cons a t ih =>
    by_cases har : a = r
    · subst har
      simp [mine, h]
    · have hne : (a == r) = false := by simpa using har
      rw [List.erase_cons_tail (by simp [hne])]
      simp only [mine, List.filter_cons] at ih ⊢
      rw [ih]

/-- Membership in the records of a fibril. -/
theorem mem_mine (self : fid_t) (r : awaiter_t) (l : List awaiter_t) :
    r ∈ mine self l ↔ r ∈ l ∧ r.fid = self := by
  simp [mine]

/-- The number of records of a fibril. -/
theorem records_of_eq (self : fid_t) (l : List awaiter_t) :
    records_of self l = (mine self l).length := by
  simp [records_of, mine, List.countP_eq_length_filter]

/-- Notifications of a fibril after the records `pre` have been notified. -/
theorem count_notified_append (self : fid_t) (l : List fid_t) (pre : List awaiter_t) :
    (l ++ pre.map (fun a => a.fid)).count self = l.count self + (mine self pre).length := by
  induction pre with
  | nil => simp [mine]
  | cons a pre ih =>
    simp only [List.map_cons, List.count_append, List.count_cons, mine,
      List.filter_cons] at ih ⊢
    by_cases h : a.fid = self
    · simp [h] at ih ⊢
      omega
    · have h' : ¬ (a.fid == self) = true := by simpa using h
      simp [h, h'] at ih ⊢
      omega

/-- Two quiet steps. -/
theorem quiet_trans {self : fid_t} {w w1 w2 : World} (h : quiet self w w1)
    (h2 : quiet self w1 w2) : quiet self w w2 :=
  ⟨h2.1.trans h.1, fun q => (h2.2 q).trans (h.2 q)⟩

/-- A quiet step after an accounted step. -/
theorem accounted_then_quiet {self : fid_t} {Q : queue_ref} {w w1 w2 : World}
    (h : accounted self Q w w1) (h2 : quiet self w1 w2) : accounted self Q w w2 := by
  obtain ⟨a1, pre, a2, a3⟩ := h
  refine ⟨fun q hq => (h2.2 q).trans (a1 q hq), pre, ?_, ?_⟩
  · rw [h2.2 Q]; exact a2
  · rw [h2.1]; exact a3

/-- A step that changes no queue and notifies nobody. -/
theorem quiet_of_same (self : fid_t) (w w1 : World) (hq : ∀ q, w1.queue q = w.queue q)
    (hn : w1.notified = w.notified) : quiet self w w1 :=
  ⟨by simp [notifications_of, hn], fun q => by rw [hq q]⟩

/-- A step that appends a record of another fibril to one queue. -/
theorem quiet_of_push (self : fid_t) (w w1 : World) (Q : queue_ref) (r : awaiter_t)
    (hr : r.fid ≠ self) (hQ : w1.queue Q = w.queue Q ++ [r])
    (hq : ∀ q, q ≠ Q → w1.queue q = w.queue q) (hn : w1.notified = w.notified) :
    quiet self w w1 := by
  refine ⟨by simp [notifications_of, hn], fun q => ?_⟩
  by_cases h : q = Q
  · subst h
    rw [hQ, mine_append, mine_other self r hr, List.append_nil]
  · rw [hq q h]

/-- A step that erases one record of another fibril from one queue. -/
theorem quiet_of_erase (self : fid_t) (w w1 : World) (Q : queue_ref) (r : awaiter_t)
    (hr : r.fid ≠ self) (hQ : w1.queue Q = (w.queue Q).erase r)
    (hq : ∀ q, q ≠ Q → w1.queue q = w.queue q) (hn : w1.notified = w.notified) :
    quiet self w w1 := by
  refine ⟨by simp [notifications_of, hn], fun q => ?_⟩
  by_cases h : q = Q
  · subst h
    rw [hQ, mine_erase_other self r hr]
  · rw [hq q h]

/-- A step that pops the records `pre` from the head of one queue and notifies
them. -/
theorem accounted_of_pop (self : fid_t) (w w1 : World) (Q : queue_ref) (pre : List awaiter_t)
    (hQ : w.queue Q = pre ++ w1.queue Q)
    (hq : ∀ q, q ≠ Q → w1.queue q = w.queue q)
    (hn : w1.notified = w.notified ++ pre.map (fun a => a.fid)) :
    accounted self Q w w1 := by
  refine ⟨fun q h => by rw [hq q h], mine self pre, ?_, ?_⟩
  · rw [hQ, mine_append]
  · simp only [notifications_of, hn, count_notified_append]

/-- A quiet step keeps a suspended fibril as it is. -/
theorem waits_on_quiet (self : fid_t) (Q : queue_ref) (R : awaiter_t) (n0 : Nat)
    (w w1 : World) (hw : waits_on self Q R n0 w) (h : quiet self w w1) :
    waits_on self Q R n0 w1 := by
  obtain ⟨h1, h2⟩ := hw
  refine ⟨fun q hq => by rw [h.2 q]; exact h1 q hq, ?_⟩
  rw [h.2 Q, h.1]
  exact h2

/-- An accounted step keeps a fibril suspended on its queue, or notified with
no record left. -/
theorem waits_on_accounted (self : fid_t) (Q Q1 : queue_ref) (R : awaiter_t) (n0 : Nat)
    (w w1 : World) (hw : waits_on self Q R n0 w) (h : accounted self Q1 w w1) :
    waits_on self Q R n0 w1 := by
  obtain ⟨h1, h2⟩ := hw
  obtain ⟨a1, pre, a2, a3⟩ := h
  by_cases hQ : Q1 = Q
  · subst hQ
    refine ⟨fun q hq => by rw [a1 q hq]; exact h1 q hq, ?_⟩
    rcases h2 with ⟨hm, hn⟩ | ⟨hm, hn⟩
    · rw [hm] at a2
      cases pre with
      | nil =>
        left
        simp only [List.nil_append] at a2
        exact ⟨a2.symm, by rw [a3, hn]; rfl⟩
      | cons x pre =>
        right
        simp only [List.cons_append, List.cons.injEq] at a2
        obtain ⟨-, a2⟩ := a2
        have hnil := List.append_eq_nil.mp a2.symm
        refine ⟨hnil.2, ?_⟩
        rw [a3, hn, hnil.1]
        rfl
    · rw [hm] at a2
      have hnil := List.append_eq_nil.mp a2.symm
      right
      refine ⟨hnil.2, ?_⟩
      rw [a3, hn, hnil.1]
      rfl
  · have hz := h1 Q1 hQ
    rw [hz] at a2
    have hnil := List.append_eq_nil.mp a2.symm
    refine ⟨fun q hq => ?_, ?_⟩
    · by_cases hq1 : q = Q1
      · subst hq1
        exact hnil.2
      · rw [a1 q hq1]
        exact h1 q hq
    · rw [a1 Q (fun h => hQ h.symm), a3, hnil.1]
      exact h2

/-- A quiet step is accounted at any queue. -/
theorem quiet_accounted {self : fid_t} (Q : queue_ref) {w w1 : World} (h : quiet self w w1) :
    accounted self Q w w1 :=
  ⟨fun q _ => h.2 q, [], by rw [h.2 Q]; rfl, by rw [h.1]; rfl⟩

/-- The release of a mutex is accounted. -/
theorem unlock_unsafe_accounted (self : fid_t) (w w1 : World) (fm : Nat) (o : fid_t)
    (h : _fibril_mutex_unlock_unsafe w fm o = some w1) : accounted self (.mutex fm) w w1 := by
  simp only [ _fibril_mutex_unlock_unsafe] at h
  split at h
  · split at h
    · split at h
      · cases h
      · rename_i wdp rest hq
        cases h
        refine accounted_of_pop self w _ (.mutex fm) [wdp] ?_ ?_ ?_
        · simp [queue_setMutex, World.queue, hq]
        · intro q hne
          simp [queue_setMutex, hne]
        · simp
    · cases h
      refine accounted_of_pop self w _ (.mutex fm) [] ?_ ?_ ?_
      · simp [queue_setMutex, World.queue]
      · intro q hne
        simp [queue_setMutex, hne]
      · simp
  · cases h

/-- A lock call by another fibril is quiet. -/
theorem lock_quiet (self : fid_t) (fuel : Nat) (w w1 : World) (fm : Nat) (o : fid_t)
    (ho : o ≠ self)
    (h : (fibril_mutex_lock fuel w fm o).bind Outcome.world = some w1) : quiet self w w1 := by
  simp only [fibril_mutex_lock] at h
  split at h
  · simp only [Option.bind, Outcome.world] at h
    cases h
    refine quiet_of_same self w _ (fun q => ?_) rfl
    by_cases hq : q = .mutex fm
    · subst hq
      simp [queue_setMutex, World.queue]
    · simp [queue_setMutex, hq]
  · split at h
    · cases h
    · cases h
    · simp only [Option.bind, Outcome.world] at h
      cases h
      refine quiet_of_push self w _ (.mutex fm) (AWAITER_INIT o) ho ?_ ?_ rfl
      · simp [queue_setMutex, World.queue]
      · intro q hne
        simp [queue_setMutex, hne]

/-- A trylock call is quiet. -/
theorem trylock_quiet (self : fid_t) (w w1 : World) (fm : Nat) (o : fid_t)
    (h : (fibril_mutex_trylock w fm o).world = some w1) : quiet self w w1 := by
  simp only [fibril_mutex_trylock] at h
  split at h
  · simp only [Outcome.world] at h
    cases h
    refine quiet_of_same self w _ (fun q => ?_) rfl
    by_cases hq : q = .mutex fm
    · subst hq
      simp [queue_setMutex, World.queue]
    · simp [queue_setMutex, hq]
  · simp only [Outcome.world] at h
    cases h
    exact quiet_of_same self w _ (fun _ => rfl) rfl

/-- Entering a wait, by another fibril, is accounted. -/
theorem wait_accounted (self : fid_t) (w w1 : World) (fcv fm : Nat) (timeout : Int)
    (o : fid_t) (ho : o ≠ self)
    (h : (fibril_condvar_wait_timeout w fcv fm timeout o).world = some w1) :
    accounted self (.mutex fm) w w1 := by
  simp only [fibril_condvar_wait_timeout] at h
  split at h
  · split at h
    · simp only [Outcome.world] at h
      cases h
      exact quiet_accounted _ (quiet_of_same self w _ (fun _ => rfl) rfl)
    · split at h
      · cases h
      · rename_i w2 hu
        simp only [Outcome.world] at h
        cases h
        refine accounted_then_quiet (unlock_unsafe_accounted self w w2 fm o hu) ?_
        refine quiet_of_push self w2 _ (.condvar fcv) { fid := o, mutex := some fm } ho ?_ ?_ rfl
        · simp [queue_setCondvar, World.queue, AWAITER_INIT]
        · intro q hne
          simp [queue_setCondvar, hne]
  · cases h

/-- Resuming from a wait, by another fibril, is quiet. -/
theorem resume_quiet (self : fid_t) (fuel : Nat) (w w1 : World) (fcv fm : Nat) (o : fid_t)
    (ho : o ≠ self)
    (h : (fibril_condvar_wait_timeout_resume fuel w fcv fm o).bind
      (fun r => r.relock.world) = some w1) : quiet self w w1 := by
  simp only [fibril_condvar_wait_timeout_resume] at h
  split at h
  · cases h
  · rename_i r hl
    simp only [Option.bind] at h
    refine quiet_trans (quiet_of_erase self w
      (w.setCondvar fcv
        { waiters := (w.condvars fcv).waiters.erase { fid := o, mutex := some fm } })
      (.condvar fcv) { fid := o, mutex := some fm } ho ?_ ?_ rfl)
      (lock_quiet self fuel _ w1 fm o ho ?_)
    · simp [queue_setCondvar, World.queue]
    · intro q hne
      simp [queue_setCondvar, hne]
    · simp only [AWAITER_INIT] at hl
      rw [hl]
      exact h

/-- A signal is accounted. -/
theorem signal_accounted (self : fid_t) (w : World) (fcv : Nat) :
    accounted self (.condvar fcv) w (fibril_condvar_signal w fcv) := by
  simp only [fibril_condvar_signal]
  split
  · exact quiet_accounted _ (quiet_of_same self w _ (fun _ => rfl) rfl)
  · rename_i wdp rest hq
    refine accounted_of_pop self w _ (.condvar fcv) [wdp] ?_ ?_ ?_
    · simp [queue_setCondvar, World.queue, hq]
    · intro q hne
      simp [queue_setCondvar, hne]
    · simp

/-- The broadcast loop changes no other queue. -/
theorem broadcast_loop_queue (fcv : Nat) (l : List awaiter_t) (w : World) (q : queue_ref)
    (hq : q ≠ .condvar fcv) : (condvar_broadcast_loop fcv l w).queue q = w.queue q := by
  induction l generalizing w with
  | nil => rfl
  | cons a l ih =>
    simp only [condvar_broadcast_loop]
    rw [ih]
    simp [queue_setCondvar, hq]

/-- A broadcast is accounted. -/
theorem broadcast_accounted (self : fid_t) (w : World) (fcv : Nat) :
    accounted self (.condvar fcv) w (fibril_condvar_broadcast w fcv) := by
  obtain ⟨b1, -, b3, -⟩ := broadcast_spec w fcv
  refine accounted_of_pop self w _ (.condvar fcv) (w.condvars fcv).waiters ?_ ?_ b3
  · simp [World.queue, b1]
  · intro q hne
    exact broadcast_loop_queue fcv _ w q hne

/-- A semaphore up is accounted. -/
theorem up_accounted (self : fid_t) (w w1 : World) (sem : Nat)
    (h : (fibril_semaphore_up w sem).world = some w1) :
    accounted self (.semaphore sem) w w1 := by
  simp only [fibril_semaphore_up] at h
  split at h
  · split at h
    · cases h
    · rename_i wdp rest hq
      simp only [Outcome.world] at h
      cases h
      refine accounted_of_pop self w _ (.semaphore sem) [wdp] ?_ ?_ ?_
      · simp [queue_setSemaphore, World.queue, hq]
      · intro q hne
        simp [queue_setSemaphore, hne]
      · simp
  · simp only [Outcome.world] at h
    cases h
    refine quiet_accounted _ (quiet_of_same self w _ (fun q => ?_) rfl)
    by_cases hq : q = .semaphore sem
    · subst hq
      simp [queue_setSemaphore, World.queue]
    · simp [queue_setSemaphore, hq]

/-- A semaphore down by another fibril is quiet. -/
theorem down_quiet (self : fid_t) (w w1 : World) (sem : Nat) (o : fid_t) (ho : o ≠ self)
    (h : (fibril_semaphore_down w sem o).world = some w1) : quiet self w w1 := by
  simp only [fibril_semaphore_down] at h
  split at h
  · simp only [Outcome.world] at h
    cases h
    refine quiet_of_same self w _ (fun q => ?_) rfl
    by_cases hq : q = .semaphore sem
    · subst hq
      simp [queue_setSemaphore, World.queue]
    · simp [queue_setSemaphore, hq]
  · simp only [Outcome.world] at h
    cases h
    refine quiet_of_push self w _ (.semaphore sem) (AWAITER_INIT o) ho ?_ ?_ rfl
    · simp [queue_setSemaphore, World.queue]
    · intro q hne
      simp [queue_setSemaphore, hne]

/-- One pass through the grant loop, in terms of `rwlock_grant_one`. -/
theorem grant_loop_cons (frw : Nat) (wdp : awaiter_t) (rest : List awaiter_t) (w : World) :
    rwlock_grant_loop frw (wdp :: rest) w =
      if (w.fibrils wdp.fid).is_writer = true ∧ (w.rwlocks frw).readers ≠ 0 then w
      else if ((rwlock_grant_one frw wdp rest w).rwlocks frw).writers ≠ 0 then
        rwlock_grant_one frw wdp rest w
      else rwlock_grant_loop frw rest (rwlock_grant_one frw wdp rest w) := by
  simp only [rwlock_grant_loop, rwlock_grant_one]
  split_ifs <;> first | rfl | simp_all

/-- The queues and the log after one granted request. -/
theorem grant_one_shape (frw : Nat) (wdp : awaiter_t) (rest : List awaiter_t) (w : World) :
    ((rwlock_grant_one frw wdp rest w).rwlocks frw).waiters = rest ∧
    (rwlock_grant_one frw wdp rest w).notified = w.notified ++ [wdp.fid] ∧
    (∀ q, q ≠ .rwlock frw → (rwlock_grant_one frw wdp rest w).queue q = w.queue q) ∧
    (rwlock_grant_one frw wdp rest w).condvars = w.condvars ∧
    (rwlock_grant_one frw wdp rest w).mutexes = w.mutexes := by
  refine ⟨by simp [rwlock_grant_one], by simp [rwlock_grant_one], fun q hq => ?_, rfl, rfl⟩
  simp [rwlock_grant_one, queue_setRwlock, hq]

/-- The grant loop pops a prefix of the queue, notifies it, and changes no
other queue. -/
theorem grant_loop_pop (frw : Nat) (l : List awaiter_t) (w : World)
    (hl : (w.rwlocks frw).waiters = l) :
    ∃ pre, l = pre ++ ((rwlock_grant_loop frw l w).rwlocks frw).waiters ∧
      (rwlock_grant_loop frw l w).notified = w.notified ++ pre.map (fun a => a.fid) ∧
      (∀ q, q ≠ .rwlock frw → (rwlock_grant_loop frw l w).queue q = w.queue q) ∧
      (rwlock_grant_loop frw l w).condvars = w.condvars ∧
      (rwlock_grant_loop frw l w).mutexes = w.mutexes := by
  induction l generalizing w with
  | nil =>
    exact ⟨[], by simp [rwlock_grant_loop, hl], by simp [rwlock_grant_loop],
      fun _ _ => rfl, rfl, rfl⟩
  | cons wdp rest ih =>
    obtain ⟨g1, g2, g3, g4, g5⟩ := grant_one_shape frw wdp rest w
    rw [grant_loop_cons]
    split_ifs with h1 h2
    · exact ⟨[], by simp [hl], by simp, fun _ _ => rfl, rfl, rfl⟩
    · exact ⟨[wdp], by simp [g1], by simp [g2], g3, g4, g5⟩
    · obtain ⟨pre, p1, p2, p3, p4, p5⟩ := ih (rwlock_grant_one frw wdp rest w) g1
      refine ⟨wdp :: pre, ?_, ?_, ?_, ?_, ?_⟩
      · rw [List.cons_append, ← p1]
      · rw [p2, g2]
        simp
      · intro q hq
        rw [p3 q hq, g3 q hq]
      · rw [p4, g4]
      · rw [p5, g5]

/-- The common unlock path of the rwlock is accounted. -/
theorem common_unlock_accounted (self : fid_t) (w w1 : World) (frw : Nat) (o : fid_t)
    (h : _fibril_rwlock_common_unlock w frw o = some w1) :
    accounted self (.rwlock frw) w w1 ∧ w1.condvars = w.condvars ∧
      w1.mutexes = w.mutexes := by
  have free : ∀ (v : fibril_rwlock_t) (w2 : World), v.waiters = (w.rwlocks frw).waiters →
      rwlock_unlock_free (w.setRwlock frw v) frw = some w2 →
      accounted self (.rwlock frw) w w2 ∧ w2.condvars = w.condvars ∧
        w2.mutexes = w.mutexes := by
    intro v w2 hv hf
    simp only [rwlock_unlock_free] at hf
    split at hf
    · cases hf
      obtain ⟨pre, p1, p2, p3, p4, p5⟩ := grant_loop_pop frw
        ((w.setRwlock frw v).rwlocks frw).waiters
        ((w.setRwlock frw v).setRwlock frw
          { ((w.setRwlock frw v).rwlocks frw) with owned_by := none }) (by simp)
      refine ⟨accounted_of_pop self w _ (.rwlock frw) pre ?_ ?_ ?_, ?_, ?_⟩
      · show (w.rwlocks frw).waiters = _
        rw [← hv]
        simpa [World.queue] using p1
      · intro q hq
        rw [p3 q hq]
        simp [queue_setRwlock, hq]
      · rw [p2]
        rfl
      · rw [p4]; rfl
      · rw [p5]; rfl
    · cases hf
  have same : ∀ (v : fibril_rwlock_t), v.waiters = (w.rwlocks frw).waiters →
      accounted self (.rwlock frw) w (w.setRwlock frw v) := by
    intro v hv
    refine quiet_accounted _ (quiet_of_same self w _ (fun q => ?_) rfl)
    by_cases hq : q = .rwlock frw
    · subst hq
      simp [queue_setRwlock, World.queue, hv]
    · simp [queue_setRwlock, hq]
  simp only [_fibril_rwlock_common_unlock] at h
  split at h
  · split at h
    · split at h
      · cases h
        exact ⟨same _ rfl, rfl, rfl⟩
      · cases h
        exact ⟨same _ rfl, rfl, rfl⟩
    · exact free { (w.rwlocks frw) with readers := (w.rwlocks frw).readers - 1 } w1 rfl h
  · exact free
      { (w.rwlocks frw) with
        writers := ((w.rwlocks frw).writers + UINT_MOD - 1) % UINT_MOD } w1 rfl h

/-- A rwlock lock call by another fibril is quiet. -/
theorem rwlock_lock_quiet (self : fid_t) (w w1 : World) (frw : Nat) (o : fid_t)
    (ho : o ≠ self) (fuel : Nat) :
    ((fibril_rwlock_read_lock fuel w frw o).bind Outcome.world = some w1 →
      quiet self w w1 ∧ w1.condvars = w.condvars ∧ w1.mutexes = w.mutexes) ∧
    ((fibril_rwlock_write_lock fuel w frw o).bind Outcome.world = some w1 →
      quiet self w w1 ∧ w1.condvars = w.condvars ∧ w1.mutexes = w.mutexes) := by
  have same : ∀ (v : fibril_rwlock_t), v.waiters = (w.rwlocks frw).waiters →
      quiet self w (w.setRwlock frw v) := by
    intro v hv
    refine quiet_of_same self w _ (fun q => ?_) rfl
    by_cases hq : q = .rwlock frw
    · subst hq
      simp [queue_setRwlock, World.queue, hv]
    · simp [queue_setRwlock, hq]
  have push : ∀ (b : Bool) (x : fibril_t),
      quiet self w
        (((w.setFibril o { (w.fibrils o) with is_writer := b }).setRwlock frw
          { (w.rwlocks frw) with
            waiters := (w.rwlocks frw).waiters ++ [AWAITER_INIT o] }).setFibril o x) := by
    intro b x
    refine quiet_of_push self w _ (.rwlock frw) (AWAITER_INIT o) ho ?_ ?_ rfl
    · simp [queue_setRwlock, World.queue]
    · intro q hne
      simp [queue_setRwlock, hne]
  constructor
  · intro h
    simp only [fibril_rwlock_read_lock] at h
    split at h
    · simp only [Option.bind, Outcome.world] at h
      cases h
      exact ⟨same _ rfl, rfl, rfl⟩
    · split at h
      · cases h
      · cases h
      · simp only [Option.bind, Outcome.world] at h
        cases h
        exact ⟨push false _, rfl, rfl⟩
  · intro h
    simp only [fibril_rwlock_write_lock] at h
    split at h
    · simp only [Option.bind, Outcome.world] at h
      cases h
      exact ⟨same _ rfl, rfl, rfl⟩
    · split at h
      · cases h
      · cases h
      · simp only [Option.bind, Outcome.world] at h
        cases h
        exact ⟨push true _, rfl, rfl⟩

/-- The public unlock survives exactly when the release does. -/
theorem unlock_world (w w1 : World) (fm : Nat) (o : fid_t)
    (h : (fibril_mutex_unlock w fm o).world = some w1) :
    _fibril_mutex_unlock_unsafe w fm o = some w1 := by
  simp only [fibril_mutex_unlock] at h
  split at h
  · cases h
  · rename_i w2 hu
    simp only [Outcome.world] at h
    cases h
    exact hu

/-- A surviving rwlock unlock went through the common unlock path. -/
theorem rwlock_unlock_world (w w1 : World) (frw : Nat) (o : fid_t) :
    ((fibril_rwlock_read_unlock w frw o).world = some w1 →
      _fibril_rwlock_common_unlock w frw o = some w1) ∧
    ((fibril_rwlock_write_unlock w frw o).world = some w1 →
      _fibril_rwlock_common_unlock w frw o = some w1) := by
  constructor
  · intro h
    simp only [fibril_rwlock_read_unlock] at h
    split at h
    · split at h
      · cases h
      · rename_i w2 hu
        simp only [Outcome.world] at h
        cases h
        exact hu
    · cases h
  · intro h
    simp only [fibril_rwlock_write_unlock] at h
    split at h
    · split at h
      · split at h
        · cases h
        · rename_i w2 hu
          simp only [Outcome.world] at h
          cases h
          exact hu
      · cases h
    · cases h

/-- Every call by another fibril is quiet, or accounted at the queue it pops. -/
theorem sync_apply_shape (self : fid_t) (w w1 : World) (caller : fid_t) (op : sync_op)
    (hc : caller ≠ self) (h : sync_op.apply w caller op = some w1) :
    match op.pops with
    | none => quiet self w w1
    | some Q => accounted self Q w w1 := by
  cases op with
  | mutex_lock fuel fm => exact lock_quiet self fuel w w1 fm caller hc h
  | mutex_trylock fm => exact trylock_quiet self w w1 fm caller h
  | mutex_unlock fm =>
    exact unlock_unsafe_accounted self w w1 fm caller (unlock_world w w1 fm caller h)
  | rwlock_read_lock fuel frw => exact ((rwlock_lock_quiet self w w1 frw caller hc fuel).1 h).1
  | rwlock_write_lock fuel frw => exact ((rwlock_lock_quiet self w w1 frw caller hc fuel).2 h).1
  | rwlock_read_unlock frw =>
    exact (common_unlock_accounted self w w1 frw caller
      ((rwlock_unlock_world w w1 frw caller).1 h)).1
  | rwlock_write_unlock frw =>
    exact (common_unlock_accounted self w w1 frw caller
      ((rwlock_unlock_world w w1 frw caller).2 h)).1
  | condvar_wait fcv fm timeout => exact wait_accounted self w w1 fcv fm timeout caller hc h
  | condvar_resume fuel fcv fm => exact resume_quiet self fuel w w1 fcv fm caller hc h
  | condvar_signal fcv =>
    simp only [sync_op.apply, Option.some.injEq] at h
    subst h
    exact signal_accounted self w fcv
  | condvar_broadcast fcv =>
    simp only [sync_op.apply, Option.some.injEq] at h
    subst h
    exact broadcast_accounted self w fcv
  | semaphore_up sem => exact up_accounted self w w1 sem h
  | semaphore_down sem => exact down_quiet self w w1 sem caller hc h

/-- One call by another fibril keeps a suspended fibril suspended on its queue,
or notified with no record left. -/
theorem sync_apply_waits_on (self : fid_t) (Q : queue_ref) (R : awaiter_t) (n0 : Nat)
    (w w1 : World) (caller : fid_t) (op : sync_op) (hc : caller ≠ self)
    (h : sync_op.apply w caller op = some w1) (hw : waits_on self Q R n0 w) :
    waits_on self Q R n0 w1 := by
  have hs := sync_apply_shape self w w1 caller op hc h
  cases hp : op.pops with
  | none =>
    rw [hp] at hs
    exact waits_on_quiet self Q R n0 w w1 hw hs
  | some Q1 =>
    rw [hp] at hs
    exact waits_on_accounted self Q Q1 R n0 w w1 hw hs

/-- One call by another fibril that does not pop the queue of a suspended
fibril leaves its record queued. -/
theorem sync_apply_still_queued (self : fid_t) (Q : queue_ref) (w w1 : World)
    (caller : fid_t) (op : sync_op) (hc : caller ≠ self)
    (h : sync_op.apply w caller op = some w1) (hp : op.pops ≠ some Q) :
    mine self (w1.queue Q) = mine self (w.queue Q) ∧
    (notifications_of self w1 ≠ notifications_of self w →
      ∃ Q1, op.pops = some Q1 ∧ mine self (w.queue Q1) ≠ []) := by
  have hs := sync_apply_shape self w w1 caller op hc h
  cases hp1 : op.pops with
  | none =>
    rw [hp1] at hs
    exact ⟨hs.2 Q, fun hn => absurd hs.1 hn⟩
  | some Q1 =>
    rw [hp1] at hs hp
    obtain ⟨a1, pre, a2, a3⟩ := hs
    refine ⟨a1 Q (fun h => hp (by rw [h])), fun hn => ⟨Q1, rfl, ?_⟩⟩
    intro hnil
    rw [hnil] at a2
    have := (List.append_eq_nil.mp a2.symm).1
    rw [this] at a3
    exact hn a3

/-- A run of the other fibrils keeps a suspended fibril suspended on its queue,
or notified with no record left. -/
theorem sync_run_waits_on (self : fid_t) (Q : queue_ref) (R : awaiter_t) (n0 : Nat)
    (ops : List (fid_t × sync_op)) (w w1 : World) (hb : by_others self ops)
    (h : sync_run w ops = some w1) (hw : waits_on self Q R n0 w) :
    waits_on self Q R n0 w1 := by
  induction ops generalizing w with
  | nil =>
    simp only [sync_run] at h
    cases h
    exact hw
  | cons p ops ih =>
    obtain ⟨caller, op⟩ := p
    simp only [sync_run] at h
    cases hop : sync_op.apply w caller op with
    | none => simp [hop] at h
    | some w2 =>
      simp only [hop, Option.bind] at h
      exact ih w2 (fun p hp => hb p (List.mem_cons_of_mem _ hp)) h
        (sync_apply_waits_on self Q R n0 w w2 caller op
          (hb (caller, op) (List.mem_cons_self _ _)) hop hw)

/-- A run of the other fibrils in which no call pops the queue of a suspended
fibril leaves its record queued. -/
theorem sync_run_still_queued (self : fid_t) (Q : queue_ref)
    (ops : List (fid_t × sync_op)) (w w1 : World) (hb : by_others self ops)
    (h : sync_run w ops = some w1) (hno : ∀ p, p ∈ ops → p.2.pops ≠ some Q) :
    mine self (w1.queue Q) = mine self (w.queue Q) := by
  induction ops generalizing w with
  | nil =>
    simp only [sync_run] at h
    cases h
    rfl
  | cons p ops ih =>
    obtain ⟨caller, op⟩ := p
    simp only [sync_run] at h
    cases hop : sync_op.apply w caller op with
    | none => simp [hop] at h
    | some w2 =>
      simp only [hop, Option.bind] at h
      rw [ih w2 (fun p hp => hb p (List.mem_cons_of_mem _ hp)) h
        (fun p hp => hno p (List.mem_cons_of_mem _ hp))]
      exact (sync_apply_still_queued self Q w w2 caller op
        (hb (caller, op) (List.mem_cons_self _ _)) hop
        (hno (caller, op) (List.mem_cons_self _ _))).1

/-- The calls that pop a condition variable are its signal and its broadcast. -/
theorem pops_condvar (op : sync_op) (fcv : Nat) (h : op.pops = some (.condvar fcv)) :
    op = .condvar_signal fcv ∨ op = .condvar_broadcast fcv := by
  cases op with
  | condvar_signal i =>
    simp only [sync_op.pops, Option.some.injEq, queue_ref.condvar.injEq] at h
    exact Or.inl (by rw [h])
  | condvar_broadcast i =>
    simp only [sync_op.pops, Option.some.injEq, queue_ref.condvar.injEq] at h
    exact Or.inr (by rw [h])
  | _ => simp [sync_op.pops] at h

/-- Erasing a record of the fibril erases it from its records. -/
theorem mine_erase_mine (self : fid_t) (r : awaiter_t) (h : r.fid = self)
    (l : List awaiter_t) : mine self (l.erase r) = (mine self l).erase r := by
  induction l with
  | nil => rfl
  | cons a t ih =>
    by_cases har : a = r
    · subst har
      simp [mine, h]
    · have hne : (a == r) = false := by simpa using har
      rw [List.erase_cons_tail (by simp [hne])]
      by_cases hp : a.fid = self
      · simp only [mine, List.filter_cons, hp, decide_True, if_true] at ih ⊢
        rw [List.erase_cons_tail (by simp [hne]), ih]
      · simp only [mine, List.filter_cons, hp, decide_False] at ih ⊢
        simpa using ih

/-- A running fibril has no record in any queue. -/
theorem running_mine (w : World) (self : fid_t) (h : running w self) (q : queue_ref) :
    mine self (w.queue q) = [] := by
  have := h q
  rw [records_of_eq] at this
  exact List.length_eq_zero.mp this

/-- A running fibril that enters a wait is suspended with its single record in
the queue of the condition variable. -/
theorem wait_starts (w ws : World) (fcv fm : Nat) (timeout : Int) (self : fid_t)
    (hrun : running w self)
    (h : fibril_condvar_wait_timeout w fcv fm timeout self = .suspended ws) :
    waits_on self (.condvar fcv) (condvar_wdata self fm) (notifications_of self ws) ws ∧
    mine self (ws.queue (.condvar fcv)) = [condvar_wdata self fm] := by
  simp only [fibril_condvar_wait_timeout] at h
  split at h
  · split at h
    · cases h
    · split at h
      · cases h
      · rename_i wu hu
        simp only [Outcome.suspended.injEq] at h
        subst h
        obtain ⟨a1, pre, a2, -⟩ := unlock_unsafe_accounted self w wu fm self hu
        have hwu : ∀ q, mine self (wu.queue q) = [] := by
          intro q
          by_cases hq : q = .mutex fm
          · subst hq
            rw [running_mine w self hrun] at a2
            exact (List.append_eq_nil.mp a2.symm).2
          · rw [a1 q hq]
            exact running_mine w self hrun q
        have hcv : mine self
            ((wu.setCondvar fcv
              { waiters := (wu.condvars fcv).waiters ++
                  [{ AWAITER_INIT self with mutex := some fm }] }).queue (.condvar fcv)) =
            [condvar_wdata self fm] := by
          rw [queue_setCondvar]
          simp only [if_true]
          rw [mine_append]
          have := hwu (.condvar fcv)
          simp only [World.queue] at this
          rw [this]
          simp [mine, AWAITER_INIT, condvar_wdata]
        refine ⟨⟨fun q hq => ?_, Or.inl ⟨hcv, rfl⟩⟩, hcv⟩
        rw [queue_setCondvar, if_neg hq]
        exact hwu q
  · cases h

/-- A lock call leaves the condition variables alone. -/
theorem lock_condvars (fuel : Nat) (w w1 : World) (fm : Nat) (o : fid_t)
    (h : (fibril_mutex_lock fuel w fm o).bind Outcome.world = some w1) :
    w1.condvars = w.condvars := by
  simp only [fibril_mutex_lock] at h
  split at h
  · simp only [Option.bind, Outcome.world] at h
    cases h; rfl
  · split at h
    · cases h
    · cases h
    · simp only [Option.bind, Outcome.world] at h
      cases h; rfl

/-- A fibril whose wait has ended resumes: the status tells whether its record
was still queued, the record is erased, and the fibril is running again when
it calls `fibril_mutex_lock`. -/
theorem resume_spec (self : fid_t) (fcv fm : Nat) (n0 fuel : Nat) (wr : World)
    (res : condvar_resumed)
    (hw : waits_on self (.condvar fcv) (condvar_wdata self fm) n0 wr)
    (h : fibril_condvar_wait_timeout_resume fuel wr fcv fm self = some res) :
    (res.rc = .ETIMEOUT ↔ condvar_wdata self fm ∈ (wr.condvars fcv).waiters) ∧
    (res.rc = .EOK ↔ condvar_wdata self fm ∉ (wr.condvars fcv).waiters) ∧
    (condvar_wdata self fm ∈ (wr.condvars fcv).waiters ↔ notifications_of self wr = n0) ∧
    (∀ w1, res.relock.world = some w1 →
      condvar_wdata self fm ∉ (w1.condvars fcv).waiters) ∧
    running
      (wr.setCondvar fcv
        { waiters := (wr.condvars fcv).waiters.erase (condvar_wdata self fm) }) self ∧
    fibril_mutex_lock fuel
      (wr.setCondvar fcv
        { waiters := (wr.condvars fcv).waiters.erase (condvar_wdata self fm) }) fm self =
      some res.relock := by
  simp only [fibril_condvar_wait_timeout_resume] at h
  split at h
  · cases h
  · rename_i r hl
    simp only [Option.some.injEq] at h
    subst h
    have hR : ({ AWAITER_INIT self with mutex := some fm } : awaiter_t) =
        condvar_wdata self fm := rfl
    rw [hR] at hl
    simp only [hR]
    obtain ⟨h1, h2⟩ := hw
    have hmem : condvar_wdata self fm ∈ (wr.condvars fcv).waiters ↔
        mine self (wr.queue (.condvar fcv)) = [condvar_wdata self fm] := by
      constructor
      · intro hm
        have : condvar_wdata self fm ∈ mine self (wr.queue (.condvar fcv)) :=
          (mem_mine _ _ _).mpr ⟨hm, rfl⟩
        rcases h2 with ⟨hq, -⟩ | ⟨hq, -⟩
        · exact hq
        · rw [hq] at this
          cases this
      · intro hq
        have : condvar_wdata self fm ∈ mine self (wr.queue (.condvar fcv)) := by
          rw [hq]; exact List.mem_singleton.mpr rfl
        exact ((mem_mine _ _ _).mp this).1
    have herase : mine self ((wr.condvars fcv).waiters.erase (condvar_wdata self fm)) = [] := by
      rw [mine_erase_mine self _ rfl]
      rcases h2 with ⟨hq, -⟩ | ⟨hq, -⟩
      · simp only [World.queue] at hq
        rw [hq]
        simp
      · simp only [World.queue] at hq
        rw [hq]
        rfl
    refine ⟨?_, ?_, ?_, ?_, ?_, hl⟩
    · by_cases hm : condvar_wdata self fm ∈ (wr.condvars fcv).waiters
      · simp [hm]
      · simp [hm]
    · by_cases hm : condvar_wdata self fm ∈ (wr.condvars fcv).waiters
      · simp [hm]
      · simp [hm]
    · rw [hmem]
      rcases h2 with ⟨hq, hn⟩ | ⟨hq, hn⟩
      · exact ⟨fun _ => hn, fun _ => hq⟩
      · constructor
        · intro hc
          rw [hq] at hc
          cases hc
        · intro hc
          omega
    · intro w1 hw1
      have hcv := lock_condvars fuel _ w1 fm self (by rw [hl]; exact hw1)
      rw [hcv]
      simp only [setCondvar_condvars, if_true]
      intro hm
      have : condvar_wdata self fm ∈
          mine self ((wr.condvars fcv).waiters.erase (condvar_wdata self fm)) :=
        (mem_mine _ _ _).mpr ⟨hm, rfl⟩
      rw [herase] at this
      cases this
    · intro q
      rw [records_of_eq, queue_setCondvar]
      by_cases hq : q = .condvar fcv
      · simp only [hq, if_true]
        rw [herase]
        rfl
      · simp only [hq, if_false]
        rw [h1 q hq]
        rfl

/-- A release that notifies a fibril makes that fibril the owner. -/
theorem unlock_unsafe_notifies_owner (self : fid_t) (w w1 : World) (fm : Nat) (o : fid_t)
    (h : _fibril_mutex_unlock_unsafe w fm o = some w1)
    (hn : notifications_of self w1 ≠ notifications_of self w) :
    (w1.mutexes fm).owned_by = some self := by
  simp only [ _fibril_mutex_unlock_unsafe] at h
  split at h
  · split at h
    · split at h
      · cases h
      · rename_i wdp rest hq
        cases h
        simp only [notifications_of, notify_notified, setFibril_notified, setMutex_notified,
          List.count_append, List.count_singleton] at hn
        have : wdp.fid = self := by
          by_contra hne
          have : ¬ (wdp.fid == self) = true := by simpa using hne
          simp [this] at hn
        simp [this]
    · cases h
      exact absurd rfl hn
  · cases h

/-- A release by another fibril cannot take a mutex from its owner. -/
theorem unlock_unsafe_owner_kept (self : fid_t) (w w1 : World) (fm fm1 : Nat) (o : fid_t)
    (ho : o ≠ self) (hown : (w.mutexes fm).owned_by = some self)
    (h : _fibril_mutex_unlock_unsafe w fm1 o = some w1) :
    (w1.mutexes fm).owned_by = some self := by
  have hne : fm ≠ fm1 := by
    intro he
    subst he
    simp only [ _fibril_mutex_unlock_unsafe, hown, Option.some.injEq] at h
    have : ¬ self = o := fun e => ho e.symm
    simp [this] at h
  simp only [ _fibril_mutex_unlock_unsafe] at h
  split at h
  · split at h
    · split at h
      · cases h
      · cases h
        simpa [hne] using hown
    · cases h
      simpa [hne] using hown
  · cases h

/-- A lock call by another fibril cannot take a held mutex from its owner. -/
theorem lock_owner_kept (self : fid_t) (fuel : Nat) (w w1 : World) (fm fm1 : Nat) (o : fid_t)
    (hinv : mutex_inv (w.mutexes fm)) (hown : (w.mutexes fm).owned_by = some self)
    (h : (fibril_mutex_lock fuel w fm1 o).bind Outcome.world = some w1) :
    (w1.mutexes fm).owned_by = some self := by
  have hc : fm1 = fm → ¬ (w.mutexes fm1).counter > 0 := by
    intro he hpos
    subst he
    have := (hinv.2.1 hpos).1
    rw [this] at hown
    cases hown
  simp only [fibril_mutex_lock] at h
  split at h
  · rename_i hpos
    simp only [Option.bind, Outcome.world] at h
    cases h
    by_cases he : fm = fm1
    · exact absurd hpos (hc he.symm)
    · simpa [he] using hown
  · split at h
    · cases h
    · cases h
    · simp only [Option.bind, Outcome.world] at h
      cases h
      by_cases he : fm = fm1
      · subst he
        simpa using hown
      · simpa [he] using hown

/-- A trylock call by another fibril cannot take a held mutex from its owner. -/
theorem trylock_owner_kept (self : fid_t) (w w1 : World) (fm fm1 : Nat) (o : fid_t)
    (hinv : mutex_inv (w.mutexes fm)) (hown : (w.mutexes fm).owned_by = some self)
    (h : (fibril_mutex_trylock w fm1 o).world = some w1) :
    (w1.mutexes fm).owned_by = some self := by
  simp only [fibril_mutex_trylock] at h
  split at h
  · rename_i hpos
    simp only [Outcome.world] at h
    cases h
    by_cases he : fm = fm1
    · subst he
      have := (hinv.2.1 hpos).1
      rw [this] at hown
      cases hown
    · simpa [he] using hown
  · simp only [Outcome.world] at h
    cases h
    exact hown

/-- A surviving wait went through the release of its mutex, or returned at
once. -/
theorem wait_world (w w1 : World) (fcv fm : Nat) (timeout : Int) (o : fid_t)
    (h : (fibril_condvar_wait_timeout w fcv fm timeout o).world = some w1) :
    w1 = w ∨ ∃ wu, _fibril_mutex_unlock_unsafe w fm o = some wu ∧
      w1.mutexes = wu.mutexes ∧ w1.notified = wu.notified := by
  simp only [fibril_condvar_wait_timeout] at h
  split at h
  · split at h
    · simp only [Outcome.world] at h
      cases h
      exact Or.inl rfl
    · split at h
      · cases h
      · rename_i wu hu
        simp only [Outcome.world] at h
        cases h
        exact Or.inr ⟨wu, hu, rfl, rfl⟩
  · cases h

/-- A surviving resume is a lock call on the memory with the record erased. -/
theorem resume_world (fuel : Nat) (w w1 : World) (fcv fm : Nat) (o : fid_t)
    (h : (fibril_condvar_wait_timeout_resume fuel w fcv fm o).bind
      (fun r => r.relock.world) = some w1) :
    ∃ we, we.mutexes = w.mutexes ∧
      (fibril_mutex_lock fuel we fm o).bind Outcome.world = some w1 := by
  simp only [fibril_condvar_wait_timeout_resume] at h
  split at h
  · cases h
  · rename_i r hl
    simp only [Option.bind] at h
    simp only [AWAITER_INIT] at hl
    exact ⟨w.setCondvar fcv
      { waiters := (w.condvars fcv).waiters.erase { fid := o, mutex := some fm } }, rfl,
      by rw [hl]; exact h⟩

/-- A rwlock lock call touches no mutex. -/
theorem rwlock_lock_mutexes (w w1 : World) (frw : Nat) (o : fid_t) (fuel : Nat) :
    ((fibril_rwlock_read_lock fuel w frw o).bind Outcome.world = some w1 →
      w1.mutexes = w.mutexes) ∧
    ((fibril_rwlock_write_lock fuel w frw o).bind Outcome.world = some w1 →
      w1.mutexes = w.mutexes) := by
  constructor
  · intro h
    simp only [fibril_rwlock_read_lock] at h
    split at h
    · simp only [Option.bind, Outcome.world] at h
      cases h; rfl
    · split at h
      · cases h
      · cases h
      · simp only [Option.bind, Outcome.world] at h
        cases h; rfl
  · intro h
    simp only [fibril_rwlock_write_lock] at h
    split at h
    · simp only [Option.bind, Outcome.world] at h
      cases h; rfl
    · split at h
      · cases h
      · cases h
      · simp only [Option.bind, Outcome.world] at h
        cases h; rfl

/-- The calls that touch no mutex. -/
theorem sync_apply_mutexes (w w1 : World) (caller : fid_t) (op : sync_op)
    (h : sync_op.apply w caller op = some w1) :
    w1.mutexes = w.mutexes ∨
      (∃ fuel fm, op = .mutex_lock fuel fm) ∨ (∃ fm, op = .mutex_trylock fm) ∨
      (∃ fm, op = .mutex_unlock fm) ∨ (∃ fcv fm timeout, op = .condvar_wait fcv fm timeout) ∨
      (∃ fuel fcv fm, op = .condvar_resume fuel fcv fm) := by
  cases op with
  | mutex_lock fuel fm => exact Or.inr (Or.inl ⟨fuel, fm, rfl⟩)
  | mutex_trylock fm => exact Or.inr (Or.inr (Or.inl ⟨fm, rfl⟩))
  | mutex_unlock fm => exact Or.inr (Or.inr (Or.inr (Or.inl ⟨fm, rfl⟩)))
  | condvar_wait fcv fm timeout =>
    exact Or.inr (Or.inr (Or.inr (Or.inr (Or.inl ⟨fcv, fm, timeout, rfl⟩))))
  | condvar_resume fuel fcv fm =>
    exact Or.inr (Or.inr (Or.inr (Or.inr (Or.inr ⟨fuel, fcv, fm, rfl⟩))))
  | rwlock_read_lock fuel frw => exact Or.inl ((rwlock_lock_mutexes w w1 frw caller fuel).1 h)
  | rwlock_write_lock fuel frw => exact Or.inl ((rwlock_lock_mutexes w w1 frw caller fuel).2 h)
  | rwlock_read_unlock frw =>
    exact Or.inl (common_unlock_accounted 0 w w1 frw caller
      ((rwlock_unlock_world w w1 frw caller).1 h)).2.2
  | rwlock_write_unlock frw =>
    exact Or.inl (common_unlock_accounted 0 w w1 frw caller
      ((rwlock_unlock_world w w1 frw caller).2 h)).2.2
  | condvar_signal fcv =>
    simp only [sync_op.apply, Option.some.injEq] at h
    subst h
    left
    simp only [fibril_condvar_signal]
    split <;> rfl
  | condvar_broadcast fcv =>
    simp only [sync_op.apply, Option.some.injEq] at h
    subst h
    exact Or.inl (broadcast_spec w fcv).2.2.2.1
  | semaphore_up sem =>
    left
    simp only [sync_op.apply, fibril_semaphore_up] at h
    split at h
    · split at h
      · cases h
      · simp only [Outcome.world] at h
        cases h; rfl
    · simp only [Outcome.world] at h
      cases h; rfl
  | semaphore_down sem =>
    left
    simp only [sync_op.apply, fibril_semaphore_down] at h
    split at h
    · simp only [Outcome.world] at h
      cases h; rfl
    · simp only [Outcome.world] at h
      cases h; rfl

/-- Every surviving call keeps the invariant of every mutex. -/
theorem sync_apply_mutex_inv (w w1 : World) (caller : fid_t) (op : sync_op) (i : Nat)
    (h : sync_op.apply w caller op = some w1) (hi : mutex_inv (w.mutexes i)) :
    mutex_inv (w1.mutexes i) := by
  rcases sync_apply_mutexes w w1 caller op h with hm | ⟨fuel, fm, rfl⟩ | ⟨fm, rfl⟩ |
    ⟨fm, rfl⟩ | ⟨fcv, fm, timeout, rfl⟩ | ⟨fuel, fcv, fm, rfl⟩
  · rw [hm]; exact hi
  · exact mutex_op_apply_inv w w1 (.lock fuel fm caller) i h hi
  · exact mutex_op_apply_inv w w1 (.trylock fm caller) i h hi
  · exact mutex_op_apply_inv w w1 (.unlock fm caller) i h hi
  · exact mutex_op_apply_inv w w1 (.condvar_wait fcv fm timeout caller) i h hi
  · obtain ⟨we, he, hl⟩ := resume_world fuel w w1 fcv fm caller h
    exact mutex_op_apply_inv we w1 (.lock fuel fm caller) i hl (by rw [he]; exact hi)

/-- No call by another fibril takes a held mutex from its owner. -/
theorem sync_apply_owner_kept (self : fid_t) (fm : Nat) (w w1 : World) (caller : fid_t)
    (op : sync_op) (hc : caller ≠ self) (h : sync_op.apply w caller op = some w1)
    (hinv : mutex_inv (w.mutexes fm)) (hown : (w.mutexes fm).owned_by = some self) :
    (w1.mutexes fm).owned_by = some self := by
  rcases sync_apply_mutexes w w1 caller op h with hm | ⟨fuel, fm1, rfl⟩ | ⟨fm1, rfl⟩ |
    ⟨fm1, rfl⟩ | ⟨fcv, fm1, timeout, rfl⟩ | ⟨fuel, fcv, fm1, rfl⟩
  · rw [hm]; exact hown
  · exact lock_owner_kept self fuel w w1 fm fm1 caller hinv hown h
  · exact trylock_owner_kept self w w1 fm fm1 caller hinv hown h
  · exact unlock_unsafe_owner_kept self w w1 fm fm1 caller hc hown
      (unlock_world w w1 fm1 caller h)
  · rcases wait_world w w1 fcv fm1 timeout caller h with he | ⟨wu, hu, hm, -⟩
    · rw [he]; exact hown
    · rw [hm]
      exact unlock_unsafe_owner_kept self w wu fm fm1 caller hc hown hu
  · obtain ⟨we, he, hl⟩ := resume_world fuel w w1 fcv fm1 caller h
    exact lock_owner_kept self fuel we w1 fm fm1 caller (by rw [he]; exact hinv)
      (by rw [he]; exact hown) hl

/-- A call by another fibril that notifies a fibril pops a queue that holds a
record of that fibril. -/
theorem sync_apply_notified_pops (self : fid_t) (w w1 : World) (caller : fid_t)
    (op : sync_op) (hc : caller ≠ self) (h : sync_op.apply w caller op = some w1)
    (hn : notifications_of self w1 ≠ notifications_of self w) :
    ∃ Q1, op.pops = some Q1 ∧ mine self (w.queue Q1) ≠ [] := by
  have hs := sync_apply_shape self w w1 caller op hc h
  cases hp1 : op.pops with
  | none =>
    rw [hp1] at hs
    exact absurd hs.1 hn
  | some Q1 =>
    rw [hp1] at hs
    obtain ⟨-, pre, a2, a3⟩ := hs
    refine ⟨Q1, rfl, ?_⟩
    intro hnil
    rw [hnil] at a2
    have := (List.append_eq_nil.mp a2.symm).1
    rw [this] at a3
    exact hn a3

/-- A call by another fibril that notifies a fibril whose only records are in
the queue of mutex `fm` makes that fibril the owner of `fm`. -/
theorem sync_apply_notify_owner (self : fid_t) (fm : Nat) (w w1 : World) (caller : fid_t)
    (op : sync_op) (hc : caller ≠ self) (h : sync_op.apply w caller op = some w1)
    (hz : ∀ q, q ≠ .mutex fm → mine self (w.queue q) = [])
    (hn : notifications_of self w1 ≠ notifications_of self w) :
    (w1.mutexes fm).owned_by = some self := by
  obtain ⟨Q1, hp, hne⟩ := sync_apply_notified_pops self w w1 caller op hc h hn
  have hQ : Q1 = .mutex fm := by
    by_contra hq
    exact hne (hz Q1 hq)
  subst hQ
  cases op with
  | mutex_unlock fm1 =>
    simp only [sync_op.pops, Option.some.injEq, queue_ref.mutex.injEq] at hp
    subst hp
    exact unlock_unsafe_notifies_owner self w w1 _ caller (unlock_world w w1 _ caller h) hn
  | condvar_wait fcv fm1 timeout =>
    simp only [sync_op.pops, Option.some.injEq, queue_ref.mutex.injEq] at hp
    subst hp
    rcases wait_world w w1 fcv _ timeout caller h with he | ⟨wu, hu, hm, hnt⟩
    · rw [he] at hn
      exact absurd rfl hn
    · rw [hm]
      refine unlock_unsafe_notifies_owner self w wu _ caller hu ?_
      simpa [notifications_of, hnt] using hn
  | _ => simp [sync_op.pops] at hp

/-- A fibril suspended in `fibril_mutex_lock` owns the mutex from the moment it
is notified, whatever the other fibrils call. -/
theorem lock_wakeup_owner (self : fid_t) (fm : Nat) (R : awaiter_t) (n0 : Nat)
    (ops : List (fid_t × sync_op)) (w w1 : World) (hb : by_others self ops)
    (h : sync_run w ops = some w1)
    (hw : waits_on self (.mutex fm) R n0 w) (hinv : mutex_inv (w.mutexes fm))
    (hown : notifications_of self w ≠ n0 → (w.mutexes fm).owned_by = some self) :
    waits_on self (.mutex fm) R n0 w1 ∧ mutex_inv (w1.mutexes fm) ∧
    (notifications_of self w1 ≠ n0 → (w1.mutexes fm).owned_by = some self) := by
  induction ops generalizing w with
  | nil =>
    simp only [sync_run] at h
    cases h
    exact ⟨hw, hinv, hown⟩
  | cons p ops ih =>
    obtain ⟨caller, op⟩ := p
    simp only [sync_run] at h
    have hc : caller ≠ self := hb (caller, op) (List.mem_cons_self _ _)
    cases hop : sync_op.apply w caller op with
    | none => simp [hop] at h
    | some w2 =>
      simp only [hop, Option.bind] at h
      refine ih w2 (fun p hp => hb p (List.mem_cons_of_mem _ hp)) h
        (sync_apply_waits_on self _ R n0 w w2 caller op hc hop hw)
        (sync_apply_mutex_inv w w2 caller op fm hop hinv) ?_
      intro hn2
      by_cases hn : notifications_of self w = n0
      · exact sync_apply_notify_owner self fm w w2 caller op hc hop hw.1
          (by rw [hn]; exact hn2)
      · exact sync_apply_owner_kept self fm w w2 caller op hc hop hinv (hown hn)

/-- A running fibril that blocks in `fibril_mutex_lock` is suspended with its
single record in the queue of the mutex. -/
theorem lock_starts (fuel : Nat) (w w1 : World) (fm : Nat) (self : fid_t)
    (hrun : running w self)
    (h : fibril_mutex_lock fuel w fm self = some (.suspended w1)) :
    waits_on self (.mutex fm) (AWAITER_INIT self) (notifications_of self w1) w1 := by
  simp only [fibril_mutex_lock] at h
  split at h
  · cases h
  · split at h
    · cases h
    · cases h
    · simp only [Option.some.injEq, Outcome.suspended.injEq] at h
      subst h
      refine ⟨fun q hq => ?_, Or.inl ⟨?_, rfl⟩⟩
      · simp only [queue_setFibril, queue_setMutex, hq, if_false]
        exact running_mine w self hrun q
      · simp only [queue_setFibril, queue_setMutex, if_true]
        rw [mine_append]
        have := running_mine w self hrun (.mutex fm)
        simp only [World.queue] at this
        rw [this]
        simp [mine, AWAITER_INIT]

/-- A surviving run keeps the invariant of every mutex. -/
theorem sync_run_mutex_inv (ops : List (fid_t × sync_op)) (w w1 : World) (i : Nat)
    (h : sync_run w ops = some w1) (hi : mutex_inv (w.mutexes i)) :
    mutex_inv (w1.mutexes i) := by
  induction ops generalizing w with
  | nil =>
    simp only [sync_run] at h
    cases h
    exact hi
  | cons p ops ih =>
    obtain ⟨caller, op⟩ := p
    simp only [sync_run] at h
    cases hop : sync_op.apply w caller op with
    | none => simp [hop] at h
    | some w2 =>
      simp only [hop, Option.bind] at h
      exact ih w2 h (sync_apply_mutex_inv w w2 caller op i hop hi)

/-- A wait whose park has ended by notification returns `EOK`, its record has
left the queue, and a signal or broadcast on the condition variable is among
the calls made meanwhile. -/
theorem notified_wait_eok (w ws : World) (fcv fm : Nat) (timeout : Int) (self : fid_t)
    (hrun : running w self)
    (hs : fibril_condvar_wait_timeout w fcv fm timeout self = .suspended ws)
    (ops : List (fid_t × sync_op)) (wr : World) (fuel : Nat) (res : condvar_resumed)
    (hb : by_others self ops) (hr : sync_run ws ops = some wr)
    (hres : fibril_condvar_wait_timeout_resume fuel wr fcv fm self = some res) :
    (res.rc = .EOK ↔ notifications_of self ws < notifications_of self wr) ∧
    (res.rc = .EOK → ∃ p, p ∈ ops ∧
      (p.2 = .condvar_signal fcv ∨ p.2 = .condvar_broadcast fcv)) ∧
    condvar_wdata self fm ∈ (ws.condvars fcv).waiters := by
  obtain ⟨hw0, hq0⟩ := wait_starts w ws fcv fm timeout self hrun hs
  have hwr := sync_run_waits_on self _ _ _ ops ws wr hb hr hw0
  obtain ⟨-, r2, r3, -⟩ := resume_spec self fcv fm _ fuel wr res hwr hres
  have hin : condvar_wdata self fm ∈ (ws.condvars fcv).waiters := by
    have : condvar_wdata self fm ∈ mine self (ws.queue (.condvar fcv)) := by
      rw [hq0]; exact List.mem_singleton.mpr rfl
    exact ((mem_mine _ _ _).mp this).1
  refine ⟨?_, ?_, hin⟩
  · rw [r2]
    constructor
    · intro hn
      rcases hwr.2 with ⟨-, hc⟩ | ⟨-, hc⟩
      · exact absurd (r3.mpr hc) hn
      · omega
    · intro hlt hm
      have := r3.mp hm
      omega
  · intro hrc
    by_contra hno
    have hno' : ∀ p, p ∈ ops → p.2.pops ≠ some (.condvar fcv) := by
      intro p hp hpop
      exact hno ⟨p, hp, pops_condvar p.2 fcv hpop⟩
    have hsame := sync_run_still_queued self (.condvar fcv) ops ws wr hb hr hno'
    rw [hq0] at hsame
    have : condvar_wdata self fm ∈ mine self (wr.queue (.condvar fcv)) := by
      rw [hsame]; exact List.mem_singleton.mpr rfl
    exact (r2.mp hrc) ((mem_mine _ _ _).mp this).1

/-- C11: for a caller that owns the mutex, `fibril_condvar_wait_timeout` with a
negative timeout returns `ETIMEOUT` at once and leaves the whole memory as it
is (no suspension, same queue, same owner); with timeout 0 no deadline is
computed, the call suspends, its park cannot end by time, and when it ends
the call returns `EOK`, never `ETIMEOUT`, its record having been removed by a
signal or broadcast made meanwhile. -/
theorem C11_wait_timeout_edges (w : World) (fcv fm : Nat) (self : fid_t)
    (hown : (w.mutexes fm).owned_by = some self) :
    (∀ timeout : Int, timeout < 0 →
      fibril_condvar_wait_timeout w fcv fm timeout self = .returned .ETIMEOUT w) ∧
    (∀ now : Int, condvar_expires now 0 = none) ∧
    (∀ now later : Int,
      fibril_wait_timeout_ends false (condvar_expires now 0) later = false) ∧
    (mutex_inv (w.mutexes fm) → running w self →
      ∃ ws, fibril_condvar_wait_timeout w fcv fm 0 self = .suspended ws ∧
        ∀ (ops : List (fid_t × sync_op)) (wr : World) (now later : Int) (fuel : Nat)
          (res : condvar_resumed),
          by_others self ops → sync_run ws ops = some wr →
          fibril_wait_timeout_ends
            (decide (notifications_of self ws < notifications_of self wr))
            (condvar_expires now 0) later = true →
          fibril_condvar_wait_timeout_resume fuel wr fcv fm self = some res →
          res.rc = .EOK ∧ res.rc ≠ .ETIMEOUT ∧
          condvar_wdata self fm ∈ (ws.condvars fcv).waiters ∧
          condvar_wdata self fm ∉ (wr.condvars fcv).waiters ∧
          ∃ p, p ∈ ops ∧ (p.2 = .condvar_signal fcv ∨ p.2 = .condvar_broadcast fcv)) := by
  refine ⟨?_, ?_, ?_, ?_⟩
  · intro timeout ht
    simp only [fibril_condvar_wait_timeout, fibril_mutex_is_locked, hown, decide_True,
      if_true, ht]
  · intro now
    simp [condvar_expires]
  · intro now later
    simp [condvar_expires, fibril_wait_timeout_ends]
  · intro hinv hrun
    obtain ⟨ws, hs, -⟩ := wait_suspends w fcv fm 0 self hinv hown (le_refl 0)
    refine ⟨ws, hs, ?_⟩
    intro ops wr now later fuel res hb hr hend hres
    obtain ⟨n1, n2, n3⟩ := notified_wait_eok w ws fcv fm 0 self hrun hs ops wr fuel res hb hr hres
    have hlt : notifications_of self ws < notifications_of self wr := by
      simpa [condvar_expires, fibril_wait_timeout_ends] using hend
    have hrc := n1.mpr hlt
    obtain ⟨hw0, -⟩ := wait_starts w ws fcv fm 0 self hrun hs
    have hwr := sync_run_waits_on self _ _ _ ops ws wr hb hr hw0
    obtain ⟨-, r2, -⟩ := resume_spec self fcv fm _ fuel wr res hwr hres
    have hne : res.rc ≠ .ETIMEOUT := by
      rw [hrc]
      intro h
      cases h
    exact ⟨hrc, hne, n3, r2.mp hrc, n2 hrc⟩

/-- C11 at a concrete memory: the owner 1 of mutex 0 waits with timeout -1. -/
theorem C11_wait_timeout_edges_witness :
    (World.queued.mutexes 0).owned_by = some 1 ∧
    fibril_condvar_wait_timeout World.queued 0 0 (-1) 1 = .returned .ETIMEOUT World.queued ∧
    condvar_expires 100 0 = none :=
  ⟨rfl, (C11_wait_timeout_edges World.queued 0 0 1 rfl).1 (-1) (by decide),
    (C11_wait_timeout_edges World.queued 0 0 1 rfl).2.1 100⟩

/-- C12: a `fibril_condvar_wait_timeout` call that has suspended (so its
timeout is `≥ 0`) returns `ETIMEOUT` exactly when its wait record is still in
the queue of the condition variable when the caller resumes, and `EOK` exactly
when the record has left the queue, removed by a signal or broadcast made
meanwhile; in both cases the record is out of the queue afterwards, and the
call returns only from `fibril_mutex_lock`, with the caller as the owner of
the mutex: at once, or from the moment an unlock notifies the caller. -/
theorem C12_wait_resume (w ws : World) (fcv fm : Nat) (timeout : Int) (self : fid_t)
    (hrun : running w self) (hinv : mutex_inv (w.mutexes fm))
    (hs : fibril_condvar_wait_timeout w fcv fm timeout self = .suspended ws)
    (ops : List (fid_t × sync_op)) (wr : World) (fuel : Nat) (res : condvar_resumed)
    (hb : by_others self ops) (hr : sync_run ws ops = some wr)
    (hres : fibril_condvar_wait_timeout_resume fuel wr fcv fm self = some res) :
    0 ≤ timeout ∧
    (res.rc = .ETIMEOUT ↔ condvar_wdata self fm ∈ (wr.condvars fcv).waiters) ∧
    (res.rc = .EOK ↔ condvar_wdata self fm ∉ (wr.condvars fcv).waiters) ∧
    (res.rc = .EOK → ∃ p, p ∈ ops ∧
      (p.2 = .condvar_signal fcv ∨ p.2 = .condvar_broadcast fcv)) ∧
    (∀ w1, res.relock.world = some w1 →
      condvar_wdata self fm ∉ (w1.condvars fcv).waiters) ∧
    (∀ w1, res.relock = .returned () w1 → (w1.mutexes fm).owned_by = some self) ∧
    (∀ w1, res.relock = .suspended w1 →
      ∀ (ops2 : List (fid_t × sync_op)) (w2 : World), by_others self ops2 →
        sync_run w1 ops2 = some w2 →
        notifications_of self w2 ≠ notifications_of self w1 →
        (w2.mutexes fm).owned_by = some self) := by
  obtain ⟨hw0, -⟩ := wait_starts w ws fcv fm timeout self hrun hs
  have hwr := sync_run_waits_on self _ _ _ ops ws wr hb hr hw0
  obtain ⟨r1, r2, -, r4, r5, r6⟩ := resume_spec self fcv fm _ fuel wr res hwr hres
  obtain ⟨-, n2, -⟩ := notified_wait_eok w ws fcv fm timeout self hrun hs ops wr fuel res hb hr
    hres
  have hinvs : mutex_inv (ws.mutexes fm) :=
    mutex_op_apply_inv w ws (.condvar_wait fcv fm timeout self) fm
      (by simp only [mutex_op.apply, hs, Outcome.world]) hinv
  have hinvr := sync_run_mutex_inv ops ws wr fm hr hinvs
  refine ⟨?_, r1, r2, n2, r4, ?_, ?_⟩
  · by_contra hneg
    have hlt : timeout < 0 := by omega
    simp only [fibril_condvar_wait_timeout, hlt, if_true] at hs
    split at hs <;> cases hs
  · intro w1 hw1
    rw [hw1] at r6
    simp only [fibril_mutex_lock] at r6
    split at r6
    · simp only [Option.some.injEq, Outcome.returned.injEq, true_and] at r6
      subst r6
      simp
    · split at r6 <;> simp at r6
  · intro w1 hw1 ops2 w2 hb2 hr2 hn
    rw [hw1] at r6
    have hst := lock_starts fuel _ w1 fm self r5 r6
    have hinv1 : mutex_inv (w1.mutexes fm) :=
      mutex_op_apply_inv
        (wr.setCondvar fcv
          { waiters := (wr.condvars fcv).waiters.erase (condvar_wdata self fm) })
        w1 (.lock fuel fm self) fm
        (by simp only [mutex_op.apply, r6, Option.bind, Outcome.world]) (by simpa using hinvr)
    exact (lock_wakeup_owner self fm _ _ ops2 w1 w2 hb2 hr2 hst hinv1
      (fun h => absurd rfl h)).2.2 hn

/-- C12 at a concrete memory: the owner 1 of mutex 0 waits with timeout 5 and
fibril 2 signals the condition variable meanwhile. -/
theorem C12_wait_resume_witness :
    ∃ ws wr res, running World.queued 1 ∧ mutex_inv (World.queued.mutexes 0) ∧
      fibril_condvar_wait_timeout World.queued 0 0 5 1 = .suspended ws ∧
      by_others 1 [(2, sync_op.condvar_signal 0)] ∧
      sync_run ws [(2, sync_op.condvar_signal 0)] = some wr ∧
      fibril_condvar_wait_timeout_resume 4 wr 0 0 1 = some res ∧
      res.rc = .EOK :=
  ⟨_, _, _,
    fun q => by
      cases q <;> simp [World.queue, World.queued, records_of, AWAITER_INIT]
      split <;> simp,
    by decide, rfl, fun p hp => by simp at hp; subst hp; decide, rfl, rfl,
    (C12_wait_resume World.queued _ 0 0 5 1
      (fun q => by
        cases q <;> simp [World.queue, World.queued, records_of, AWAITER_INIT]
        split <;> simp)
      (by decide) rfl [(2, sync_op.condvar_signal 0)] _ 4 _
      (fun p hp => by simp at hp; subst hp; decide) rfl rfl).2.2.1.mpr (by decide)⟩

/-- C20, delay 0: `fibril_timer_set_locked` with delay 0 arms the timer (state
`fts_active`, delay 0), and the pass of the timer fibril then calls
`fibril_condvar_wait_timeout` with timeout 0, for which no deadline is
computed: the park of that wait never ends by time, and whenever it ends the
wait returns `EOK`, so that the pass leaves the timer as it is and does not
call the handler.  For a delay other than 0 the deadline is the delay after
the start of the wait. -/
theorem C20_zero_delay_never_fires :
    (∃ w1, fibril_timer_set_locked World.idle_zero 0 0 (some 7) none 1 = .returned () w1 ∧
      w1.timers 0 = World.armed_zero.timers 0) ∧
    (∃ ws, fibril_timer_func_loop World.armed_zero 0 9 = .wait true 0 (.suspended ws) ∧
      (ws.timers 0).state = .fts_active ∧
      (∀ now : Int, condvar_expires now (World.armed_zero.timers 0).delay = none) ∧
      (∀ now later : Int, fibril_wait_timeout_ends false
        (condvar_expires now (World.armed_zero.timers 0).delay) later = false) ∧
      ∀ (ops : List (fid_t × sync_op)) (wr : World) (now later : Int) (fuel : Nat)
        (res : condvar_resumed),
        by_others 9 ops → sync_run ws ops = some wr →
        fibril_wait_timeout_ends
          (decide (notifications_of 9 ws < notifications_of 9 wr))
          (condvar_expires now (World.armed_zero.timers 0).delay) later = true →
        fibril_condvar_wait_timeout_resume fuel wr 0 0 9 = some res →
        res.rc = .EOK ∧
        (∃ p, p ∈ ops ∧ (p.2 = .condvar_signal 0 ∨ p.2 = .condvar_broadcast 0)) ∧
        ∀ w2, fibril_timer_func_after_wait w2 0 res.rc 9 = .skipped w2) ∧
    (∀ now D : Int, D ≠ 0 → condvar_expires now D = some (now + D)) := by
  have hrun : running World.armed_zero 9 := by
    intro q
    cases q <;> simp [World.queue, World.armed_zero, World.boot, records_of]
    split <;> simp
  refine ⟨⟨_, rfl, rfl⟩, ⟨_, rfl, rfl, fun now => rfl, fun now later => rfl, ?_⟩, ?_⟩
  · intro ops wr now later fuel res hb hr hend hres
    have hd : (World.armed_zero.timers 0).delay = 0 := rfl
    rw [hd] at hend
    simp only [condvar_expires, ne_eq, not_true_eq_false, if_false, fibril_wait_timeout_ends,
      Bool.or_false, decide_eq_true_eq] at hend
    obtain ⟨n1, n2, -⟩ := notified_wait_eok World.armed_zero _ 0 0 0 9 hrun rfl ops wr fuel res
      hb hr hres
    have hrc := n1.mpr hend
    refine ⟨hrc, n2 hrc, ?_⟩
    intro w2
    simp [fibril_timer_func_after_wait, hrc]
  · intro now D hD
    simp [condvar_expires, hD]

/-! ### The wait graph is acyclic -/

/-- The empty chain ends. -/
theorem chain_ends_none (w : World) : chain_ends w none :=
  ⟨0, rfl⟩

/-- A chain that starts at a primitive without owner ends. -/
theorem chain_ends_free (w : World) (r : oi_ref) (h : w.owned_by r = none) :
    chain_ends w (some r) :=
  ⟨0, by simp [chain_owner, h]⟩

/-- A chain ends when it ends after its first owner. -/
theorem chain_ends_step (w : World) (r : oi_ref) (o : fid_t) (h : w.owned_by r = some o)
    (he : chain_ends w (w.fibrils o).waits_for) : chain_ends w (some r) := by
  obtain ⟨n, hn⟩ := he
  exact ⟨n + 1, by simp [chain_owner, h, hn]⟩

/-- Chains that end keep ending in a memory in which every owner either has a
chain that ends or is the owner, with the same `waits_for`, that it was. -/
theorem chain_ends_transfer (w w1 : World)
    (H : ∀ r o, w1.owned_by r = some o →
      chain_ends w1 (w1.fibrils o).waits_for ∨
      (w.owned_by r = some o ∧ (w1.fibrils o).waits_for = (w.fibrils o).waits_for))
    (oi : Option oi_ref) (h : chain_ends w oi) : chain_ends w1 oi := by
  obtain ⟨n, hn⟩ := h
  induction n generalizing oi with
  | zero =>
    cases oi with
    | none => exact chain_ends_none w1
    | some r =>
      cases ho : w1.owned_by r with
      | none => exact chain_ends_free w1 r ho
      | some o =>
        rcases H r o ho with hl | ⟨h1, -⟩
        · exact chain_ends_step w1 r o ho hl
        · simp [chain_owner, h1] at hn
  | succ n ih =>
    cases oi with
    | none => exact chain_ends_none w1
    | some r =>
      cases ho : w1.owned_by r with
      | none => exact chain_ends_free w1 r ho
      | some o =>
        rcases H r o ho with hl | ⟨h1, h2⟩
        · exact chain_ends_step w1 r o ho hl
        · simp only [chain_owner, Option.bind, h1] at hn
          exact chain_ends_step w1 r o ho (by rw [h2]; exact ih _ hn)

/-- A chain that does not meet `self` does not depend on the `waits_for` of
`self`. -/
theorem chain_owner_congr_off (w w1 : World) (self : fid_t)
    (ho : ∀ r, w1.owned_by r = w.owned_by r)
    (hf : ∀ g, g ≠ self → (w1.fibrils g).waits_for = (w.fibrils g).waits_for)
    (n : Nat) (oi : Option oi_ref) (hno : ∀ k, chain_owner w k oi ≠ some self) :
    chain_owner w1 n oi = chain_owner w n oi := by
  induction n generalizing oi with
  | zero =>
    cases oi with
    | none => rfl
    | some r => simp [chain_owner, ho r]
  | succ n ih =>
    cases oi with
    | none => rfl
    | some r =>
      simp only [chain_owner, Option.bind, ho r]
      cases hr : w.owned_by r with
      | none => rfl
      | some o =>
        have h0 := hno 0
        simp only [chain_owner, Option.bind, hr] at h0
        have hne : o ≠ self := fun he => h0 (by rw [he])
        simp only [hf o hne]
        refine ih _ ?_
        intro k hk
        exact hno (k + 1) (by simp [chain_owner, hr, hk])

/-- The chain after `i + 1` links is the chain of the owner met after `i`
links. -/
theorem chain_owner_shift (w : World) (i m : Nat) (oi : Option oi_ref) :
    chain_owner w (i + 1 + m) oi =
      (chain_owner w i oi).bind (fun o => chain_owner w m (w.fibrils o).waits_for) := by
  induction i generalizing oi with
  | zero =>
    have : 0 + 1 + m = m + 1 := by omega
    rw [this]
    simp only [chain_owner]
  | succ i ih =>
    have : i + 1 + 1 + m = (i + 1 + m) + 1 := by omega
    rw [this]
    simp only [chain_owner]
    cases oi with
    | none => rfl
    | some r =>
      cases hr : w.owned_by r with
      | none => simp [hr]
      | some o => simp [hr, ih]

/-- A chain that has ended stays ended. -/
theorem chain_none_after (w : World) (n : Nat) (oi : Option oi_ref)
    (h : chain_owner w n oi = none) (m : Nat) (hm : n ≤ m) : chain_owner w m oi = none := by
  rcases Nat.eq_or_lt_of_le hm with he | hlt
  · rw [← he]; exact h
  · obtain ⟨d, rfl⟩ : ∃ d, m = n + 1 + d := ⟨m - n - 1, by omega⟩
    rw [chain_owner_shift, h]
    rfl

/-- A chain on which an owner occurs twice never ends. -/
theorem chain_repeat_endless (w : World) (i d : Nat) (oi : Option oi_ref) (o : fid_t)
    (h1 : chain_owner w i oi = some o) (h2 : chain_owner w (i + 1 + d) oi = some o) :
    ¬ chain_ends w oi := by
  rintro ⟨n, hn⟩
  have hloop : chain_owner w d (w.fibrils o).waits_for = some o := by
    rw [chain_owner_shift, h1] at h2
    exact h2
  have hall : ∀ t, chain_owner w (i + t * (d + 1)) oi = some o := by
    intro t
    induction t with
    | zero => simpa using h1
    | succ t ih =>
      have : i + (t + 1) * (d + 1) = (i + t * (d + 1)) + 1 + d := by ring
      rw [this, chain_owner_shift, ih]
      exact hloop
  have hle : n ≤ i + n * (d + 1) := by
    have : n ≤ n * (d + 1) := Nat.le_mul_of_pos_right n (Nat.succ_pos d)
    omega
  have := chain_none_after w n oi hn _ hle
  rw [hall n] at this
  cases this

/-- On a chain that ends no owner occurs twice. -/
theorem chain_distinct (w : World) (oi : Option oi_ref) (hend : chain_ends w oi)
    (i j : Nat) (o : fid_t) (hi : chain_owner w i oi = some o)
    (hj : chain_owner w j oi = some o) : i = j := by
  by_contra hne
  rcases Nat.lt_or_gt_of_ne hne with hlt | hgt
  · obtain ⟨d, rfl⟩ : ∃ d, j = i + 1 + d := ⟨j - i - 1, by omega⟩
    exact chain_repeat_endless w i d oi o hi hj hend
  · obtain ⟨d, rfl⟩ : ∃ d, i = j + 1 + d := ⟨i - j - 1, by omega⟩
    exact chain_repeat_endless w j d oi o hj hi hend

/-- A chain that ends and whose owners are fibrils of `fibs` has at most as
many owners as `fibs` has fibrils. -/
theorem chain_length_le (w : World) (fibs : Finset fid_t) (oi : Option oi_ref)
    (hend : chain_ends w oi) (hin : ∀ k o, chain_owner w k oi = some o → o ∈ fibs) :
    ∃ n, n ≤ fibs.card ∧ chain_owner w n oi = none := by
  classical
  refine ⟨Nat.find hend, ?_, Nat.find_spec hend⟩
  have hsome : ∀ i, i < Nat.find hend → ∃ o, chain_owner w i oi = some o := by
    intro i hi
    have := Nat.find_min hend hi
    exact Option.ne_none_iff_exists'.mp this
  have hcard := Finset.card_le_card_of_injOn
    (fun i => (chain_owner w i oi).getD 0) (s := Finset.range (Nat.find hend)) (t := fibs)
    (by
      intro i hi
      obtain ⟨o, ho⟩ := hsome i (Finset.mem_range.mp hi)
      simp only [ho, Option.getD_some]
      exact hin i o ho)
    (by
      intro i hi j hj hij
      obtain ⟨o, ho⟩ := hsome i (Finset.mem_range.mp (Finset.mem_coe.mp hi))
      obtain ⟨o2, ho2⟩ := hsome j (Finset.mem_range.mp (Finset.mem_coe.mp hj))
      simp only [ho, ho2, Option.getD_some] at hij
      subst hij
      exact chain_distinct w oi hend i j o ho ho2)
  simpa using hcard

/-- A walk along a chain that ends after `n` links finishes within `n + 1`
tests of the loop condition, and enters the loop body at most `n` times. -/
theorem walk_finishes (w : World) (n : Nat) (oi : Option oi_ref) (fib : fid_t)
    (hn : chain_owner w n oi = none) (fuel : Nat) (hf : n < fuel) :
    (∃ b, check_fibril_for_deadlock w fuel oi fib = some b) ∧
    ∃ k, deadlock_walk_steps w fuel oi fib = some k ∧ k ≤ n := by
  induction n generalizing oi fuel with
  | zero =>
    obtain ⟨m, rfl⟩ : ∃ m, fuel = m + 1 := ⟨fuel - 1, by omega⟩
    cases oi with
    | none => exact ⟨⟨false, rfl⟩, 0, rfl, le_refl _⟩
    | some r =>
      simp only [chain_owner, Option.bind] at hn
      simp [check_fibril_for_deadlock, deadlock_walk_steps, hn]
  | succ n ih =>
    obtain ⟨m, rfl⟩ : ∃ m, fuel = m + 1 := ⟨fuel - 1, by omega⟩
    cases oi with
    | none => exact ⟨⟨false, rfl⟩, 0, rfl, Nat.zero_le _⟩
    | some r =>
      simp only [chain_owner, Option.bind] at hn
      cases ho : w.owned_by r with
      | none => simp [check_fibril_for_deadlock, deadlock_walk_steps, ho]
      | some o =>
        simp only [ho] at hn
        simp only [check_fibril_for_deadlock, deadlock_walk_steps, ho]
        by_cases heq : o = fib
        · simp [heq]
        · simp only [heq, if_false]
          obtain ⟨⟨b, hb⟩, k, hk, hle⟩ := ih _ hn m (by omega)
          exact ⟨⟨b, hb⟩, k + 1, by simp [hk], by omega⟩

/-- A walk that returns has not met the fibril anywhere on the chain. -/
theorem check_false_chain (w : World) (fuel : Nat) (oi : Option oi_ref) (fib : fid_t)
    (h : check_fibril_for_deadlock w fuel oi fib = some false) (k : Nat) :
    chain_owner w k oi ≠ some fib := by
  intro hk
  have h1 := chain_check_true w k oi fib hk (fuel + (k + 1)) (by omega)
  have h2 := check_fuel_mono w fuel oi fib false h (k + 1)
  rw [h1] at h2
  cases h2

/-- A running fibril has no record in the queue of a mutex. -/
theorem running_not_queued (w : World) (self : fid_t) (h : running w self) (fm : Nat)
    (a : awaiter_t) (ha : a ∈ (w.mutexes fm).waiters) : a.fid ≠ self := by
  have h0 := h (.mutex fm)
  simp only [records_of, World.queue, List.countP_eq_zero, decide_eq_true_eq] at h0
  exact h0 a ha

/-- Under the invariant of the wait graph a running fibril waits for nothing. -/
theorem running_idle (w : World) (fibs : Finset fid_t) (self : fid_t)
    (hinv : wait_graph_inv w fibs) (h : running w self) :
    (w.fibrils self).waits_for = none := by
  cases hw : (w.fibrils self).waits_for with
  | none => rfl
  | some r =>
    obtain ⟨fm, -, hm⟩ := hinv.2.1 self r hw
    exact absurd rfl (running_not_queued w self h fm _ hm)

/-- The invariant of the wait graph survives a change of the owner of one
mutex to nobody or to a fibril that waits for nothing. -/
theorem owner_change_graph_inv (w w1 : World) (fibs : Finset fid_t) (fm : Nat)
    (hinv : wait_graph_inv w fibs)
    (ha : ∀ i, mutex_inv (w1.mutexes i))
    (hq : ∀ i, (w1.mutexes i).waiters = (w.mutexes i).waiters)
    (hmo : ∀ i, i ≠ fm → (w1.mutexes i).owned_by = (w.mutexes i).owned_by)
    (hx : ∀ o, (w1.mutexes fm).owned_by = some o →
      (w.fibrils o).waits_for = none ∧ o ∈ fibs)
    (hfib : w1.fibrils = w.fibrils) (hrw : w1.rwlocks = w.rwlocks) :
    wait_graph_inv w1 fibs := by
  obtain ⟨-, hb, hc, hd, he, hf⟩ := hinv
  refine ⟨ha, ?_, ?_, ?_, ?_, ?_⟩
  · intro f r hr
    rw [hfib] at hr
    obtain ⟨i, hi, hm⟩ := hb f r hr
    exact ⟨i, hi, by rw [hq]; exact hm⟩
  · intro i a hai
    rw [hq] at hai
    rw [hfib]
    exact hc i a hai
  · intro i
    rw [hq]
    exact hd i
  · intro oi
    refine chain_ends_transfer w w1 ?_ oi (he oi)
    intro r o ho
    cases r with
    | mutex i =>
      simp only [World.owned_by] at ho
      by_cases hi : i = fm
      · subst hi
        left
        rw [hfib, (hx o ho).1]
        exact chain_ends_none w1
      · right
        rw [hmo i hi] at ho
        exact ⟨ho, by rw [hfib]⟩
    | rwlock i =>
      right
      simp only [World.owned_by, hrw] at ho
      exact ⟨ho, by rw [hfib]⟩
  · intro i o ho
    by_cases hi : i = fm
    · subst hi
      exact (hx o ho).2
    · rw [hmo i hi] at ho
      exact hf i o ho

/-- The invariant of the wait graph survives the blocking of a running fibril
on a mutex whose ownership chain does not meet that fibril. -/
theorem block_graph_inv (w w1 : World) (fibs : Finset fid_t) (fm : Nat) (self : fid_t)
    (hinv : wait_graph_inv w fibs) (hrun : running w self) (hin : self ∈ fibs)
    (hno : ∀ k, chain_owner w k (some (.mutex fm)) ≠ some self)
    (ha : ∀ i, mutex_inv (w1.mutexes i))
    (hmq : (w1.mutexes fm).waiters = (w.mutexes fm).waiters ++ [AWAITER_INIT self])
    (hmw : ∀ i, (w1.mutexes i).owned_by = (w.mutexes i).owned_by)
    (hmo : ∀ i, i ≠ fm → w1.mutexes i = w.mutexes i)
    (hfs : (w1.fibrils self).waits_for = some (.mutex fm))
    (hfo : ∀ g, g ≠ self → w1.fibrils g = w.fibrils g)
    (hrw : w1.rwlocks = w.rwlocks) :
    wait_graph_inv w1 fibs := by
  obtain ⟨-, hb, hc, hd, he, hf⟩ := hinv
  have hown : ∀ r, w1.owned_by r = w.owned_by r := by
    intro r
    cases r with
    | mutex i => exact hmw i
    | rwlock i => simp only [World.owned_by, hrw]
  have hwf : ∀ g, g ≠ self → (w1.fibrils g).waits_for = (w.fibrils g).waits_for := by
    intro g hg
    rw [hfo g hg]
  refine ⟨ha, ?_, ?_, ?_, ?_, ?_⟩
  · intro f r hr
    by_cases hfs2 : f = self
    · subst hfs2
      rw [hfs] at hr
      cases hr
      exact ⟨fm, rfl, by rw [hmq]; simp⟩
    · rw [hwf f hfs2] at hr
      obtain ⟨i, hi, hm⟩ := hb f r hr
      refine ⟨i, hi, ?_⟩
      by_cases hif : i = fm
      · subst hif
        rw [hmq]
        exact List.mem_append_left _ hm
      · rw [hmo i hif]
        exact hm
  · intro i a hai
    by_cases hif : i = fm
    · subst hif
      rw [hmq] at hai
      rcases List.mem_append.mp hai with hold | hnew
      · have hne := running_not_queued w self hrun i a hold
        rw [hwf a.fid hne]
        exact hc i a hold
      · rw [List.mem_singleton] at hnew
        subst hnew
        exact ⟨rfl, hfs, hin⟩
    · rw [hmo i hif] at hai
      have hne := running_not_queued w self hrun i a hai
      rw [hwf a.fid hne]
      exact hc i a hai
  · intro i
    by_cases hif : i = fm
    · subst hif
      rw [hmq]
      refine List.Nodup.append (hd i) (List.nodup_singleton _) ?_
      intro a h1 h2
      rw [List.mem_singleton] at h2
      subst h2
      exact running_not_queued w self hrun i _ h1 rfl
    · rw [hmo i hif]
      exact hd i
  · have hfm : chain_ends w1 (some (.mutex fm)) := by
      obtain ⟨n, hn⟩ := he (some (.mutex fm))
      exact ⟨n, by rw [chain_owner_congr_off w w1 self hown hwf n _ hno]; exact hn⟩
    intro oi
    refine chain_ends_transfer w w1 ?_ oi (he oi)
    intro r o ho
    by_cases hos : o = self
    · subst hos
      left
      rw [hfs]
      exact hfm
    · right
      rw [hown r] at ho
      exact ⟨ho, hwf o hos⟩
  · intro i o ho
    rw [hmw i] at ho
    exact hf i o ho

/-- The invariant of the wait graph survives the hand-over of a mutex to its
oldest waiter. -/
theorem handoff_graph_inv (w w1 : World) (fibs : Finset fid_t) (fm : Nat) (wdp : awaiter_t)
    (rest : List awaiter_t) (hinv : wait_graph_inv w fibs)
    (hq : (w.mutexes fm).waiters = wdp :: rest)
    (ha : ∀ i, mutex_inv (w1.mutexes i))
    (hmw : (w1.mutexes fm).owned_by = some wdp.fid)
    (hmq : (w1.mutexes fm).waiters = rest)
    (hmo : ∀ i, i ≠ fm → w1.mutexes i = w.mutexes i)
    (hfs : (w1.fibrils wdp.fid).waits_for = none)
    (hfo : ∀ g, g ≠ wdp.fid → w1.fibrils g = w.fibrils g)
    (hrw : w1.rwlocks = w.rwlocks) :
    wait_graph_inv w1 fibs := by
  obtain ⟨-, hb, hc, hd, he, hf⟩ := hinv
  have hwf : ∀ g, g ≠ wdp.fid → (w1.fibrils g).waits_for = (w.fibrils g).waits_for := by
    intro g hg
    rw [hfo g hg]
  have hhead := hc fm wdp (by rw [hq]; exact List.mem_cons_self _ _)
  have hnd := hd fm
  rw [hq] at hnd
  have hrest : ∀ a, a ∈ rest → a.fid ≠ wdp.fid := by
    intro a har hfid
    have hain := hc fm a (by rw [hq]; exact List.mem_cons_of_mem _ har)
    have : a = wdp := by rw [hain.1, hhead.1, hfid]
    rw [this] at har
    exact (List.nodup_cons.mp hnd).1 har
  refine ⟨ha, ?_, ?_, ?_, ?_, ?_⟩
  · intro f r hr
    have hfne : f ≠ wdp.fid := by
      intro he2
      rw [he2, hfs] at hr
      cases hr
    rw [hwf f hfne] at hr
    obtain ⟨i, hi, hm⟩ := hb f r hr
    refine ⟨i, hi, ?_⟩
    by_cases hif : i = fm
    · subst hif
      rw [hmq]
      rw [hq] at hm
      rcases List.mem_cons.mp hm with h1 | h1
      · exfalso
        apply hfne
        rw [← h1]
        rfl
      · exact h1
    · rw [hmo i hif]
      exact hm
  · intro i a hai
    by_cases hif : i = fm
    · subst hif
      rw [hmq] at hai
      rw [hwf a.fid (hrest a hai)]
      exact hc i a (by rw [hq]; exact List.mem_cons_of_mem _ hai)
    · rw [hmo i hif] at hai
      have hold := hc i a hai
      have hne : a.fid ≠ wdp.fid := by
        intro he2
        rw [he2, hhead.2.1] at hold
        have := hold.2.1
        simp only [Option.some.injEq, oi_ref.mutex.injEq] at this
        exact hif this.symm
      rw [hwf a.fid hne]
      exact hold
  · intro i
    by_cases hif : i = fm
    · subst hif
      rw [hmq]
      exact (List.nodup_cons.mp hnd).2
    · rw [hmo i hif]
      exact hd i
  · intro oi
    refine chain_ends_transfer w w1 ?_ oi (he oi)
    intro r o ho
    by_cases hoh : o = wdp.fid
    · subst hoh
      left
      rw [hfs]
      exact chain_ends_none w1
    · right
      refine ⟨?_, hwf o hoh⟩
      cases r with
      | mutex i =>
        simp only [World.owned_by] at ho ⊢
        by_cases hif : i = fm
        · subst hif
          rw [hmw] at ho
          simp only [Option.some.injEq] at ho
          exact absurd ho.symm hoh
        · rw [hmo i hif] at ho
          exact ho
      | rwlock i =>
        simp only [World.owned_by, hrw] at ho
        exact ho
  · intro i o ho
    by_cases hif : i = fm
    · subst hif
      rw [hmw] at ho
      simp only [Option.some.injEq] at ho
      rw [← ho]
      exact hhead.2.2
    · rw [hmo i hif] at ho
      exact hf i o ho

/-- One mutex call by a running fibril of `fibs` keeps the invariant of the
wait graph, and an owner that the call installs waits for nothing. -/
theorem mutex_call_graph_inv (w w1 : World) (fibs : Finset fid_t) (caller : fid_t)
    (op : sync_op) (hinv : wait_graph_inv w fibs) (hop : op.is_mutex_call = true)
    (hrun : running w caller) (hin : caller ∈ fibs)
    (h : sync_op.apply w caller op = some w1) :
    wait_graph_inv w1 fibs ∧
    ∀ fm o, (w1.mutexes fm).owned_by = some o → (w.mutexes fm).owned_by ≠ some o →
      (w1.fibrils o).waits_for = none := by
  have ha : ∀ i, mutex_inv (w1.mutexes i) :=
    fun i => sync_apply_mutex_inv w w1 caller op i h (hinv.1 i)
  have hidle := running_idle w fibs caller hinv hrun
  have acquire : ∀ fm, w1 = w.setMutex fm
        { (w.mutexes fm) with counter := (w.mutexes fm).counter - 1,
                              owned_by := some caller } →
      wait_graph_inv w1 fibs ∧
      ∀ i o, (w1.mutexes i).owned_by = some o → (w.mutexes i).owned_by ≠ some o →
        (w1.fibrils o).waits_for = none := by
    intro fm hw
    subst hw
    refine ⟨owner_change_graph_inv w _ fibs fm hinv ha ?_ ?_ ?_ rfl rfl, ?_⟩
    · intro i
      simp only [setMutex_mutexes]
      split
      · rename_i hi
        rw [hi]
      · rfl
    · intro i hi
      simp only [setMutex_mutexes, hi, if_false]
    · intro o ho
      simp only [setMutex_mutexes, if_true, Option.some.injEq] at ho
      subst ho
      exact ⟨hidle, hin⟩
    · intro i o ho hne
      by_cases hi : i = fm
      · subst hi
        simp only [setMutex_mutexes, if_true, Option.some.injEq] at ho
        subst ho
        simpa using hidle
      · simp only [setMutex_mutexes, hi, if_false] at ho
        exact absurd ho hne
  cases op with
  | mutex_lock fuel fm =>
    by_cases hc : (w.mutexes fm).counter > 0
    · apply acquire fm
      simp only [sync_op.apply, fibril_mutex_lock, hc, if_true, Option.bind, Outcome.world,
        Option.some.injEq] at h
      exact h.symm
    · cases hck : check_fibril_for_deadlock w fuel (some (.mutex fm)) caller with
      | none =>
        exfalso
        simp only [sync_op.apply, fibril_mutex_lock, hc, if_false, check_for_deadlock] at h
        rw [check_setMutex, hck] at h
        simp at h
      | some b =>
        cases b with
        | true =>
          exfalso
          simp only [sync_op.apply, lock_aborts fuel w fm caller hc hck, Option.bind,
            Outcome.world] at h
          cases h
        | false =>
          obtain ⟨w2, h2, p1, p2, p3, -, p5, -, p7, -⟩ := lock_blocks fuel w fm caller hc hck
          simp only [sync_op.apply, h2, Option.bind, Outcome.world, Option.some.injEq] at h
          subst h
          have hmw : ∀ i, (w2.mutexes i).owned_by = (w.mutexes i).owned_by := by
            intro i
            by_cases hi : i = fm
            · subst hi
              rw [p1]
            · rw [p2 i hi]
          refine ⟨block_graph_inv w w2 fibs fm caller hinv hrun hin
            (check_false_chain w fuel _ caller hck) ha (by rw [p1]) hmw p2 p3 p5 p7, ?_⟩
          intro i o ho hne
          rw [hmw i] at ho
          exact absurd ho hne
  | mutex_trylock fm =>
    by_cases hc : (w.mutexes fm).counter > 0
    · apply acquire fm
      simp only [sync_op.apply, fibril_mutex_trylock, hc, if_true, Outcome.world,
        Option.some.injEq] at h
      exact h.symm
    · simp only [sync_op.apply, fibril_mutex_trylock, hc, if_false, Outcome.world,
        Option.some.injEq] at h
      subst h
      exact ⟨hinv, fun i o ho hne => absurd ho hne⟩
  | mutex_unlock fm =>
    by_cases hown : (w.mutexes fm).owned_by = some caller
    · have hu := unlock_unsafe_spec w fm caller (hinv.1 fm) hown
      cases hq : (w.mutexes fm).waiters with
      | nil =>
        simp only [sync_op.apply, fibril_mutex_unlock, hu, Outcome.world, Option.some.injEq,
          spec_mutex_release, hq] at h
        subst h
        refine ⟨owner_change_graph_inv w _ fibs fm hinv ha ?_ ?_ ?_ rfl rfl, ?_⟩
        · intro i
          simp only [setMutex_mutexes]
          split
          · rename_i hi
            rw [hi, hq]
          · rfl
        · intro i hi
          simp only [setMutex_mutexes, hi, if_false]
        · intro o ho
          simp only [setMutex_mutexes, if_true] at ho
          cases ho
        · intro i o ho hne
          by_cases hi : i = fm
          · subst hi
            simp only [setMutex_mutexes, if_true] at ho
            cases ho
          · simp only [setMutex_mutexes, hi, if_false] at ho
            exact absurd ho hne
      | cons wdp rest =>
        obtain ⟨w2, h2, q1, q2, q3, -, q5, -, q7, -⟩ :=
          unlock_handoff w fm caller wdp rest (hinv.1 fm) hq hown
        simp only [sync_op.apply, h2, Outcome.world, Option.some.injEq] at h
        subst h
        refine ⟨handoff_graph_inv w w2 fibs fm wdp rest hinv hq ha (by rw [q1]) (by rw [q1])
          q2 q3 q5 q7, ?_⟩
        intro i o ho hne
        by_cases hi : i = fm
        · subst hi
          rw [q1] at ho
          simp only [Option.some.injEq] at ho
          rw [← ho]
          exact q3
        · rw [q2 i hi] at ho
          exact absurd ho hne
    · exfalso
      simp [sync_op.apply, fibril_mutex_unlock, _fibril_mutex_unlock_unsafe, hown,
        Outcome.world] at h
  | _ => simp [sync_op.is_mutex_call] at hop

/-- A run of mutex calls, each made by a running fibril of `fibs`, keeps the
invariant of the wait graph. -/
theorem mutex_run_graph_inv (fibs : Finset fid_t) (ops : List (fid_t × sync_op))
    (w w1 : World) (hinv : wait_graph_inv w fibs)
    (hops : ∀ p, p ∈ ops → p.2.is_mutex_call = true ∧ p.1 ∈ fibs)
    (hrun : issued_by_running w ops) (h : sync_run w ops = some w1) :
    wait_graph_inv w1 fibs := by
  induction ops generalizing w with
  | nil =>
    simp only [sync_run] at h
    cases h
    exact hinv
  | cons p ops ih =>
    obtain ⟨caller, op⟩ := p
    simp only [sync_run] at h
    simp only [issued_by_running] at hrun
    obtain ⟨hr1, hr2⟩ := hrun
    cases hop : sync_op.apply w caller op with
    | none => simp [hop] at h
    | some w2 =>
      simp only [hop, Option.bind] at h
      simp only [hop] at hr2
      have hp := hops (caller, op) (List.mem_cons_self _ _)
      exact ih w2 (mutex_call_graph_inv w w2 fibs caller op hinv hp.1 hr1 hp.2 hop).1
        (fun q hq => hops q (List.mem_cons_of_mem _ hq)) hr2 h

/-- The invariant of the wait graph holds in a memory in which every mutex is
initialized and no fibril waits. -/
theorem graph_inv_at_init (w0 : World) (fibs : Finset fid_t)
    (hinit : ∀ fm, ( fibril_mutex_initialize w0 fm).mutexes fm = w0.mutexes fm)
    (hidle : ∀ f, (w0.fibrils f).waits_for = none) : wait_graph_inv w0 fibs := by
  have hm : ∀ fm, w0.mutexes fm = { owned_by := none, counter := 1, waiters := [] } := by
    intro fm
    rw [← hinit fm]
    simp [ fibril_mutex_initialize]
  refine ⟨?_, ?_, ?_, ?_, ?_, ?_⟩
  · intro fm
    rw [hm fm]
    decide
  · intro f r hr
    rw [hidle f] at hr
    cases hr
  · intro fm a ha
    rw [hm fm] at ha
    cases ha
  · intro fm
    rw [hm fm]
    exact List.nodup_nil
  · intro oi
    cases oi with
    | none => exact chain_ends_none w0
    | some r =>
      cases ho : w0.owned_by r with
      | none => exact chain_ends_free w0 r ho
      | some o =>
        refine chain_ends_step w0 r o ho ?_
        rw [hidle o]
        exact chain_ends_none w0
  · intro fm o ho
    rw [hm fm] at ho
    cases ho

/-- Under the invariant of the wait graph every owner on the chain of a mutex
is a fibril of `fibs`. -/
theorem chain_owner_mem (w : World) (fibs : Finset fid_t) (hinv : wait_graph_inv w fibs)
    (k : Nat) (oi : Option oi_ref) (hoi : ∀ r, oi = some r → ∃ fm, r = .mutex fm)
    (o : fid_t) (h : chain_owner w k oi = some o) : o ∈ fibs := by
  induction k generalizing oi with
  | zero =>
    cases oi with
    | none => simp [chain_owner] at h
    | some r =>
      obtain ⟨fm, rfl⟩ := hoi r rfl
      simp only [chain_owner, Option.bind, World.owned_by] at h
      exact hinv.2.2.2.2.2 fm o h
  | succ k ih =>
    cases oi with
    | none => simp [chain_owner] at h
    | some r =>
      simp only [chain_owner, Option.bind] at h
      cases ho : w.owned_by r with
      | none => simp [ho] at h
      | some o1 =>
        simp only [ho] at h
        refine ih _ ?_ h
        intro r2 hr2
        obtain ⟨fm, hfm, -⟩ := hinv.2.1 o1 r2 hr2
        exact ⟨fm, hfm⟩

/-- The invariant of the wait graph holds over every larger set of fibrils. -/
theorem graph_inv_mono (w : World) (fibs fibs1 : Finset fid_t) (hsub : fibs ⊆ fibs1)
    (hinv : wait_graph_inv w fibs) : wait_graph_inv w fibs1 := by
  obtain ⟨ha, hb, hc, hd, he, hf⟩ := hinv
  refine ⟨ha, hb, ?_, hd, he, ?_⟩
  · intro fm a hm
    obtain ⟨h1, h2, h3⟩ := hc fm a hm
    exact ⟨h1, h2, hsub h3⟩
  · intro fm o ho
    exact hsub (hf fm o ho)

/-- A list without repetition whose members all equal `x` and which holds `x`
is the list `[x]`. -/
theorem nodup_all_eq (x : awaiter_t) (l : List awaiter_t) (hnd : l.Nodup)
    (hall : ∀ a, a ∈ l → a = x) (hx : x ∈ l) : l = [x] := by
  cases l with
  | nil => cases hx
  | cons a t =>
    have hax : a = x := hall a (List.mem_cons_self _ _)
    subst hax
    cases t with
    | nil => rfl
    | cons b t2 =>
      exfalso
      have hb : b = a := hall b (List.mem_cons_of_mem _ (List.mem_cons_self _ _))
      subst hb
      exact (List.nodup_cons.mp hnd).1 (List.mem_cons_self _ _)

/-- Under the invariant of the wait graph a fibril that waits for a mutex has
exactly one wait record, in the queue of that mutex. -/
theorem waiter_queued_once (w : World) (fibs : Finset fid_t) (hinv : wait_graph_inv w fibs)
    (f : fid_t) (r : oi_ref) (hr : (w.fibrils f).waits_for = some r) :
    ∃ fm, r = .mutex fm ∧ mine f (w.mutexes fm).waiters = [AWAITER_INIT f] ∧
      ∀ i, i ≠ fm → mine f (w.mutexes i).waiters = [] := by
  obtain ⟨-, hb, hc, hd, -, -⟩ := hinv
  obtain ⟨fm, hfm, hm⟩ := hb f r hr
  refine ⟨fm, hfm, ?_, ?_⟩
  · refine nodup_all_eq _ _ ((hd fm).filter _) ?_ ((mem_mine _ _ _).mpr ⟨hm, rfl⟩)
    intro a ha
    obtain ⟨h1, h2⟩ := (mem_mine _ _ _).mp ha
    rw [(hc fm a h1).1, h2]
  · intro i hi
    simp only [mine, List.filter_eq_nil_iff, decide_eq_true_eq]
    intro a ha hfa
    have h2 := (hc i a ha).2.1
    rw [hfa, hr, hfm] at h2
    simp only [Option.some.injEq, oi_ref.mutex.injEq] at h2
    exact hi h2.symm

/-- C21: in every state reached from a memory in which every mutex is
initialized and no fibril waits, by `fibril_mutex_lock`, `fibril_mutex_trylock`
and `fibril_mutex_unlock` calls that the process survives, each made by a
running fibril, the graph of `owned_by` and `waits_for` has no cycle (no fibril
is on the ownership chain that starts at what it waits for, and no owner
occurs twice on a chain); a fibril with a non-null `waits_for` has exactly one
wait record, in the queue of that mutex; an owner installed by a further call
waits for nothing; and the walk of `check_fibril_for_deadlock` from any mutex
finishes after entering its loop body at most as many times as there are
fibrils, so that `fibril_mutex_lock` with that much fuel and one more gives a
result. -/
theorem C21_wait_graph_acyclic (w0 : World) (ops : List (fid_t × sync_op)) (w : World)
    (fibs : Finset fid_t)
    (hinit : ∀ fm, ( fibril_mutex_initialize w0 fm).mutexes fm = w0.mutexes fm)
    (hidle : ∀ f, (w0.fibrils f).waits_for = none)
    (hops : ∀ p, p ∈ ops → p.2.is_mutex_call = true ∧ p.1 ∈ fibs)
    (hrun : issued_by_running w0 ops)
    (h : sync_run w0 ops = some w) :
    (∀ f k, chain_owner w k (w.fibrils f).waits_for ≠ some f) ∧
    (∀ fm i j o, chain_owner w i (some (.mutex fm)) = some o →
      chain_owner w j (some (.mutex fm)) = some o → i = j) ∧
    (∀ f r, (w.fibrils f).waits_for = some r →
      ∃ fm, r = .mutex fm ∧ mine f (w.mutexes fm).waiters = [AWAITER_INIT f] ∧
        ∀ i, i ≠ fm → mine f (w.mutexes i).waiters = []) ∧
    (∀ caller op w1, op.is_mutex_call = true → running w caller →
      sync_op.apply w caller op = some w1 →
      ∀ fm o, (w1.mutexes fm).owned_by = some o → (w.mutexes fm).owned_by ≠ some o →
        (w1.fibrils o).waits_for = none) ∧
    (∀ fm fib, ∃ b k,
      check_fibril_for_deadlock w (fibs.card + 1) (some (.mutex fm)) fib = some b ∧
      deadlock_walk_steps w (fibs.card + 1) (some (.mutex fm)) fib = some k ∧
      k ≤ fibs.card) ∧
    (∀ fuel fm self, fibs.card + 1 ≤ fuel →
      ∃ o, fibril_mutex_lock fuel w fm self = some o) := by
  have hinv : wait_graph_inv w fibs :=
    mutex_run_graph_inv fibs ops w0 w (graph_inv_at_init w0 fibs hinit hidle) hops hrun h
  have hwalk : ∀ fm fib, ∃ b k,
      check_fibril_for_deadlock w (fibs.card + 1) (some (.mutex fm)) fib = some b ∧
      deadlock_walk_steps w (fibs.card + 1) (some (.mutex fm)) fib = some k ∧
      k ≤ fibs.card := by
    intro fm fib
    obtain ⟨n, hn, hend⟩ := chain_length_le w fibs (some (.mutex fm))
      (hinv.2.2.2.2.1 _)
      (fun k o hk => chain_owner_mem w fibs hinv k _
        (fun r hr => ⟨fm, by cases hr; rfl⟩) o hk)
    obtain ⟨⟨b, hb⟩, k, hk, hle⟩ := walk_finishes w n _ fib hend (fibs.card + 1) (by omega)
    exact ⟨b, k, hb, hk, by omega⟩
  refine ⟨?_, ?_, ?_, ?_, hwalk, ?_⟩
  · intro f k hk
    have h2 : chain_owner w (k + 1 + k) (w.fibrils f).waits_for = some f := by
      rw [chain_owner_shift, hk]
      exact hk
    exact chain_repeat_endless w k k _ f hk h2 (hinv.2.2.2.2.1 _)
  · intro fm i j o hi hj
    exact chain_distinct w _ (hinv.2.2.2.2.1 _) i j o hi hj
  · intro f r hr
    exact waiter_queued_once w fibs hinv f r hr
  · intro caller op w1 hop hrc hap
    exact (mutex_call_graph_inv w w1 (insert caller fibs) caller op
      (graph_inv_mono w fibs _ (Finset.subset_insert _ _) hinv) hop hrc
      (Finset.mem_insert_self _ _) hap).2
  · intro fuel fm self hfuel
    by_cases hc : (w.mutexes fm).counter > 0
    · simp only [fibril_mutex_lock, hc, if_true]
      exact ⟨_, rfl⟩
    · obtain ⟨b, -, hb, -, -⟩ := hwalk fm self
      have hb2 := check_fuel_mono w _ _ self b hb (fuel - (fibs.card + 1))
      have hfe : fibs.card + 1 + (fuel - (fibs.card + 1)) = fuel := by omega
      rw [hfe] at hb2
      simp only [fibril_mutex_lock, hc, if_false, check_for_deadlock]
      rw [check_setMutex, hb2]
      cases b
      · exact ⟨_, rfl⟩
      · exact ⟨_, rfl⟩

/-- C21 at a concrete run: fibril 1 locks mutex 0, fibril 2 locks mutex 1, and
fibril 1 blocks on mutex 1; the chain of mutex 0 then has the two owners 1
and 2. -/
theorem C21_wait_graph_acyclic_witness :
    ∃ w, sync_run World.boot
        [(1, sync_op.mutex_lock 3 0), (2, sync_op.mutex_lock 3 1),
          (1, sync_op.mutex_lock 3 1)] = some w ∧
      issued_by_running World.boot
        [(1, sync_op.mutex_lock 3 0), (2, sync_op.mutex_lock 3 1),
          (1, sync_op.mutex_lock 3 1)] ∧
      (w.fibrils 1).waits_for = some (.mutex 1) ∧
      deadlock_walk_steps w 3 (some (.mutex 0)) 9 = some 2 ∧
      ∀ fm fib, ∃ b k,
        check_fibril_for_deadlock w (({1, 2} : Finset fid_t).card + 1) (some (.mutex fm))
          fib = some b ∧
        deadlock_walk_steps w (({1, 2} : Finset fid_t).card + 1) (some (.mutex fm)) fib =
          some k ∧
        k ≤ ({1, 2} : Finset fid_t).card := by
  have hrun : issued_by_running World.boot
      [(1, sync_op.mutex_lock 3 0), (2, sync_op.mutex_lock 3 1),
        (1, sync_op.mutex_lock 3 1)] := by
    change running _ 1 ∧ running _ 2 ∧ running _ 1 ∧ True
    refine ⟨?_, ?_, ?_, trivial⟩
    · intro q
      cases q <;> simp [World.queue, World.boot, records_of]
    · intro q
      cases q <;> simp [World.queue, World.boot, records_of]
      split_ifs <;> simp
    · intro q
      cases q <;> simp [World.queue, World.boot, records_of]
      split_ifs <;> simp
  exact ⟨_, rfl, hrun, rfl, rfl,
    (C21_wait_graph_acyclic World.boot
      [(1, sync_op.mutex_lock 3 0), (2, sync_op.mutex_lock 3 1),
        (1, sync_op.mutex_lock 3 1)] _ {1, 2}
      (fun fm => by simp [World.boot, fibril_mutex_initialize])
      (fun f => rfl)
      (fun p hp => by
        simp only [List.mem_cons, List.mem_singleton, List.not_mem_nil, or_false] at hp
        rcases hp with rfl | rfl | rfl <;> exact ⟨rfl, by decide⟩)
      hrun rfl).2.2.2.2.1⟩


/-! ### The timer fibril takes the lock again -/

/-- A `fibril_mutex_lock` call leaves the timers alone. -/
theorem lock_timers (fuel : Nat) (w w1 : World) (fm : Nat) (o : fid_t)
    (h : (fibril_mutex_lock fuel w fm o).bind Outcome.world = some w1) :
    w1.timers = w.timers := by
  simp only [fibril_mutex_lock] at h
  split at h
  · simp only [Option.bind, Outcome.world] at h
    cases h; rfl
  · split at h
    · cases h
    · cases h
    · simp only [Option.bind, Outcome.world] at h
      cases h; rfl

/-- A `fibril_mutex_trylock` call leaves the timers alone. -/
theorem trylock_timers (w w1 : World) (fm : Nat) (o : fid_t)
    (h : (fibril_mutex_trylock w fm o).world = some w1) : w1.timers = w.timers := by
  simp only [fibril_mutex_trylock] at h
  split at h
  · simp only [Outcome.world] at h
    cases h; rfl
  · simp only [Outcome.world] at h
    cases h; rfl

/-- A rwlock lock call leaves the timers alone. -/
theorem rwlock_lock_timers (w w1 : World) (frw : Nat) (o : fid_t) (fuel : Nat) :
    ((fibril_rwlock_read_lock fuel w frw o).bind Outcome.world = some w1 →
      w1.timers = w.timers) ∧
    ((fibril_rwlock_write_lock fuel w frw o).bind Outcome.world = some w1 →
      w1.timers = w.timers) := by
  constructor
  · intro h
    simp only [fibril_rwlock_read_lock] at h
    split at h
    · simp only [Option.bind, Outcome.world] at h
      cases h; rfl
    · split at h
      · cases h
      · cases h
      · simp only [Option.bind, Outcome.world] at h
        cases h; rfl
  · intro h
    simp only [fibril_rwlock_write_lock] at h
    split at h
    · simp only [Option.bind, Outcome.world] at h
      cases h; rfl
    · split at h
      · cases h
      · cases h
      · simp only [Option.bind, Outcome.world] at h
        cases h; rfl

/-- The grant loop of the rwlock leaves the timers alone. -/
theorem grant_loop_timers (frw : Nat) (l : List awaiter_t) (w : World) :
    (rwlock_grant_loop frw l w).timers = w.timers := by
  induction l generalizing w with
  | nil => rfl
  | cons wdp rest ih =>
    rw [grant_loop_cons]
    split_ifs
    · rfl
    · rfl
    · rw [ih]
      rfl

/-- The common unlock path of the rwlock leaves the timers alone. -/
theorem common_unlock_timers (w w1 : World) (frw : Nat) (o : fid_t)
    (h : _fibril_rwlock_common_unlock w frw o = some w1) : w1.timers = w.timers := by
  have free : ∀ (v : fibril_rwlock_t) (w2 : World),
      rwlock_unlock_free (w.setRwlock frw v) frw = some w2 → w2.timers = w.timers := by
    intro v w2 hf
    simp only [rwlock_unlock_free] at hf
    split at hf
    · cases hf
      rw [grant_loop_timers]
      rfl
    · cases hf
  simp only [_fibril_rwlock_common_unlock] at h
  split at h
  · split at h
    · split at h
      · cases h; rfl
      · cases h; rfl
    · exact free _ w1 h
  · exact free _ w1 h

/-- No call on a mutex, rwlock, condition variable or semaphore writes a
timer. -/
theorem sync_apply_timers (w w1 : World) (caller : fid_t) (op : sync_op)
    (h : sync_op.apply w caller op = some w1) : w1.timers = w.timers := by
  cases op with
  | mutex_lock fuel fm => exact lock_timers fuel w w1 fm caller h
  | mutex_trylock fm => exact trylock_timers w w1 fm caller h
  | mutex_unlock fm => exact unlock_timers w w1 fm caller h
  | rwlock_read_lock fuel frw => exact (rwlock_lock_timers w w1 frw caller fuel).1 h
  | rwlock_write_lock fuel frw => exact (rwlock_lock_timers w w1 frw caller fuel).2 h
  | rwlock_read_unlock frw =>
    exact common_unlock_timers w w1 frw caller ((rwlock_unlock_world w w1 frw caller).1 h)
  | rwlock_write_unlock frw =>
    exact common_unlock_timers w w1 frw caller ((rwlock_unlock_world w w1 frw caller).2 h)
  | condvar_wait fcv fm timeout => exact wait_timers w w1 fcv fm timeout caller h
  | condvar_resume fuel fcv fm =>
    simp only [sync_op.apply, fibril_condvar_wait_timeout_resume] at h
    split at h
    · cases h
    · rename_i r hl
      simp only [Option.bind] at h
      have := lock_timers fuel _ w1 fm caller (by rw [hl]; exact h)
      rw [this]
      rfl
  | condvar_signal fcv =>
    simp only [sync_op.apply, Option.some.injEq] at h
    subst h
    simp only [fibril_condvar_signal]
    split <;> rfl
  | condvar_broadcast fcv =>
    simp only [sync_op.apply, Option.some.injEq] at h
    subst h
    exact (broadcast_spec w fcv).2.2.2.2.2.2.2
  | semaphore_up sem =>
    simp only [sync_op.apply, fibril_semaphore_up] at h
    split at h
    · split at h
      · cases h
      · simp only [Outcome.world] at h
        cases h; rfl
    · simp only [Outcome.world] at h
      cases h; rfl
  | semaphore_down sem =>
    simp only [sync_op.apply, fibril_semaphore_down] at h
    split at h
    · simp only [Outcome.world] at h
      cases h; rfl
    · simp only [Outcome.world] at h
      cases h; rfl

/-- No run of calls on mutexes, rwlocks, condition variables and semaphores
writes a timer. -/
theorem sync_run_timers (ops : List (fid_t × sync_op)) (w w1 : World)
    (h : sync_run w ops = some w1) : w1.timers = w.timers := by
  induction ops generalizing w with
  | nil =>
    simp only [sync_run] at h
    cases h
    rfl
  | cons p ops ih =>
    obtain ⟨caller, op⟩ := p
    simp only [sync_run] at h
    cases hop : sync_op.apply w caller op with
    | none => simp [hop] at h
    | some w2 =>
      simp only [hop, Option.bind] at h
      rw [ih w2 h, sync_apply_timers w w2 caller op hop]

/-- No call by a user of a timer writes `handler_fid`. -/
theorem timer_user_op_handler_fid (w w1 : World) (op : timer_op) (t : Nat)
    (hu : op.is_user_call = true) (h : timer_op.apply w op = some w1) :
    (w1.timers t).handler_fid = (w.timers t).handler_fid := by
  have key : ∀ (t0 : Nat) (v : fibril_timer_t), w1.timers = (w.setTimer t0 v).timers →
      v.handler_fid = (w.timers t0).handler_fid →
      (w1.timers t).handler_fid = (w.timers t).handler_fid := by
    intro t0 v hw hv
    rw [hw]
    by_cases ht : t = t0
    · subst ht
      simp [hv]
    · simp [ht]
  have same : w1.timers = w.timers →
      (w1.timers t).handler_fid = (w.timers t).handler_fid := by
    intro hw
    rw [hw]
  cases op with
  | set_locked t0 delay func arg self =>
    simp only [timer_op.apply, fibril_timer_set_locked] at h
    split at h
    · split at h
      · simp only [Outcome.world] at h
        cases h
        exact key t0 _ (broadcast_spec _ _).2.2.2.2.2.2.2 rfl
      · cases h
    · cases h
  | clear_locked t0 self =>
    simp only [timer_op.apply, fibril_timer_clear_locked, fibril_timer_clear_locked_loop] at h
    split at h
    · split at h
      · split at h
        · cases h
        · simp only [timer_clear.world] at h
          exact same (wait_timers _ _ _ _ _ _ h)
      · rename_i hn
        simp only [timer_clear.world] at h
        cases h
        exact key t0 _ (broadcast_spec _ _).2.2.2.2.2.2.2 rfl
    · cases h
  | clear_locked_loop t0 self =>
    simp only [timer_op.apply, fibril_timer_clear_locked_loop] at h
    split at h
    · split at h
      · cases h
      · simp only [timer_clear.world] at h
        exact same (wait_timers _ _ _ _ _ _ h)
    · simp only [timer_clear.world] at h
      cases h
      exact key t0 _ (broadcast_spec _ _).2.2.2.2.2.2.2 rfl
  | destroy_request t0 =>
    simp only [timer_op.apply, fibril_timer_destroy_request] at h
    split at h
    · cases h
      exact key t0 _ (broadcast_spec _ _).2.2.2.2.2.2.2 rfl
    · cases h
  | _ => simp [timer_op.is_user_call] at hu

/-- C19: in one pass of the timer fibril through its `case fts_active` arm, the
timer moves to `fts_fired` and the handler is called exactly when the wait
returned `ETIMEOUT` and the state is still `fts_active`; then `handler_fid` is
set to the timer fibril before the lock is released for the handler and reset
to 0 once the lock is held again; otherwise state and `handler_fid` stay and
the handler is not called.  No segment of the timer code enters `fts_fired`
from a state other than `fts_active`.  After the handler the timer fibril
calls `fibril_mutex_lock`: on a free lock the call returns at once with the
fibril as owner; on a held lock whose ownership chain does not meet the
fibril it suspends the fibril at the tail of the queue, and after any run of
calls by other fibrils the timer record is the one the handler left, and from
the moment the fibril is notified it owns the lock; when the chain meets the
fibril the process is aborted.  In each case the reset of `handler_fid`
changes nothing else, and no call by a user of the timer writes
`handler_fid`. -/
theorem C19_timer_fire (w : World) (t : Nat) (rc : errno_t) (self : fid_t)
    (hlock : (w.mutexes (w.timers t).lockp).owned_by = some self)
    (hinv : mutex_inv (w.mutexes (w.timers t).lockp)) :
    ((fibril_timer_func_after_wait w t rc self).isHandler = true ↔
      (rc = .ETIMEOUT ∧ (w.timers t).state = .fts_active)) ∧
    ((w.timers t).state = .fts_active →
      fibril_timer_func_loop w t self =
        .wait true (w.timers t).delay
          (fibril_condvar_wait_timeout w (w.timers t).cv (w.timers t).lockp
            (w.timers t).delay self)) ∧
    (rc = .ETIMEOUT → (w.timers t).state = .fts_active →
      ∃ w2, fibril_timer_func_after_wait w t rc self =
          .handler (w.timers t).func (w.timers t).arg w2 ∧
        fibril_mutex_unlock
          (w.setTimer t { (w.timers t) with state := .fts_fired, handler_fid := some self })
          (w.timers t).lockp self = .returned () w2 ∧
        w2.timers t = { (w.timers t) with state := .fts_fired, handler_fid := some self } ∧
        w2.mutexes = (spec_mutex_release w (w.timers t).lockp).mutexes) ∧
    (¬ (rc = .ETIMEOUT ∧ (w.timers t).state = .fts_active) →
      fibril_timer_func_after_wait w t rc self = .skipped w) ∧
    (∀ fuel wh wl, fibril_timer_func_after_handler fuel wh t self = some (.returned () wl) →
      (wl.mutexes (wh.timers t).lockp).owned_by = some self ∧
      (fibril_timer_func_handler_done wl t).timers t =
        { (wh.timers t) with handler_fid := none }) ∧
    (∀ op w1 t1, timer_op.apply w op = some w1 → (w1.timers t1).state = .fts_fired →
      (w.timers t1).state = .fts_fired ∨ (w.timers t1).state = .fts_active) ∧
    (∀ fuel wh, (wh.mutexes (wh.timers t).lockp).counter > 0 →
      ∃ wl, fibril_timer_func_after_handler fuel wh t self = some (.returned () wl) ∧
        (wl.mutexes (wh.timers t).lockp).owned_by = some self ∧
        wl.timers = wh.timers ∧
        (fibril_timer_func_handler_done wl t).timers t =
          { (wh.timers t) with handler_fid := none }) ∧
    (∀ fuel wh, ¬ (wh.mutexes (wh.timers t).lockp).counter > 0 →
      check_fibril_for_deadlock wh fuel (some (.mutex (wh.timers t).lockp)) self =
        some false →
      ∃ w1, fibril_timer_func_after_handler fuel wh t self = some (.suspended w1) ∧
        (w1.mutexes (wh.timers t).lockp).waiters =
          (wh.mutexes (wh.timers t).lockp).waiters ++ [AWAITER_INIT self] ∧
        (w1.mutexes (wh.timers t).lockp).owned_by =
          (wh.mutexes (wh.timers t).lockp).owned_by ∧
        (w1.fibrils self).waits_for = some (.mutex (wh.timers t).lockp) ∧
        w1.timers = wh.timers) ∧
    (∀ fuel wh, ¬ (wh.mutexes (wh.timers t).lockp).counter > 0 →
      check_fibril_for_deadlock wh fuel (some (.mutex (wh.timers t).lockp)) self =
        some true →
      fibril_timer_func_after_handler fuel wh t self = some .aborted) ∧
    (∀ fuel wh w1, fibril_timer_func_after_handler fuel wh t self = some (.suspended w1) →
      running wh self → mutex_inv (wh.mutexes (wh.timers t).lockp) →
      ∀ (ops : List (fid_t × sync_op)) (w2 : World), by_others self ops →
        sync_run w1 ops = some w2 →
        w2.timers = wh.timers ∧
        (notifications_of self w2 ≠ notifications_of self w1 →
          (w2.mutexes (wh.timers t).lockp).owned_by = some self ∧
          (fibril_timer_func_handler_done w2 t).timers t =
            { (wh.timers t) with handler_fid := none })) ∧
    (∀ wl, (fibril_timer_func_handler_done wl t).mutexes = wl.mutexes ∧
      (fibril_timer_func_handler_done wl t).fibrils = wl.fibrils ∧
      (fibril_timer_func_handler_done wl t).notified = wl.notified ∧
      (∀ i, i ≠ t → (fibril_timer_func_handler_done wl t).timers i = wl.timers i) ∧
      (fibril_timer_func_handler_done wl t).timers t =
        { (wl.timers t) with handler_fid := none }) ∧
    (∀ (op : timer_op) w0 w1 t1, op.is_user_call = true → timer_op.apply w0 op = some w1 →
      (w1.timers t1).handler_fid = (w0.timers t1).handler_fid) := by
  have hfire : rc = .ETIMEOUT → (w.timers t).state = .fts_active →
      ∃ w2, fibril_timer_func_after_wait w t rc self =
          .handler (w.timers t).func (w.timers t).arg w2 ∧
        fibril_mutex_unlock
          (w.setTimer t { (w.timers t) with state := .fts_fired, handler_fid := some self })
          (w.timers t).lockp self = .returned () w2 ∧
        w2.timers t = { (w.timers t) with state := .fts_fired, handler_fid := some self } ∧
        w2.mutexes = (spec_mutex_release w (w.timers t).lockp).mutexes := by
    intro hrc hst
    have hu := unlock_unsafe_spec
      (w.setTimer t { (w.timers t) with state := .fts_fired, handler_fid := some self })
      (w.timers t).lockp self hinv hlock
    have htm : (spec_mutex_release
        (w.setTimer t { (w.timers t) with state := .fts_fired, handler_fid := some self })
        (w.timers t).lockp).timers t =
        { (w.timers t) with state := .fts_fired, handler_fid := some self } := by
      rw [unlock_unsafe_timers _ _ _ _ hu]
      simp
    refine ⟨_, ?_, ?_, htm, ?_⟩
    · simp only [fibril_timer_func_after_wait, hrc, hst, and_self, if_true,
        fibril_mutex_unlock, hu, htm]
    · simp only [fibril_mutex_unlock, hu]
    · simp only [spec_mutex_release, setTimer_mutexes, setTimer_fibrils]
      split <;> rfl
  have hskip : ¬ (rc = .ETIMEOUT ∧ (w.timers t).state = .fts_active) →
      fibril_timer_func_after_wait w t rc self = .skipped w := by
    intro hn
    simp only [fibril_timer_func_after_wait, hn, if_false]
  refine ⟨⟨?_, ?_⟩, ?_, ?_, hskip, ?_, ?_, ?_, ?_, ?_, ?_, ?_, ?_⟩
  · intro hh
    by_contra hn
    rw [hskip hn] at hh
    simp [timer_fire.isHandler] at hh
  · rintro ⟨hrc, hst⟩
    obtain ⟨w2, h1, -⟩ := hfire hrc hst
    rw [h1]
    rfl
  · intro hst
    simp only [fibril_timer_func_loop, hst]
  · intro hrc hst
    exact hfire hrc hst
  · intro fuel wh wl hl
    simp only [fibril_timer_func_after_handler, fibril_mutex_lock] at hl
    split at hl
    · simp only [Option.some.injEq, Outcome.returned.injEq, true_and] at hl
      subst hl
      constructor
      · simp
      · simp [fibril_timer_func_handler_done]
    · split at hl <;> simp at hl
  · intro op w1 t1 h hf
    exact timer_op_fired w w1 op t1 h hf
  · intro fuel wh hc
    refine ⟨wh.setMutex (wh.timers t).lockp
        { (wh.mutexes (wh.timers t).lockp) with
          counter := (wh.mutexes (wh.timers t).lockp).counter - 1,
          owned_by := some self },
      by simp only [fibril_timer_func_after_handler, fibril_mutex_lock, hc, if_true],
      ?_, rfl, ?_⟩
    · simp
    · simp [fibril_timer_func_handler_done]
  · intro fuel wh hc hchk
    obtain ⟨w1, h1, p1, -, p3, -, -, -, -, -⟩ :=
      lock_blocks fuel wh (wh.timers t).lockp self hc hchk
    refine ⟨w1, h1, by rw [p1], by rw [p1], p3, ?_⟩
    exact lock_timers fuel wh w1 _ self (by rw [h1]; rfl)
  · intro fuel wh hc hchk
    exact lock_aborts fuel wh (wh.timers t).lockp self hc hchk
  · intro fuel wh w1 h1 hrun hinvh ops w2 hb hr
    have ht1 : w1.timers = wh.timers :=
      lock_timers fuel wh w1 (wh.timers t).lockp self
        (by simp only [fibril_timer_func_after_handler] at h1; rw [h1]; rfl)
    have ht2 : w2.timers = wh.timers := by
      rw [sync_run_timers ops w1 w2 hr, ht1]
    refine ⟨ht2, fun hn => ?_⟩
    have hst := lock_starts fuel wh w1 (wh.timers t).lockp self hrun h1
    have hinv1 : mutex_inv (w1.mutexes (wh.timers t).lockp) :=
      mutex_op_apply_inv wh w1 (.lock fuel (wh.timers t).lockp self) (wh.timers t).lockp
        (by
          simp only [fibril_timer_func_after_handler] at h1
          simp only [mutex_op.apply, h1, Option.bind, Outcome.world])
        hinvh
    refine ⟨(lock_wakeup_owner self (wh.timers t).lockp _ _ ops w1 w2 hb hr hst hinv1
      (fun h => absurd rfl h)).2.2 hn, ?_⟩
    simp [fibril_timer_func_handler_done, ht2]
  · intro wl
    refine ⟨rfl, rfl, rfl, ?_, ?_⟩
    · intro i hi
      simp [fibril_timer_func_handler_done, hi]
    · simp [fibril_timer_func_handler_done]
  · intro op w0 w1 t1 hu h
    exact timer_user_op_handler_fid w0 w1 op t1 hu h

/-- C19 at a concrete memory: the wait of the armed timer 0 returned `ETIMEOUT`
to its fibril 9, which holds the lock; and, after the handler, fibril 9 blocks
on the lock that fibril 1 holds and owns it once fibril 1 has unlocked. -/
theorem C19_timer_fire_witness :
    (World.armed_zero.mutexes (World.armed_zero.timers 0).lockp).owned_by = some 9 ∧
    mutex_inv (World.armed_zero.mutexes (World.armed_zero.timers 0).lockp) ∧
    (∃ w2, fibril_timer_func_after_wait World.armed_zero 0 .ETIMEOUT 9 =
        .handler (some 7) none w2 ∧
      (w2.timers 0).state = .fts_fired ∧ (w2.timers 0).handler_fid = some 9 ∧
      fibril_timer_func_after_wait World.armed_zero 0 .EOK 9 = .skipped World.armed_zero) ∧
    ∃ w1 w2, fibril_timer_func_after_handler 2 World.handler_zero 0 9 = some (.suspended w1) ∧
      sync_run w1 [(1, sync_op.mutex_unlock 0)] = some w2 ∧
      (w2.mutexes 0).owned_by = some 9 ∧
      (fibril_timer_func_handler_done w2 0).timers 0 =
        { (World.handler_zero.timers 0) with handler_fid := none } :=
  ⟨rfl, by decide,
    match (C19_timer_fire World.armed_zero 0 .ETIMEOUT 9 rfl (by decide)).2.2.1 rfl rfl with
    | ⟨w2, h1, _, h3, _⟩ =>
      ⟨w2, h1, by rw [h3], by rw [h3],
        (C19_timer_fire World.armed_zero 0 .EOK 9 rfl (by decide)).2.2.2.1
          (fun h => by cases h.1)⟩,
    _, _, rfl, rfl,
    ((C19_timer_fire World.armed_zero 0 .ETIMEOUT 9 rfl (by decide)).2.2.2.2.2.2.2.2.2.1
      2 World.handler_zero _ rfl
      (fun q => by
        cases q <;> simp [World.queue, World.handler_zero, World.boot, records_of]
        split <;> simp)
      (by decide) [(1, sync_op.mutex_unlock 0)] _
      (fun p hp => by simp at hp; subst hp; decide) rfl).2 (by decide)⟩

end FibrilSynch
